import Mathlib

/-!
# Associated Legendre table and spherical harmonics (`src/zeta/spherical.h`)

A shallow embedding of the classes `poly_term`, `associated_legendre_poly`,
`associated_legendre` and `spherical_harmonic`.

Conventions of the embedding:

* `double` is a type parameter `K` of the definitions, together with the arithmetic
  operations each of them uses. Two readings are instantiated: a field (the reals when a
  statement speaks of exact real arithmetic, the rationals when such a value is
  computed), and the type `binary64` of the IEEE 754 doubles, whose operations round to
  nearest; overflow and underflow are not modelled.
* `int` is `Int`; the width of `int` is not modelled (signed overflow is undefined
  in C++, and an index `l*l + l - m` beyond 31 bits would need a table of more than
  `2^31` stored polynomials).
* A member function that mutates `this` takes the old object and returns the new one.
* A call that can abort returns `Except Fault _`.
* The functions of the C math library are passed in as a record `libm K`.
-/

namespace Zeta

/-- Ways in which a call can abort. -/
inductive Fault where
  /-- An `assert` is violated. -/
  | assertion
  /-- The subscript of `std::vector::operator[]` is outside the stored range. -/
  | out_of_range
  /-- The function `gsl_sf_gamma` is called at an integer below one. -/
  | gamma_domain
  /-- A loop of the model ran out of its iteration budget (shown never to happen). -/
  | out_of_fuel
  deriving DecidableEq, Repr

/-! ## `poly_term` -/

/-- One term `fac * z^zexp * sqrt(1-z^2)^qexp`; the fields are listed in the order of
the constructor `poly_term(int zexp, int qexp, double fac)`. -/
structure poly_term (K : Type) where
  zexp : Int
  qexp : Int
  fac : K
  deriving DecidableEq, Repr

namespace poly_term

variable {K : Type}

def copy (t : poly_term K) : poly_term K := ⟨t.zexp, t.qexp, t.fac⟩

def copy_z_plus_1 (t : poly_term K) : poly_term K := ⟨t.zexp + 1, t.qexp, t.fac⟩

def copy_q_plus_1 (t : poly_term K) : poly_term K := ⟨t.zexp, t.qexp + 1, t.fac⟩

def scale [Mul K] (t : poly_term K) (fac : K) : poly_term K := { t with fac := t.fac * fac }

def add [Add K] (t : poly_term K) (fac : K) : poly_term K := { t with fac := t.fac + fac }

def get_z (t : poly_term K) : Int := t.zexp

def get_q (t : poly_term K) : Int := t.qexp

def get_fac (t : poly_term K) : K := t.fac

/-- The source computes `fac * pow(sqrt(1.-z*z), qexp) * pow(z, zexp)`; the square root
of the math library is the parameter `sqrt`. -/
def evaluate [One K] [Sub K] [Mul K] [Pow K Int] (sqrt : K → K) (t : poly_term K)
    (z : K) : K :=
  t.fac * sqrt (1 - z * z) ^ t.qexp * z ^ t.zexp

end poly_term

/-! ## `associated_legendre_poly` -/

/-- A polynomial: the vector of its terms, in storage order. -/
structure associated_legendre_poly (K : Type) where
  poly : List (poly_term K)
  deriving DecidableEq, Repr

namespace associated_legendre_poly

variable {K : Type}

/-- The default argument `poly = {}` of the constructor. -/
def empty : associated_legendre_poly K := ⟨[]⟩

def copy (p : associated_legendre_poly K) : associated_legendre_poly K := ⟨p.poly⟩

/-- The loop of `add(poly_term)`: add into the first stored term with the same
exponents and return, or reach the end and push the term. -/
def add_loop [Add K] : List (poly_term K) → poly_term K → List (poly_term K)
  | [], term => [term]
  | term0 :: rest, term =>
    if term0.get_z = term.get_z ∧ term0.get_q = term.get_q then
      term0.add term.get_fac :: rest
    else
      term0 :: add_loop rest term

/-- Member `void add(poly_term term)`. -/
def add [Add K] (p : associated_legendre_poly K) (term : poly_term K) :
    associated_legendre_poly K :=
  ⟨add_loop p.poly term⟩

/-- Member `void add(associated_legendre_poly alp)`: every term of `alp`, in order. -/
def add_alp [Add K] (p alp : associated_legendre_poly K) : associated_legendre_poly K :=
  alp.poly.foldl (fun acc term0 => acc.add term0) p

def scale [Mul K] (p : associated_legendre_poly K) (fac : K) : associated_legendre_poly K :=
  ⟨p.poly.map (fun term0 => term0.scale fac)⟩

def copy_z_plus_1 [Add K] (p : associated_legendre_poly K) : associated_legendre_poly K :=
  p.poly.foldl (fun p0 term0 => p0.add term0.copy_z_plus_1) ⟨[]⟩

def copy_q_plus_1 [Add K] (p : associated_legendre_poly K) : associated_legendre_poly K :=
  p.poly.foldl (fun p0 term0 => p0.add term0.copy_q_plus_1) ⟨[]⟩

/-- The accumulation `val = 0.; val += term0->evaluate(z)` over the terms in order. -/
def evaluate [Zero K] [One K] [Add K] [Sub K] [Mul K] [Pow K Int] (sqrt : K → K)
    (p : associated_legendre_poly K) (z : K) : K :=
  p.poly.foldl (fun val term0 => val + term0.evaluate sqrt z) 0

end associated_legendre_poly

/-! ## `associated_legendre` -/

structure associated_legendre_pair (K : Type) where
  l : Int
  m : Int
  ascleg : associated_legendre_poly K
  deriving DecidableEq, Repr

/-- Modelled from the spec: `gsl_sf_gamma` of the GNU Scientific Library, which is not
part of the repository. Every call in the source has an integer-valued argument; at an
integer `n ≥ 1` the Gamma function is `(n-1)!`, at the other integers it has a pole and
the library reports a domain error. -/
def gsl_sf_gamma {K : Type} [NatCast K] (n : Int) : Except Fault K :=
  if 1 ≤ n then .ok ((n - 1).toNat.factorial : K) else .error .gamma_domain

/-- The table: the vector of entries and the highest degree built. -/
structure associated_legendre (K : Type) where
  poly : List (associated_legendre_pair K)
  maxOrder : Int
  deriving DecidableEq, Repr

namespace associated_legendre

variable {K : Type}

/-- The read `this->poly[l*l + l - m]`. -/
def at_index (s : associated_legendre K) (l m : Int) :
    Except Fault (associated_legendre_pair K) :=
  let i := l * l + l - m
  if 0 ≤ i then
    match s.poly[i.toNat]? with
    | some e => .ok e
    | none => .error .out_of_range
  else .error .out_of_range

def get_poly (s : associated_legendre K) (l m : Int) :
    Except Fault (associated_legendre_poly K) :=
  match s.at_index l m with
  | .ok e => .ok e.ascleg
  | .error f => .error f

def push_back (s : associated_legendre K) (e : associated_legendre_pair K) :
    associated_legendre K :=
  { s with poly := s.poly ++ [e] }

/-- The rule `P_{l+1}^{l+1} = -(2l+1) sqrt(1-x^2) P_l^l`. -/
def sumrule_lplus1 [Add K] [Mul K] [Neg K] [One K] [IntCast K] (s : associated_legendre K)
    (l : Int) :
    Except Fault (associated_legendre K) :=
  match s.get_poly l l with
  | .error f => .error f
  | .ok p =>
    let pl1 := p.copy_q_plus_1.scale (-(((2 * l : Int) : K) + 1))
    .ok (s.push_back ⟨l + 1, l + 1, pl1⟩)

/-- The rule `(l-m+1) P_{l+1}^m = (2l+1) x P_l^m - (l+m) P_{l-1}^m`. -/
def sumrule_mplus1 [Add K] [Mul K] [Div K] [One K] [IntCast K] (s : associated_legendre K)
    (l m : Int) :
    Except Fault (associated_legendre K) :=
  match s.get_poly l m with
  | .error f => .error f
  | .ok p =>
    let pl0 := p.copy_z_plus_1
    let pl1 : Except Fault (associated_legendre_poly K) :=
      if m < l then
        match s.get_poly (l - 1) m with
        | .ok q => .ok q.copy
        | .error f => .error f
      else .ok associated_legendre_poly.empty
    match pl1 with
    | .error f => .error f
    | .ok pl1 =>
      let pl0 := pl0.scale (((2 * l + 1 : Int) : K) / (((l - m : Int) : K) + 1))
      let pl1 := pl1.scale (((-(l + m) : Int) : K) / (((l - m : Int) : K) + 1))
      let pl0 := pl0.add_alp pl1
      .ok (s.push_back ⟨l + 1, m, pl0⟩)

/-- The rule `P_l^{-m} = Gamma(l-m+1)/Gamma(l+m+1) P_l^m`, called with the new (negative)
order `m`, while `maxOrder` still has its old value `l`. -/
def sumrule_minusm [Mul K] [Div K] [NatCast K] (s : associated_legendre K) (l m : Int) :
    Except Fault (associated_legendre K) :=
  match s.get_poly (l + 1) (-m) with
  | .error f => .error f
  | .ok p =>
    let pl0 := p.copy
    match (gsl_sf_gamma (l + m + 2) : Except Fault K), (gsl_sf_gamma (l - m + 2) : Except Fault K) with
    | .ok g1, .ok g2 => .ok (s.push_back ⟨l + 1, m, pl0.scale (g1 / g2)⟩)
    | .error f, _ => .error f
    | _, .error f => .error f

/-- The body of the loop of `increment_max_order` for one value of `m`. -/
def increment_body [Add K] [Mul K] [Neg K] [Div K] [One K] [NatCast K] [IntCast K]
    (s : associated_legendre K) (l m : Int) :
    Except Fault (associated_legendre K) :=
  if m = l + 1 then s.sumrule_lplus1 l
  else if m ≥ 0 then s.sumrule_mplus1 l m
  else s.sumrule_minusm l m

/-- The loop `for (int m = l+1; m > -l-2; m--)`, entered with the current `m`. -/
def increment_loop [Add K] [Mul K] [Neg K] [Div K] [One K] [NatCast K] [IntCast K]
    (l : Int) :
    Nat → Int → associated_legendre K → Except Fault (associated_legendre K)
  | 0, m, s => if m > -l - 2 then .error .out_of_fuel else .ok s
  | fuel + 1, m, s =>
    if m > -l - 2 then
      match s.increment_body l m with
      | .error f => .error f
      | .ok s1 => increment_loop l fuel (m - 1) s1
    else .ok s

/-- Member `increment_max_order` (the printing of `doPrint` has no effect on the object). -/
def increment_max_order [Add K] [Mul K] [Neg K] [Div K] [One K] [NatCast K] [IntCast K]
    (s : associated_legendre K) :
    Except Fault (associated_legendre K) :=
  let l := s.maxOrder
  match increment_loop l (2 * l + 3).toNat (l + 1) s with
  | .error f => .error f
  | .ok s1 => .ok { s1 with maxOrder := s1.maxOrder + 1 }

/-- The loop `while (bound > this->maxOrder) increment_max_order()` of the constructor
and of `get`. -/
def grow_loop [Add K] [Mul K] [Neg K] [Div K] [One K] [NatCast K] [IntCast K]
    (bound : Int) :
    Nat → associated_legendre K → Except Fault (associated_legendre K)
  | 0, s => if bound > s.maxOrder then .error .out_of_fuel else .ok s
  | fuel + 1, s =>
    if bound > s.maxOrder then
      match s.increment_max_order with
      | .error f => .error f
      | .ok s1 => grow_loop bound fuel s1
    else .ok s

/-- The constructor `associated_legendre(int maxOrder)`. -/
def construct [Add K] [Mul K] [Neg K] [Div K] [One K] [NatCast K] [IntCast K]
    (maxOrder : Int) : Except Fault (associated_legendre K) :=
  let p0 : associated_legendre_poly K := ⟨[⟨0, 0, 1⟩]⟩
  let this : associated_legendre K := ⟨[⟨0, 0, p0⟩], 0⟩
  grow_loop maxOrder maxOrder.toNat this

/-- Member `get`: the returned copy together with the table after the call. -/
def get [Add K] [Mul K] [Neg K] [Div K] [One K] [NatCast K] [IntCast K]
    (s : associated_legendre K) (l m : Int) :
    Except Fault (associated_legendre_poly K × associated_legendre K) :=
  if |m| < l + 1 then
    match grow_loop l (l - s.maxOrder).toNat s with
    | .error f => .error f
    | .ok s1 =>
      match s1.at_index l m with
      | .error f => .error f
      | .ok e => .ok (e.ascleg.copy, s1)
  else .error .assertion

end associated_legendre

/-! ## `spherical_harmonic` -/

/-- The functions and the constant of `<math.h>` that the source calls; they are not part
of the repository and are parameters of the model. -/
structure libm (K : Type) where
  sqrt : K → K
  pow : K → K → K
  atan2 : K → K → K
  cos : K → K
  sin : K → K
  M_PI : K

/-- Modelled from the spec: the type `gsl_complex` of the GNU Scientific Library, a pair
of a real and an imaginary part. -/
structure gsl_complex (K : Type) where
  re : K
  im : K
  deriving DecidableEq, Repr

/-- Modelled from the spec: `gsl_complex_rect(x, y)` is `x + i y`. -/
def gsl_complex_rect {K : Type} (x y : K) : gsl_complex K := ⟨x, y⟩

/-- Modelled from the spec: `gsl_complex_polar(r, theta)` is `r cos(theta) + i r sin(theta)`. -/
def gsl_complex_polar {K : Type} [Mul K] (M : libm K) (r theta : K) : gsl_complex K :=
  ⟨r * M.cos theta, r * M.sin theta⟩

/-- Modelled from the spec: `gsl_complex_mul_real(a, x)` multiplies both parts of `a` by
the real `x`. -/
def gsl_complex_mul_real {K : Type} [Mul K] (a : gsl_complex K) (x : K) : gsl_complex K :=
  ⟨x * a.re, x * a.im⟩

/-- The evaluator: the table `*aleg`, the cached polynomial and its key. -/
structure spherical_harmonic (K : Type) where
  aleg : associated_legendre K
  alpoly : associated_legendre_poly K
  lnow : Int
  mnow : Int
  deriving DecidableEq, Repr

namespace spherical_harmonic

variable {K : Type}

def load_poly [Field K] (s : spherical_harmonic K) (l m : Int) :
    Except Fault (spherical_harmonic K) :=
  if l ≠ s.lnow ∨ m ≠ s.mnow then
    match s.aleg.get l m with
    | .error f => .error f
    | .ok (p, a) => .ok { s with aleg := a, alpoly := p, lnow := l, mnow := m }
  else .ok s

/-- The constructor `spherical_harmonic(int maxOrder)`: the member `alpoly` is
default-constructed (the empty polynomial) before the body runs; the body allocates the
table, sets `lnow = 0`, `mnow = 0`, and then calls `load_poly(0,0)`. -/
def construct [Field K] (maxOrder : Int) : Except Fault (spherical_harmonic K) :=
  match associated_legendre.construct maxOrder with
  | .error f => .error f
  | .ok a =>
    let this : spherical_harmonic K := ⟨a, associated_legendre_poly.empty, 0, 0⟩
    this.load_poly 0 0

def Ylm_cosTheta [Add K] [Mul K] [Div K] (M : libm K) (x0 x1 x2 : K) : K :=
  let x := M.sqrt (x0 * x0 + x1 * x1 + x2 * x2)
  x2 / x

def Ylm_phi [LinearOrderedField K] (M : libm K) (x0 x1 _x2 : K) : K :=
  if |x0| < 1 / 10 ^ 8 then
    (((if x1 > 0 then 1 else if x1 < 0 then -1 else 0 : Int) : K)) * (1 / 2) * M.M_PI
  else M.atan2 x1 x0

/-- The local `xl = pow(x0*x0 + x1*x1 + x2*x2, .5*l)` of `evaluate`. -/
def evaluate_xl [Field K] (M : libm K) (l : Int) (x0 x1 x2 : K) : K :=
  M.pow (x0 * x0 + x1 * x1 + x2 * x2) (1 / 2 * (l : K))

/-- Member `evaluate`: the returned complex number and the evaluator after the call. -/
def evaluate [LinearOrderedField K] (M : libm K) (s : spherical_harmonic K) (l m : Int)
    (x0 x1 x2 : K) : Except Fault (gsl_complex K × spherical_harmonic K) :=
  let xl := evaluate_xl M l x0 x1 x2
  if xl > 0 then
    match (gsl_sf_gamma (l - m + 1) : Except Fault K),
      (gsl_sf_gamma (l + m + 1) : Except Fault K) with
    | .error f, _ => .error f
    | .ok _, .error f => .error f
    | .ok g1, .ok g2 =>
      let pfac := M.sqrt ((2 * (l : K) + 1) / (4 * M.M_PI) * g1 / g2)
      let costh := Ylm_cosTheta M x0 x1 x2
      let eimphi := gsl_complex_polar M 1 ((m : K) * Ylm_phi M x0 x1 x2)
      match s.load_poly l m with
      | .error f => .error f
      | .ok s1 => .ok (gsl_complex_mul_real eimphi (pfac * s1.alpoly.evaluate M.sqrt costh), s1)
  else .ok (gsl_complex_rect 0 0, s)

end spherical_harmonic

/-! ## The type `double` with IEEE 754 rounding

The finite numbers of the format binary64 with the arithmetic of the default rounding
mode (to nearest, ties to even). The exponent is unbounded: overflow, gradual underflow,
infinities, NaN and the sign of zero are not modelled. The definitions of the table are
run over this type to see what the stored coefficients and the values of `evaluate` are
when every operation rounds. That every operation returns a nearest `double` to its exact
result is proved in the section "Rounding is to nearest". -/

/-- A finite `double`: the number `m * 2^e`. The operations below return the
representation with an odd significand `m` (and `0 * 2^0` for zero), so that equal
numbers are equal records. -/
structure binary64 where
  m : Int
  e : Int
  deriving DecidableEq, Repr

namespace binary64

/-- The rational number that the record stands for. -/
def toRat (a : binary64) : ℚ := a.m * 2 ^ a.e

/-- The number of binary digits of `n` (`0` for `0`), by halving at most `fuel` times;
`fuel = n` is always enough. -/
def bit_length : Nat → Nat → Nat
  | 0, _ => 0
  | fuel + 1, n => if n = 0 then 0 else bit_length fuel (n / 2) + 1

/-- Halve the significand while it is even, at most `fuel` times. -/
def strip : Nat → Int → Int → binary64
  | 0, m, e => ⟨m, e⟩
  | fuel + 1, m, e => if m % 2 = 0 then strip fuel (m / 2) (e + 1) else ⟨m, e⟩

/-- The representation of `m * 2^e` with an odd significand; zero is `0 * 2^0`. -/
def normal (m e : Int) : binary64 :=
  if m = 0 then ⟨0, 0⟩ else strip m.natAbs m e

/-- The numerator of `n / d / 2^k` as a quotient of two natural numbers. -/
def scale_num (n : Nat) (k : Int) : Nat := if 0 ≤ k then n else n * 2 ^ (-k).toNat

/-- The denominator of `n / d / 2^k` as a quotient of two natural numbers. -/
def scale_den (d : Nat) (k : Int) : Nat := if 0 ≤ k then d * 2 ^ k.toNat else d

/-- Rounding of the positive rational `n / d * 2^E` to a significand of 53 binary digits:
the shift `k` is chosen with `2^52 ≤ n / (d * 2^k) < 2^53` (the first guess `k0`, from the
numbers of digits of `n` and `d`, is right or one too small), the quotient is truncated to
the integer `q`, and `q` is increased by one when the remainder is more than half of the
divisor, or exactly half of it with `q` odd. The result is `(q1, k + E)`, standing for
`q1 * 2^(k + E)`. -/
def round_pos (n d : Nat) (E : Int) : Nat × Int :=
  let k0 : Int := (bit_length n n : Int) - (bit_length d d : Int) - 53
  let q0 : Nat := scale_num n k0 / scale_den d k0
  let k : Int := if q0 < 2 ^ 53 then k0 else k0 + 1
  let q : Nat := scale_num n k / scale_den d k
  let r : Nat := scale_num n k % scale_den d k
  let q1 : Nat :=
    if 2 * r > scale_den d k ∨ (2 * r = scale_den d k ∧ q % 2 = 1) then q + 1 else q
  (q1, k + E)

/-- The `double` nearest to the rational `n / d * 2^E`, a tie going to the even
significand. A zero denominator (a division by zero, which IEEE 754 answers with an
infinity or a NaN) is not modelled and gives zero. -/
def round (n : Int) (d : Nat) (E : Int) : binary64 :=
  if n = 0 ∨ d = 0 then ⟨0, 0⟩
  else
    let r := round_pos n.natAbs d E
    normal (if n < 0 then -(r.1 : Int) else (r.1 : Int)) r.2

/-- The sum `a + b`: the exact sum, rounded. -/
def add (a b : binary64) : binary64 :=
  let e := min a.e b.e
  round (a.m * 2 ^ (a.e - e).toNat + b.m * 2 ^ (b.e - e).toNat) 1 e

/-- The negation `-a`, which is exact. -/
def neg (a : binary64) : binary64 := ⟨-a.m, a.e⟩

/-- The difference `a - b`: the exact difference, rounded. -/
def sub (a b : binary64) : binary64 := add a (neg b)

/-- The product `a * b`: the exact product, rounded. -/
def mul (a b : binary64) : binary64 := round (a.m * b.m) 1 (a.e + b.e)

/-- The quotient `a / b`: the exact quotient, rounded. -/
def div (a b : binary64) : binary64 :=
  round (if b.m < 0 then -a.m else a.m) b.m.natAbs (a.e - b.e)

/-- The integer square root by the digit-by-digit method: `isqrt_loop k n` is the largest
`s` with `s * s ≤ n` when `n < 4^k`. -/
def isqrt_loop : Nat → Nat → Nat
  | 0, _ => 0
  | k + 1, n =>
    let s := 2 * isqrt_loop k (n / 4)
    if (s + 1) * (s + 1) ≤ n then s + 1 else s

/-- Modelled from the spec: `sqrt` of `<math.h>`, which IEEE 754 requires to be correctly
rounded. The argument is written `m * 2^e` with `e` even, `s` is the integer square root
of `m * 4^64` (at least 64 binary digits), and `s`, followed by one more digit that tells
whether the root is inexact, is rounded. The square root of a negative number (a NaN) is
not modelled and gives zero. -/
def sqrt (a : binary64) : binary64 :=
  if a.m ≤ 0 then ⟨0, 0⟩
  else
    let m : Nat := if a.e % 2 = 0 then a.m.toNat else 2 * a.m.toNat
    let e : Int := if a.e % 2 = 0 then a.e else a.e - 1
    let n : Nat := m * 4 ^ 64
    let s : Nat := isqrt_loop (bit_length n n) n
    let sticky : Nat := if s * s = n then 0 else 1
    round ((2 * s + sticky : Nat) : Int) 1 (e / 2 - 64 - 1)

/-- Modelled from the spec: `pow(x, n)` of `<math.h>` at an integer exponent `n`, taken
as the exact power, rounded; in particular `pow(x, 0) = 1` and `pow(x, 1) = x`. -/
def pow (a : binary64) (n : Int) : binary64 :=
  if 0 ≤ n then round (a.m ^ n.toNat) 1 (a.e * n)
  else round (if a.m < 0 ∧ n % 2 = 1 then -1 else 1) (a.m.natAbs ^ (-n).toNat) (-(a.e * (-n)))

instance : Zero binary64 := ⟨⟨0, 0⟩⟩

instance : One binary64 := ⟨⟨1, 0⟩⟩

instance : Add binary64 := ⟨add⟩

instance : Neg binary64 := ⟨neg⟩

instance : Sub binary64 := ⟨sub⟩

instance : Mul binary64 := ⟨mul⟩

instance : Div binary64 := ⟨div⟩

/-- The conversion of an integer to `double`: the nearest `double`. -/
instance : NatCast binary64 := ⟨fun n => round n 1 0⟩

instance : IntCast binary64 := ⟨fun n => round n 1 0⟩

instance : Pow binary64 Int := ⟨pow⟩

end binary64

/-! ## Exponents of the terms of a polynomial -/

/-- Every term of `p` has exponents satisfying `Q`. -/
def all_exps {K : Type} (Q : Int → Int → Prop) (p : associated_legendre_poly K) : Prop :=
  ∀ t ∈ p.poly, Q t.zexp t.qexp

/-- The exponents allowed in the polynomial of degree `l` and order `±m`: the power of
`sqrt(1-z^2)` is `m`, the power of `z` is at most `l - m` and has the parity of `l - m`. -/
def shape (l m : Nat) (zexp qexp : Int) : Prop :=
  qexp = m ∧ 0 ≤ zexp ∧ zexp ≤ (l : Int) - m ∧ ((l : Int) - m - zexp) % 2 = 0

/-! ## Closed description of the table -/

section reference

variable {K : Type} [Field K]

/-- The polynomial that `sumrule_lplus1` stores, as a function of the one it reads. -/
def top_rule (l : Int) (p : associated_legendre_poly K) : associated_legendre_poly K :=
  p.copy_q_plus_1.scale (-(((2 * l : Int) : K) + 1))

/-- The polynomial that `sumrule_mplus1` stores, as a function of the two it reads
(`q` is the copy of `P_{l-1}^m`, or the empty polynomial). -/
def mplus_rule (l m : Int) (p q : associated_legendre_poly K) : associated_legendre_poly K :=
  (p.copy_z_plus_1.scale (((2 * l + 1 : Int) : K) / (((l - m : Int) : K) + 1))).add_alp
    (q.scale (((-(l + m) : Int) : K) / (((l - m : Int) : K) + 1)))

/-- The polynomial that `sumrule_minusm` stores for the degree `l` and the negative order
`m`, as a function of the one it reads. -/
def minus_rule (l : Nat) (m : Int) (p : associated_legendre_poly K) :
    associated_legendre_poly K :=
  p.copy.scale ((((l : Int) + m).toNat.factorial : K) / (((l : Int) - m).toNat.factorial : K))

/-- The stored polynomial of degree `l` and order `m ≥ 0`. -/
def entry_nonneg : Nat → Nat → associated_legendre_poly K
  | 0, _ => ⟨[⟨0, 0, 1⟩]⟩
  | 1, m =>
    if m = 1 then top_rule 0 (entry_nonneg 0 0)
    else mplus_rule 0 m (entry_nonneg 0 m) associated_legendre_poly.empty
  | l + 2, m =>
    if m = l + 2 then top_rule ((l : Int) + 1) (entry_nonneg (l + 1) (l + 1))
    else mplus_rule ((l : Int) + 1) m (entry_nonneg (l + 1) m)
      (if m < l + 1 then (entry_nonneg l m).copy else associated_legendre_poly.empty)

/-- The stored polynomial of degree `l` and order `m`. -/
def entry (l : Nat) (m : Int) : associated_legendre_poly K :=
  if 0 ≤ m then entry_nonneg l m.toNat else minus_rule l m (entry_nonneg l (-m).toNat)

/-- The entries of degree `l`, in storage order: the orders `l, l-1, ..., -l`. -/
def row (l : Nat) : List (associated_legendre_pair K) :=
  (List.range (2 * l + 1)).map (fun (j : Nat) => ⟨l, (l : Int) - j, entry l ((l : Int) - j)⟩)

/-- The entries of the degrees `0, ..., N`. -/
def table_list : Nat → List (associated_legendre_pair K)
  | 0 => row 0
  | N + 1 => table_list N ++ row (N + 1)

/-- The table with the degrees `0, ..., N` built. -/
def canonical (N : Nat) : associated_legendre K := ⟨table_list N, N⟩

/-- The table in the middle of `increment_max_order`: the degrees `0, ..., N` and the
first `k` entries of the degree `N + 1`. -/
def midway_table (N k : Nat) : associated_legendre K :=
  ⟨table_list N ++ (row (N + 1)).take k, N⟩

/-- The states of a table object: the results of the constructor, and the results of
`get` and `increment_max_order` on such a state. -/
inductive Reachable : associated_legendre K → Prop
  | construct (maxOrder : Int) (s : associated_legendre K) :
      associated_legendre.construct maxOrder = .ok s → Reachable s
  | get (s : associated_legendre K) (l m : Int) (p : associated_legendre_poly K)
      (s1 : associated_legendre K) :
      Reachable s → s.get l m = .ok (p, s1) → Reachable s1
  | increment (s s1 : associated_legendre K) :
      Reachable s → s.increment_max_order = .ok s1 → Reachable s1

end reference

/-! ## Exponent pairs and coefficients of a polynomial -/

/-- The exponent pairs `(zexp, qexp)` of the stored terms, in storage order. -/
def exps {K : Type} (p : associated_legendre_poly K) : List (Int × Int) :=
  p.poly.map (fun t => (t.zexp, t.qexp))

/-- No two stored terms share the same pair `(zexp, qexp)`. -/
def distinct_exps {K : Type} (p : associated_legendre_poly K) : Prop :=
  (exps p).Nodup

/-- The sum of the coefficients of the terms of a list that have the exponents `(a, b)`. -/
def coeff_sum {K : Type} [AddCommMonoid K] (xs : List (poly_term K)) (a b : Int) : K :=
  ((xs.filter (fun t => decide (t.zexp = a ∧ t.qexp = b))).map (fun t => t.fac)).sum

/-! ## States of the evaluator -/

/-- The states of an evaluator object: the results of the constructor, and the results
of the `evaluate` calls that return. -/
inductive sh_reachable {K : Type} [LinearOrderedField K] (M : libm K) :
    spherical_harmonic K → Prop
  | construct (maxOrder : Int) (s : spherical_harmonic K) :
      spherical_harmonic.construct maxOrder = .ok s → sh_reachable M s
  | evaluate (s : spherical_harmonic K) (l m : Int) (x0 x1 x2 : K) (v : gsl_complex K)
      (s1 : spherical_harmonic K) :
      sh_reachable M s → s.evaluate M l m x0 x1 x2 = .ok (v, s1) → sh_reachable M s1

/-- What holds of the cache in every state of an evaluator: the table is one of the
tables `canonical N`, and the cached polynomial is either the empty one that the
constructor left under the key `(0, 0)`, or the table's polynomial for a valid key. -/
def cache_state {K : Type} [Field K] (s : spherical_harmonic K) : Prop :=
  ∃ N : Nat, s.aleg = canonical N ∧
    ((s.lnow = 0 ∧ s.mnow = 0 ∧ s.alpoly = associated_legendre_poly.empty) ∨
      (∃ l : Nat, s.lnow = l ∧ -(l : Int) ≤ s.mnow ∧ s.mnow ≤ l ∧ s.alpoly = entry l s.mnow))

/-! ## The mathematical functions named by the specification -/

/-- Spec: `P` is the Legendre polynomial of degree `l`, given by the Rodrigues formula
`P_l(z) = 1/(2^l l!) d^l/dz^l (z^2 - 1)^l`. -/
def is_legendre_polynomial (l : Nat) (P : Polynomial ℝ) : Prop :=
  P = Polynomial.C (1 / (2 ^ l * (l.factorial : ℝ)))
        * Polynomial.derivative^[l] ((Polynomial.X ^ 2 - 1) ^ l)

/-- Spec: `y` is the value at `z` of the associated Legendre function of degree `l` and
order `m ≥ 0`, `P_l^m(z) = (-1)^m (1 - z^2)^(m/2) d^m/dz^m P_l(z)`. -/
def is_associated_legendre_value (l m : Nat) (z y : ℝ) : Prop :=
  ∃ P : Polynomial ℝ, is_legendre_polynomial l P ∧
    y = (-1) ^ m * (1 - z ^ 2) ^ ((m : ℝ) / 2)
          * Polynomial.eval z (Polynomial.derivative^[m] P)

/-- The record `M` holds the real functions that `<math.h>` approximates: the square
root, the real power, the two-argument arc tangent (the argument of `x + i y`), cosine,
sine and the number pi. -/
def is_real_libm (M : libm ℝ) : Prop :=
  M.sqrt = Real.sqrt ∧ M.pow = (fun x y => x ^ y) ∧
    M.atan2 = (fun y x => Complex.arg ⟨x, y⟩) ∧
    M.cos = Real.cos ∧ M.sin = Real.sin ∧ M.M_PI = Real.pi

/-! ## Evaluation of the polynomial operations -/

section eval

variable {K : Type} [Field K]

theorem foldl_add_eq_sum {α : Type} (f : α → K) (xs : List α) (a : K) :
    xs.foldl (fun val x => val + f x) a = a + (xs.map f).sum := by
  induction xs generalizing a with
  | nil => simp
  | cons x xs ih => simp [ih, add_assoc]

theorem evaluate_eq_sum (sqrt : K → K) (p : associated_legendre_poly K) (z : K) :
    p.evaluate sqrt z = (p.poly.map (fun t => t.evaluate sqrt z)).sum := by
  unfold associated_legendre_poly.evaluate
  rw [foldl_add_eq_sum]; simp

theorem evaluate_empty (sqrt : K → K) (z : K) :
    (associated_legendre_poly.empty : associated_legendre_poly K).evaluate sqrt z = 0 := rfl

theorem sum_add_loop (sqrt : K → K) (z : K) (xs : List (poly_term K)) (term : poly_term K) :
    ((associated_legendre_poly.add_loop xs term).map (fun t => t.evaluate sqrt z)).sum
      = (xs.map (fun t => t.evaluate sqrt z)).sum + term.evaluate sqrt z := by
  induction xs with
  | nil => simp [associated_legendre_poly.add_loop]
  | cons x xs ih =>
    unfold associated_legendre_poly.add_loop
    split
    · rename_i h
      simp only [poly_term.get_z, poly_term.get_q] at h
      simp only [List.map_cons, List.sum_cons, poly_term.evaluate, poly_term.add,
        poly_term.get_fac, h.1, h.2]
      ring
    · simp only [List.map_cons, List.sum_cons, ih]; ring

theorem evaluate_add (sqrt : K → K) (z : K) (p : associated_legendre_poly K)
    (term : poly_term K) :
    (p.add term).evaluate sqrt z = p.evaluate sqrt z + term.evaluate sqrt z := by
  simp only [evaluate_eq_sum, associated_legendre_poly.add, sum_add_loop]

theorem evaluate_foldl_add {α : Type} (sqrt : K → K) (z : K) (f : α → poly_term K)
    (xs : List α) (acc : associated_legendre_poly K) :
    (xs.foldl (fun p0 x => p0.add (f x)) acc).evaluate sqrt z
      = acc.evaluate sqrt z + (xs.map (fun x => (f x).evaluate sqrt z)).sum := by
  induction xs generalizing acc with
  | nil => simp
  | cons x xs ih => simp [ih, evaluate_add, add_assoc]

theorem evaluate_add_alp (sqrt : K → K) (z : K) (p alp : associated_legendre_poly K) :
    (p.add_alp alp).evaluate sqrt z = p.evaluate sqrt z + alp.evaluate sqrt z := by
  unfold associated_legendre_poly.add_alp
  rw [evaluate_foldl_add sqrt z (fun t => t) alp.poly p, evaluate_eq_sum sqrt alp]

theorem evaluate_scale (sqrt : K → K) (z : K) (p : associated_legendre_poly K) (fac : K) :
    (p.scale fac).evaluate sqrt z = fac * p.evaluate sqrt z := by
  simp only [evaluate_eq_sum, associated_legendre_poly.scale, List.map_map]
  rw [← List.sum_map_mul_left]
  congr 1
  apply List.map_congr_left
  intro t _
  simp only [Function.comp, poly_term.evaluate, poly_term.scale]
  ring

theorem evaluate_copy (sqrt : K → K) (z : K) (p : associated_legendre_poly K) :
    p.copy.evaluate sqrt z = p.evaluate sqrt z := rfl

theorem term_evaluate_z_plus_1 (sqrt : K → K) (z : K) (t : poly_term K) (h : 0 ≤ t.zexp) :
    t.copy_z_plus_1.evaluate sqrt z = z * t.evaluate sqrt z := by
  simp only [poly_term.evaluate, poly_term.copy_z_plus_1]
  rw [zpow_add' (Or.inr (Or.inl (by omega))), zpow_one]
  ring

theorem term_evaluate_q_plus_1 (sqrt : K → K) (z : K) (t : poly_term K) (h : 0 ≤ t.qexp) :
    t.copy_q_plus_1.evaluate sqrt z = sqrt (1 - z * z) * t.evaluate sqrt z := by
  simp only [poly_term.evaluate, poly_term.copy_q_plus_1]
  rw [zpow_add' (Or.inr (Or.inl (by omega))), zpow_one]
  ring

theorem evaluate_copy_z_plus_1 (sqrt : K → K) (z : K) (p : associated_legendre_poly K)
    (h : ∀ t ∈ p.poly, 0 ≤ t.zexp) :
    p.copy_z_plus_1.evaluate sqrt z = z * p.evaluate sqrt z := by
  unfold associated_legendre_poly.copy_z_plus_1
  rw [evaluate_foldl_add sqrt z (fun t => t.copy_z_plus_1) p.poly ⟨[]⟩, evaluate_eq_sum sqrt p,
    ← List.sum_map_mul_left]
  have : (⟨[]⟩ : associated_legendre_poly K).evaluate sqrt z = 0 := rfl
  rw [this, zero_add]
  congr 1
  apply List.map_congr_left
  intro t ht
  exact term_evaluate_z_plus_1 sqrt z t (h t ht)

theorem evaluate_copy_q_plus_1 (sqrt : K → K) (z : K) (p : associated_legendre_poly K)
    (h : ∀ t ∈ p.poly, 0 ≤ t.qexp) :
    p.copy_q_plus_1.evaluate sqrt z = sqrt (1 - z * z) * p.evaluate sqrt z := by
  unfold associated_legendre_poly.copy_q_plus_1
  rw [evaluate_foldl_add sqrt z (fun t => t.copy_q_plus_1) p.poly ⟨[]⟩, evaluate_eq_sum sqrt p,
    ← List.sum_map_mul_left]
  have : (⟨[]⟩ : associated_legendre_poly K).evaluate sqrt z = 0 := rfl
  rw [this, zero_add]
  congr 1
  apply List.map_congr_left
  intro t ht
  exact term_evaluate_q_plus_1 sqrt z t (h t ht)

end eval

/-! ## Exponents are preserved by the polynomial operations -/

section shape

variable {K : Type}

theorem all_exps_add_loop [Add K] (Q : Int → Int → Prop) (xs : List (poly_term K))
    (term : poly_term K) (hx : ∀ t ∈ xs, Q t.zexp t.qexp) (ht : Q term.zexp term.qexp) :
    ∀ t ∈ associated_legendre_poly.add_loop xs term, Q t.zexp t.qexp := by
  induction xs with
  | nil => intro t h; simp [associated_legendre_poly.add_loop] at h; subst h; exact ht
  | cons x xs ih =>
    intro t h
    unfold associated_legendre_poly.add_loop at h
    split at h
    · rcases List.mem_cons.1 h with h | h
      · subst h; exact hx x (List.mem_cons_self _ _)
      · exact hx t (List.mem_cons_of_mem _ h)
    · rcases List.mem_cons.1 h with h | h
      · subst h; exact hx _ (List.mem_cons_self _ _)
      · exact ih (fun t ht => hx t (List.mem_cons_of_mem _ ht)) t h

theorem all_exps_add [Add K] (Q : Int → Int → Prop) (p : associated_legendre_poly K)
    (term : poly_term K) (hp : all_exps Q p) (ht : Q term.zexp term.qexp) :
    all_exps Q (p.add term) :=
  all_exps_add_loop Q p.poly term hp ht

theorem all_exps_foldl_add [Add K] {α : Type} (Q : Int → Int → Prop) (f : α → poly_term K)
    (xs : List α) (acc : associated_legendre_poly K) (hacc : all_exps Q acc)
    (hx : ∀ x ∈ xs, Q (f x).zexp (f x).qexp) :
    all_exps Q (xs.foldl (fun p0 x => p0.add (f x)) acc) := by
  induction xs generalizing acc with
  | nil => exact hacc
  | cons x xs ih =>
    simp only [List.foldl_cons]
    exact ih _ (all_exps_add Q acc (f x) hacc (hx x (List.mem_cons_self _ _)))
      (fun y hy => hx y (List.mem_cons_of_mem _ hy))

theorem all_exps_scale [Mul K] (Q : Int → Int → Prop) (p : associated_legendre_poly K)
    (fac : K) (hp : all_exps Q p) : all_exps Q (p.scale fac) := by
  intro t ht
  simp only [associated_legendre_poly.scale, List.mem_map] at ht
  obtain ⟨t0, h0, rfl⟩ := ht
  exact hp t0 h0

theorem all_exps_add_alp [Add K] (Q : Int → Int → Prop) (p alp : associated_legendre_poly K)
    (hp : all_exps Q p) (ha : all_exps Q alp) : all_exps Q (p.add_alp alp) :=
  all_exps_foldl_add Q (fun t => t) alp.poly p hp ha

theorem all_exps_copy_z_plus_1 [Add K] (Q R : Int → Int → Prop)
    (p : associated_legendre_poly K) (hp : all_exps Q p)
    (hQR : ∀ a b, Q a b → R (a + 1) b) : all_exps R p.copy_z_plus_1 :=
  all_exps_foldl_add R (fun (t : poly_term K) => t.copy_z_plus_1) p.poly ⟨[]⟩
    (fun _ h => absurd h (List.not_mem_nil _)) (fun t ht => hQR _ _ (hp t ht))

theorem all_exps_copy_q_plus_1 [Add K] (Q R : Int → Int → Prop)
    (p : associated_legendre_poly K) (hp : all_exps Q p)
    (hQR : ∀ a b, Q a b → R a (b + 1)) : all_exps R p.copy_q_plus_1 :=
  all_exps_foldl_add R (fun (t : poly_term K) => t.copy_q_plus_1) p.poly ⟨[]⟩
    (fun _ h => absurd h (List.not_mem_nil _)) (fun t ht => hQR _ _ (hp t ht))

end shape

theorem entry_nonneg_succ {K : Type} [Field K] (l m : Nat) :
    (entry_nonneg (l + 1) m : associated_legendre_poly K) =
      if m = l + 1 then top_rule (l : Int) (entry_nonneg l l)
      else mplus_rule (l : Int) m (entry_nonneg l m)
        (if m < l then (entry_nonneg (l - 1) m).copy else associated_legendre_poly.empty) := by
  cases l with
  | zero => simp [entry_nonneg]
  | succ l =>
    rw [entry_nonneg]
    simp only [Nat.cast_add, Nat.cast_one, Nat.add_sub_cancel]

theorem length_row {K : Type} [Field K] (l : Nat) :
    (row l : List (associated_legendre_pair K)).length = 2 * l + 1 := by
  simp [row]

theorem length_table_list {K : Type} [Field K] (N : Nat) :
    (table_list N : List (associated_legendre_pair K)).length = (N + 1) * (N + 1) := by
  induction N with
  | zero => simp [table_list, length_row]
  | succ N ih => simp only [table_list, List.length_append, ih, length_row]; ring

theorem row_get {K : Type} [Field K] (l j : Nat) (h : j ≤ 2 * l) :
    (row l : List (associated_legendre_pair K))[j]? =
      some ⟨l, (l : Int) - j, entry l ((l : Int) - j)⟩ := by
  simp [row, List.getElem?_map, List.getElem?_range (show j < 2 * l + 1 by omega)]

theorem table_list_get {K : Type} [Field K] (N l j : Nat) (hl : l ≤ N) (h : j ≤ 2 * l) :
    (table_list N : List (associated_legendre_pair K))[l * l + j]? =
      some ⟨l, (l : Int) - j, entry l ((l : Int) - j)⟩ := by
  induction N with
  | zero =>
    have : l = 0 := by omega
    subst this
    simpa [table_list] using row_get (K := K) 0 j h
  | succ N ih =>
    rw [table_list]
    by_cases hN : l ≤ N
    · have hlen := length_table_list (K := K) N
      have : l * l + j < (table_list N : List (associated_legendre_pair K)).length := by
        rw [hlen]; nlinarith
      rw [List.getElem?_append_left this]
      exact ih hN
    · have hl1 : l = N + 1 := by omega
      subst hl1
      have hlen := length_table_list (K := K) N
      rw [List.getElem?_append_right (by rw [hlen]; omega), hlen]
      simpa using row_get (K := K) (N + 1) j h

theorem at_index_of_getElem? {K : Type} (s : associated_legendre K) (l m : Int) (i : Nat)
    (e : associated_legendre_pair K) (hi : l * l + l - m = i) (h : s.poly[i]? = some e) :
    s.at_index l m = .ok e := by
  unfold associated_legendre.at_index
  simp only [hi, Int.toNat_ofNat, h]
  simp

theorem get_poly_of_at_index {K : Type} (s : associated_legendre K) (l m : Int)
    (e : associated_legendre_pair K) (h : s.at_index l m = .ok e) :
    s.get_poly l m = .ok e.ascleg := by
  unfold associated_legendre.get_poly
  rw [h]

/-! ## The table built by the source is the closed description -/

section table

variable {K : Type} [Field K]

theorem entry_of_nonneg (l m : Nat) :
    (entry l (m : Int) : associated_legendre_poly K) = entry_nonneg l m := by
  simp [entry]

theorem at_index_midway_low (N k l : Nat) (m : Int) (hl : l ≤ N)
    (hm1 : -(l : Int) ≤ m) (hm2 : m ≤ l) :
    (midway_table N k : associated_legendre K).at_index l m = .ok ⟨l, m, entry l m⟩ := by
  obtain ⟨j, hj⟩ : ∃ j : Nat, (l : Int) - m = j := ⟨((l : Int) - m).toNat, by omega⟩
  have hm : m = (l : Int) - j := by omega
  apply at_index_of_getElem? _ _ _ (l * l + j)
  · push_cast; omega
  · have hlen := length_table_list (K := K) N
    have hlt : l * l + j < (table_list N : List (associated_legendre_pair K)).length := by
      rw [hlen]; nlinarith
    simp only [midway_table]
    rw [List.getElem?_append_left hlt, table_list_get N l j hl (by omega), hm]

theorem at_index_midway_new (N k : Nat) (m : Int)
    (hm1 : -((N : Int) + 1) ≤ m) (hm2 : m ≤ (N : Int) + 1) (hk : (N : Int) + 1 - m < k) :
    (midway_table N k : associated_legendre K).at_index ((N : Int) + 1) m
      = .ok ⟨(N : Int) + 1, m, entry (N + 1) m⟩ := by
  obtain ⟨j, hj⟩ : ∃ j : Nat, (N : Int) + 1 - m = j := ⟨((N : Int) + 1 - m).toNat, by omega⟩
  have hm : m = ((N + 1 : Nat) : Int) - j := by push_cast; omega
  apply at_index_of_getElem? _ _ _ ((N + 1) * (N + 1) + j)
  · push_cast; ring_nf; ring_nf at hj; omega
  · have hlen := length_table_list (K := K) N
    simp only [midway_table]
    rw [List.getElem?_append_right (by rw [hlen]; omega), hlen, Nat.add_sub_cancel_left,
      List.getElem?_take_of_lt (by omega), row_get (N + 1) j (by omega), hm]
    simp

theorem push_back_midway (N k : Nat) (hk : k ≤ 2 * N + 2) :
    (midway_table N k : associated_legendre K).push_back
        ⟨(N : Int) + 1, (N : Int) + 1 - k, entry (N + 1) ((N : Int) + 1 - k)⟩
      = midway_table N (k + 1) := by
  simp only [midway_table, associated_legendre.push_back, List.take_succ,
    row_get (K := K) (N + 1) k (by omega), Option.toList, List.append_assoc]
  simp

end table

section growth

variable {K : Type} [Field K]

theorem entry_top (N : Nat) :
    (entry (N + 1) ((N : Int) + 1) : associated_legendre_poly K)
      = top_rule (N : Int) (entry N (N : Int)) := by
  rw [show ((N : Int) + 1) = ((N + 1 : Nat) : Int) by push_cast; rfl, entry_of_nonneg,
    entry_nonneg_succ, if_pos rfl, entry_of_nonneg]

theorem entry_mplus (N m : Nat) (hm : m ≤ N) :
    (entry (N + 1) (m : Int) : associated_legendre_poly K)
      = mplus_rule (N : Int) m (entry N (m : Int))
          (if m < N then (entry (N - 1) (m : Int)).copy else associated_legendre_poly.empty) := by
  rw [entry_of_nonneg, entry_nonneg_succ, if_neg (by omega), entry_of_nonneg, entry_of_nonneg]

theorem entry_minus (l : Nat) (m : Int) (hm : m < 0) :
    (entry l m : associated_legendre_poly K) = minus_rule l m (entry l (-m)) := by
  have h : (-m) = ((-m).toNat : Int) := by omega
  rw [h, entry_of_nonneg]
  simp [entry, hm]

theorem increment_body_top (N : Nat) :
    (midway_table N 0 : associated_legendre K).increment_body N ((N : Int) + 1)
      = .ok (midway_table N 1) := by
  unfold associated_legendre.increment_body associated_legendre.sumrule_lplus1
  rw [if_pos rfl, get_poly_of_at_index _ _ _ _
    (at_index_midway_low N 0 N N le_rfl (by omega) (by omega))]
  have := push_back_midway (K := K) N 0 (by omega)
  simp only [Nat.cast_zero, sub_zero, entry_top, top_rule] at this
  simp only [this]

theorem increment_body_mplus (N k : Nat) (hk1 : 1 ≤ k) (hk2 : k ≤ N + 1) :
    (midway_table N k : associated_legendre K).increment_body N ((N : Int) + 1 - k)
      = .ok (midway_table N (k + 1)) := by
  obtain ⟨m, hm⟩ : ∃ m : Nat, (N : Int) + 1 - k = m := ⟨N + 1 - k, by omega⟩
  have hmN : m ≤ N := by omega
  have hpush := push_back_midway (K := K) N k (by omega)
  rw [hm] at hpush ⊢
  unfold associated_legendre.increment_body associated_legendre.sumrule_mplus1
  rw [if_neg (by omega), if_pos (by omega), get_poly_of_at_index _ _ _ _
    (at_index_midway_low N k N m le_rfl (by omega) (by omega))]
  rw [entry_mplus N m hmN, mplus_rule] at hpush
  by_cases hlt : m < N
  · have hN : ((N : Int) - 1) = ((N - 1 : Nat) : Int) := by omega
    have hlt2 : (m : Int) < N := by omega
    rw [if_pos hlt] at hpush
    rw [if_pos hlt2, hN, get_poly_of_at_index _ _ _ _
      (at_index_midway_low N k (N - 1) m (by omega) (by omega) (by omega))]
    simp only [hpush]
  · have hlt2 : ¬ (m : Int) < N := by omega
    rw [if_neg hlt] at hpush
    rw [if_neg hlt2]
    simp only [hpush]

theorem increment_body_minus (N k : Nat) (hk1 : N + 2 ≤ k) (hk2 : k ≤ 2 * N + 2) :
    (midway_table N k : associated_legendre K).increment_body N ((N : Int) + 1 - k)
      = .ok (midway_table N (k + 1)) := by
  have hpush := push_back_midway (K := K) N k (by omega)
  generalize hm : (N : Int) + 1 - k = m at hpush ⊢
  unfold associated_legendre.increment_body associated_legendre.sumrule_minusm
  rw [if_neg (by omega), if_neg (by omega), get_poly_of_at_index _ _ _ _
    (at_index_midway_new N k (-m) (by omega) (by omega) (by omega))]
  rw [entry_minus (N + 1) m (by omega), minus_rule] at hpush
  have h1 : (↑(N + 1 : Nat) + m).toNat = ((N : Int) + m + 2 - 1).toNat := by
    congr 1; push_cast; ring
  have h2 : (↑(N + 1 : Nat) - m).toNat = ((N : Int) - m + 2 - 1).toNat := by
    congr 1; push_cast; ring
  rw [h1, h2] at hpush
  simp only [gsl_sf_gamma, if_pos (show (1 : Int) ≤ (N : Int) + m + 2 by omega),
    if_pos (show (1 : Int) ≤ (N : Int) - m + 2 by omega), hpush]

theorem increment_body_midway (N k : Nat) (hk : k ≤ 2 * N + 2) :
    (midway_table N k : associated_legendre K).increment_body N ((N : Int) + 1 - k)
      = .ok (midway_table N (k + 1)) := by
  rcases Nat.eq_zero_or_pos k with h0 | h0
  · subst h0; simpa using increment_body_top (K := K) N
  · by_cases h1 : k ≤ N + 1
    · exact increment_body_mplus N k h0 h1
    · exact increment_body_minus N k (by omega) hk

theorem midway_table_full (N : Nat) :
    (midway_table N (2 * N + 3) : associated_legendre K) = ⟨table_list (N + 1), N⟩ := by
  simp only [midway_table, table_list]
  rw [List.take_of_length_le (by rw [length_row]; omega)]

theorem midway_table_zero (N : Nat) :
    (midway_table N 0 : associated_legendre K) = canonical N := by
  simp [midway_table, canonical]

theorem increment_loop_midway (N : Nat) (fuel k : Nat) (hk : k + fuel = 2 * N + 3) :
    associated_legendre.increment_loop (N : Int) fuel ((N : Int) + 1 - k)
        (midway_table N k : associated_legendre K)
      = .ok ⟨table_list (N + 1), N⟩ := by
  induction fuel generalizing k with
  | zero =>
    have hk3 : k = 2 * N + 3 := by omega
    subst hk3
    unfold associated_legendre.increment_loop
    rw [if_neg (by push_cast; omega), midway_table_full]
  | succ fuel ih =>
    unfold associated_legendre.increment_loop
    rw [if_pos (by omega), increment_body_midway N k (by omega)]
    have := ih (k + 1) (by omega)
    rw [show ((N : Int) + 1 - (k + 1 : Nat)) = (N : Int) + 1 - k - 1 by push_cast; ring] at this
    simpa using this

theorem increment_max_order_canonical (N : Nat) :
    (canonical N : associated_legendre K).increment_max_order = .ok (canonical (N + 1)) := by
  unfold associated_legendre.increment_max_order
  have h := increment_loop_midway (K := K) N (2 * N + 3) 0 (by omega)
  rw [midway_table_zero] at h
  have hf : (2 * (canonical N : associated_legendre K).maxOrder + 3).toNat = 2 * N + 3 := by
    simp only [canonical]; omega
  simp only [hf]
  simp only [canonical] at h ⊢
  simp only [Nat.cast_zero, sub_zero] at h
  rw [h]
  simp

end growth

section reach

variable {K : Type} [Field K]

theorem grow_loop_canonical (bound : Int) (fuel N : Nat) (hf : (bound - N).toNat ≤ fuel) :
    associated_legendre.grow_loop bound fuel (canonical N : associated_legendre K)
      = .ok (canonical (max N bound.toNat)) := by
  induction fuel generalizing N with
  | zero =>
    unfold associated_legendre.grow_loop
    have h : ¬ bound > (canonical N : associated_legendre K).maxOrder := by
      simp only [canonical]; omega
    rw [if_neg h, show max N bound.toNat = N by omega]
  | succ fuel ih =>
    unfold associated_legendre.grow_loop
    by_cases h : bound > (canonical N : associated_legendre K).maxOrder
    · rw [if_pos h, increment_max_order_canonical]
      simp only [canonical] at h
      have := ih (N + 1) (by push_cast; omega)
      rw [show max (N + 1) bound.toNat = max N bound.toNat by omega] at this
      simpa using this
    · rw [if_neg h]
      simp only [canonical] at h
      rw [show max N bound.toNat = N by omega]

theorem canonical_zero :
    (canonical 0 : associated_legendre K) = ⟨[⟨0, 0, ⟨[⟨0, 0, 1⟩]⟩⟩], 0⟩ := by
  simp [canonical, table_list, row, entry, entry_nonneg, List.range_succ]

theorem construct_eq (maxOrder : Int) :
    (associated_legendre.construct maxOrder : Except Fault (associated_legendre K))
      = .ok (canonical maxOrder.toNat) := by
  unfold associated_legendre.construct
  simp only []
  rw [← canonical_zero, grow_loop_canonical maxOrder maxOrder.toNat 0 (by simp)]
  simp

theorem at_index_canonical (N l : Nat) (m : Int) (hl : l ≤ N)
    (hm1 : -(l : Int) ≤ m) (hm2 : m ≤ l) :
    (canonical N : associated_legendre K).at_index l m = .ok ⟨l, m, entry l m⟩ := by
  rw [← midway_table_zero]
  exact at_index_midway_low N 0 l m hl hm1 hm2

theorem get_canonical (N l : Nat) (m : Int) (hm1 : -(l : Int) ≤ m) (hm2 : m ≤ l) :
    (canonical N : associated_legendre K).get l m = .ok (entry l m, canonical (max N l)) := by
  unfold associated_legendre.get
  rw [if_pos (by rw [abs_lt]; constructor <;> omega),
    grow_loop_canonical (l : Int) _ N (by simp [canonical])]
  simp only [Int.toNat_ofNat]
  rw [at_index_canonical (max N l) l m (by omega) hm1 hm2]
  rfl

theorem get_assertion (s : associated_legendre K) (l m : Int) (h : l < |m|) :
    s.get l m = .error .assertion := by
  unfold associated_legendre.get
  rw [if_neg (by omega)]

theorem reachable_iff (s : associated_legendre K) :
    Reachable s ↔ ∃ N : Nat, s = canonical N := by
  constructor
  · intro h
    induction h with
    | construct maxOrder s h =>
      rw [construct_eq] at h
      exact ⟨maxOrder.toNat, (Except.ok.inj h).symm⟩
    | get s l m p s1 _ h ih =>
      obtain ⟨N, rfl⟩ := ih
      by_cases hv : l < |m|
      · rw [get_assertion _ _ _ hv] at h; cases h
      · have hv2 : |m| ≤ l := by omega
        have hl : 0 ≤ l := le_trans (abs_nonneg m) hv2
        obtain ⟨ln, rfl⟩ : ∃ ln : Nat, l = ln := ⟨l.toNat, by omega⟩
        rw [abs_le] at hv2
        rw [get_canonical N ln m hv2.1 hv2.2] at h
        exact ⟨max N ln, (congrArg Prod.snd (Except.ok.inj h)).symm⟩
    | increment s s1 _ h ih =>
      obtain ⟨N, rfl⟩ := ih
      rw [increment_max_order_canonical] at h
      exact ⟨N + 1, (Except.ok.inj h).symm⟩
  · rintro ⟨N, rfl⟩
    exact Reachable.construct (N : Int) _ (by rw [construct_eq]; simp)

end reach

/-! ## The Rodrigues formula -/

section rodrigues

open Polynomial

theorem iterate_derivative_add_eq (f g : Polynomial ℝ) (n : Nat) :
    derivative^[n] (f + g) = derivative^[n] f + derivative^[n] g := by
  simp_rw [← LinearMap.pow_apply, map_add]

theorem iterate_derivative_X_mul (f : Polynomial ℝ) (n : Nat) :
    derivative^[n + 1] (X * f)
      = X * derivative^[n + 1] f + ((n : Polynomial ℝ) + 1) * derivative^[n] f := by
  induction n generalizing f with
  | zero => simp [derivative_mul]; ring
  | succ n ih =>
    rw [Function.iterate_succ_apply, derivative_mul, derivative_X, one_mul,
      iterate_derivative_add_eq, ih]
    simp only [← Function.iterate_succ_apply]
    push_cast
    ring

theorem derivative_X_mul_pow (l : Nat) :
    derivative (X * (X ^ 2 - 1 : Polynomial ℝ) ^ (l + 1))
      = (2 * (l : Polynomial ℝ) + 3) * (X ^ 2 - 1) ^ (l + 1)
        + (2 * (l : Polynomial ℝ) + 2) * (X ^ 2 - 1) ^ l := by
  simp only [derivative_mul, derivative_pow, derivative_sub, derivative_X_pow, derivative_X,
    derivative_one, Nat.add_sub_cancel]
  simp only [C_eq_natCast]
  push_cast
  ring

theorem derivative_pow_eq (l : Nat) :
    derivative ((X ^ 2 - 1 : Polynomial ℝ) ^ (l + 1))
      = (2 * (l : Polynomial ℝ) + 2) * (X * (X ^ 2 - 1) ^ l) := by
  simp only [derivative_pow, derivative_sub, derivative_X_pow, derivative_X, derivative_one,
    Nat.add_sub_cancel]
  simp only [C_eq_natCast]
  push_cast
  ring

theorem iterate_derivative_pow_succ (n l : Nat) :
    derivative^[n + 2] ((X ^ 2 - 1 : Polynomial ℝ) ^ (l + 2))
      = ((2 * l + 4 : Nat) : Polynomial ℝ)
        * (((2 * l + 3 : Nat) : Polynomial ℝ) * derivative^[n] ((X ^ 2 - 1) ^ (l + 1))
          + ((2 * l + 2 : Nat) : Polynomial ℝ) * derivative^[n] ((X ^ 2 - 1) ^ l)) := by
  have h : derivative (derivative ((X ^ 2 - 1 : Polynomial ℝ) ^ (l + 2)))
      = ((2 * l + 4 : Nat) : Polynomial ℝ)
        * (((2 * l + 3 : Nat) : Polynomial ℝ) * (X ^ 2 - 1) ^ (l + 1)
          + ((2 * l + 2 : Nat) : Polynomial ℝ) * (X ^ 2 - 1) ^ l) := by
    rw [derivative_pow_eq (l + 1), derivative_mul, derivative_X_mul_pow]
    simp only [derivative_add, derivative_mul, derivative_natCast, derivative_ofNat,
      derivative_one]
    push_cast
    ring
  rw [Function.iterate_succ_apply, Function.iterate_succ_apply, h,
    iterate_derivative_natCast_mul, iterate_derivative_add_eq, iterate_derivative_natCast_mul,
    iterate_derivative_natCast_mul]

theorem X_mul_iterate_derivative_pow (n l : Nat) :
    X * derivative^[n + 1] ((X ^ 2 - 1 : Polynomial ℝ) ^ (l + 1))
      = (2 * (l : Polynomial ℝ) + 2 - (n : Polynomial ℝ)) * derivative^[n] ((X ^ 2 - 1) ^ (l + 1))
        + (2 * (l : Polynomial ℝ) + 2) * derivative^[n] ((X ^ 2 - 1) ^ l) := by
  have h1 := iterate_derivative_X_mul ((X ^ 2 - 1 : Polynomial ℝ) ^ (l + 1)) n
  have h2 : derivative^[n + 1] (X * (X ^ 2 - 1 : Polynomial ℝ) ^ (l + 1))
      = ((2 * l + 3 : Nat) : Polynomial ℝ) * derivative^[n] ((X ^ 2 - 1) ^ (l + 1))
        + ((2 * l + 2 : Nat) : Polynomial ℝ) * derivative^[n] ((X ^ 2 - 1) ^ l) := by
    rw [Function.iterate_succ_apply, derivative_X_mul_pow,
      show (2 * (l : Polynomial ℝ) + 3) = ((2 * l + 3 : Nat) : Polynomial ℝ) by push_cast; ring,
      show (2 * (l : Polynomial ℝ) + 2) = ((2 * l + 2 : Nat) : Polynomial ℝ) by push_cast; ring,
      iterate_derivative_add_eq, iterate_derivative_natCast_mul, iterate_derivative_natCast_mul]
  rw [h2] at h1
  push_cast at h1
  linear_combination -h1

theorem iterate_derivative_pow_eq_zero (n l : Nat) (h : 2 * l < n) :
    derivative^[n] ((X ^ 2 - 1 : Polynomial ℝ) ^ l) = 0 := by
  apply iterate_derivative_eq_zero
  have h2 : (X ^ 2 - 1 : Polynomial ℝ).natDegree ≤ 2 := by
    have := natDegree_X_pow_sub_C (R := ℝ) (n := 2) (r := 1)
    simp only [map_one] at this
    omega
  calc ((X ^ 2 - 1 : Polynomial ℝ) ^ l).natDegree ≤ l * (X ^ 2 - 1 : Polynomial ℝ).natDegree :=
        natDegree_pow_le
    _ ≤ l * 2 := Nat.mul_le_mul_left l h2
    _ < n := by omega

theorem eval_legendre_derivative (l j : Nat) (z : ℝ) :
    eval z (derivative^[j] (C (1 / (2 ^ l * (l.factorial : ℝ)))
        * derivative^[l] ((X ^ 2 - 1) ^ l)))
      = eval z (derivative^[l + j] ((X ^ 2 - 1 : Polynomial ℝ) ^ l)) / (2 ^ l * (l.factorial : ℝ)) := by
  rw [iterate_derivative_C_mul, eval_mul, eval_C, ← Function.iterate_add_apply,
    Nat.add_comm j l]
  ring

theorem legendre_rec_top (l : Nat) (z : ℝ) :
    eval z (derivative^[l + 1 + (l + 1)] ((X ^ 2 - 1 : Polynomial ℝ) ^ (l + 1)))
        / (2 ^ (l + 1) * ((l + 1).factorial : ℝ))
      = (2 * (l : ℝ) + 1)
        * (eval z (derivative^[l + l] ((X ^ 2 - 1 : Polynomial ℝ) ^ l)) / (2 ^ l * (l.factorial : ℝ))) := by
  cases l with
  | zero =>
    simp [derivative_pow]
  | succ k =>
    have h := iterate_derivative_pow_succ (k + 1 + (k + 1)) k
    have h0 := iterate_derivative_pow_eq_zero (k + 1 + (k + 1)) k (by omega)
    rw [h0, mul_zero, add_zero] at h
    rw [show k + 1 + 1 + (k + 1 + 1) = k + 1 + (k + 1) + 2 by ring, h]
    simp only [eval_mul, eval_natCast, Nat.factorial_succ]
    have hf : ((k.factorial : ℝ)) ≠ 0 := by positivity
    push_cast
    field_simp
    ring

theorem legendre_rec_mid (k j : Nat) (z : ℝ) :
    ((k : ℝ) + 2 - j)
        * (eval z (derivative^[k + 2 + j] ((X ^ 2 - 1 : Polynomial ℝ) ^ (k + 2)))
          / (2 ^ (k + 2) * ((k + 2).factorial : ℝ)))
      = (2 * (k : ℝ) + 3) * z
          * (eval z (derivative^[k + 1 + j] ((X ^ 2 - 1 : Polynomial ℝ) ^ (k + 1)))
            / (2 ^ (k + 1) * ((k + 1).factorial : ℝ)))
        - ((k : ℝ) + 1 + j)
          * (eval z (derivative^[k + j] ((X ^ 2 - 1 : Polynomial ℝ) ^ k))
            / (2 ^ k * (k.factorial : ℝ))) := by
  have h1 := congrArg (eval z) (iterate_derivative_pow_succ (k + j) k)
  have h2 := congrArg (eval z) (X_mul_iterate_derivative_pow (k + j) k)
  simp only [eval_mul, eval_add, eval_sub, eval_natCast, eval_X, eval_ofNat] at h1 h2
  rw [show k + 2 + j = k + j + 2 by ring, show k + 1 + j = k + j + 1 by ring, h1]
  generalize eval z (derivative^[k + j + 1] ((X ^ 2 - 1 : Polynomial ℝ) ^ (k + 1))) = a at h2 ⊢
  generalize eval z (derivative^[k + j] ((X ^ 2 - 1 : Polynomial ℝ) ^ (k + 1))) = b at h2 ⊢
  generalize eval z (derivative^[k + j] ((X ^ 2 - 1 : Polynomial ℝ) ^ k)) = c at h2 ⊢
  have hf : ((k.factorial : ℝ)) ≠ 0 := by positivity
  have hk1 : ((k : ℝ) + 1) ≠ 0 := by positivity
  have hk2 : ((k : ℝ) + 2) ≠ 0 := by positivity
  simp only [Nat.factorial_succ]
  push_cast at h2 ⊢
  field_simp
  linear_combination
    (-(2 * (k : ℝ) + 3) * (2 ^ k * (k.factorial : ℝ))
      * (2 ^ (k + 2) * (((k : ℝ) + 1 + 1) * (((k : ℝ) + 1) * (k.factorial : ℝ))))) * h2

theorem legendre_rec_zero (z : ℝ) :
    eval z (derivative^[0 + 1 + 0] ((X ^ 2 - 1 : Polynomial ℝ) ^ (0 + 1)))
        / (2 ^ (0 + 1) * ((0 + 1).factorial : ℝ))
      = z * (eval z (derivative^[0 + 0] ((X ^ 2 - 1 : Polynomial ℝ) ^ 0)) / (2 ^ 0 * (Nat.factorial 0 : ℝ))) := by
  simp

end rodrigues

theorem all_exps_mono {K : Type} (Q R : Int → Int → Prop) (p : associated_legendre_poly K)
    (hp : all_exps Q p) (h : ∀ a b, Q a b → R a b) : all_exps R p :=
  fun t ht => h _ _ (hp t ht)

theorem all_exps_empty {K : Type} (Q : Int → Int → Prop) :
    all_exps Q (associated_legendre_poly.empty : associated_legendre_poly K) :=
  fun _ h => absurd h (List.not_mem_nil _)

/-! ## Exponents and values of the stored polynomials -/

section shape_of_entries

variable {K : Type} [Field K]

theorem entry_nonneg_shape (l : Nat) :
    ∀ m : Nat, m ≤ l → all_exps (shape l m) (entry_nonneg l m : associated_legendre_poly K) := by
  induction l using Nat.strong_induction_on with
  | _ l ih =>
    intro m hm
    cases l with
    | zero =>
      have : m = 0 := by omega
      subst this
      intro t ht
      simp only [entry_nonneg, List.mem_singleton] at ht
      subst ht
      simp [shape]
    | succ l =>
      rw [entry_nonneg_succ]
      split
      · rename_i h
        subst h
        apply all_exps_scale
        refine all_exps_copy_q_plus_1 (shape l l) _ _ (ih l (by omega) l le_rfl) ?_
        intro a b hab
        simp only [shape] at hab ⊢
        push_cast
        omega
      · rename_i h
        have hml : m ≤ l := by omega
        apply all_exps_add_alp
        · apply all_exps_scale
          refine all_exps_copy_z_plus_1 (shape l m) _ _ (ih l (by omega) m hml) ?_
          intro a b hab
          simp only [shape] at hab ⊢
          push_cast
          omega
        · apply all_exps_scale
          split
          · rename_i hlt
            refine all_exps_mono (shape (l - 1) m) _ _ (ih (l - 1) (by omega) m (by omega)) ?_
            intro a b hab
            simp only [shape] at hab ⊢
            push_cast
            omega
          · exact all_exps_empty _

theorem entry_shape (l : Nat) (m : Int) (hm1 : -(l : Int) ≤ m) (hm2 : m ≤ l) :
    all_exps (shape l m.natAbs) (entry l m : associated_legendre_poly K) := by
  unfold entry
  split
  · rename_i h
    have : m.natAbs = m.toNat := by omega
    rw [this]
    exact entry_nonneg_shape l _ (by omega)
  · rename_i h
    have : m.natAbs = (-m).toNat := by omega
    rw [this]
    exact all_exps_scale _ _ _ (entry_nonneg_shape l _ (by omega))

end shape_of_entries

section value_of_entries

open Polynomial

theorem entry_nonneg_evaluate (sqrt : ℝ → ℝ) (z : ℝ) (l : Nat) :
    ∀ m : Nat, m ≤ l → (entry_nonneg l m : associated_legendre_poly ℝ).evaluate sqrt z
      = (-1) ^ m * sqrt (1 - z * z) ^ m
        * (eval z (derivative^[l + m] ((X ^ 2 - 1 : Polynomial ℝ) ^ l))
            / (2 ^ l * (l.factorial : ℝ))) := by
  induction l using Nat.strong_induction_on with
  | _ l ih =>
    intro m hm
    cases l with
    | zero =>
      have : m = 0 := by omega
      subst this
      simp [entry_nonneg, associated_legendre_poly.evaluate, poly_term.evaluate]
    | succ l =>
      rw [entry_nonneg_succ]
      have hsh : ∀ j, j ≤ l → ∀ t ∈ (entry_nonneg l j : associated_legendre_poly ℝ).poly,
          0 ≤ t.zexp ∧ 0 ≤ t.qexp := by
        intro j hj t ht
        have := entry_nonneg_shape (K := ℝ) l j hj t ht
        simp only [shape] at this
        omega
      split
      · rename_i h
        subst h
        rw [top_rule, evaluate_scale, evaluate_copy_q_plus_1 _ _ _ (fun t ht => (hsh l le_rfl t ht).2),
          ih l (by omega) l le_rfl, legendre_rec_top l z]
        push_cast
        ring
      · rename_i h
        have hml : m ≤ l := by omega
        rw [mplus_rule, evaluate_add_alp, evaluate_scale, evaluate_scale,
          evaluate_copy_z_plus_1 _ _ _ (fun t ht => (hsh m hml t ht).1), ih l (by omega) m hml]
        cases l with
        | zero =>
          have hm0 : m = 0 := by omega
          subst hm0
          rw [if_neg (by omega), evaluate_empty, legendre_rec_zero z]
          simp
        | succ k =>
          have hq : (if m < k + 1 then (entry_nonneg (k + 1 - 1) m).copy
                else (associated_legendre_poly.empty : associated_legendre_poly ℝ)).evaluate sqrt z
              = (-1) ^ m * sqrt (1 - z * z) ^ m
                * (eval z (derivative^[k + m] ((X ^ 2 - 1 : Polynomial ℝ) ^ k))
                    / (2 ^ k * (k.factorial : ℝ))) := by
            split
            · rename_i hlt
              rw [evaluate_copy, Nat.add_sub_cancel, ih k (by omega) m (by omega)]
            · rename_i hlt
              rw [evaluate_empty, iterate_derivative_pow_eq_zero (k + m) k (by omega)]
              simp
          rw [hq]
          have hrec := legendre_rec_mid k m z
          have hne : ((k : ℝ) + 2 - m) ≠ 0 := by
            have : (m : ℝ) ≤ k + 1 := by exact_mod_cast hml
            linarith
          generalize eval z (derivative^[k + 2 + m] ((X ^ 2 - 1 : Polynomial ℝ) ^ (k + 2)))
            / (2 ^ (k + 2) * ((k + 2).factorial : ℝ)) = a at hrec ⊢
          generalize eval z (derivative^[k + 1 + m] ((X ^ 2 - 1 : Polynomial ℝ) ^ (k + 1)))
            / (2 ^ (k + 1) * ((k + 1).factorial : ℝ)) = b at hrec ⊢
          generalize eval z (derivative^[k + m] ((X ^ 2 - 1 : Polynomial ℝ) ^ k))
            / (2 ^ k * (k.factorial : ℝ)) = c at hrec ⊢
          have ha : a = ((2 * (k : ℝ) + 3) * z * b - ((k : ℝ) + 1 + m) * c) / ((k : ℝ) + 2 - m) := by
            rw [eq_div_iff hne, ← hrec]; ring
          rw [ha]
          push_cast
          have hne2 : ((k : ℝ) + 1 - m + 1) ≠ 0 := by
            have : (k : ℝ) + 1 - m + 1 = k + 2 - m := by ring
            rw [this]; exact hne
          field_simp
          ring

end value_of_entries


/-! ## Lemmas for the claims about the table -/

/-- The model run on the rationals: the table of `associated_legendre(2)` holds
`P_0^0 = 1`, `P_1^1 = -q`, `P_1^0 = z`, `P_1^{-1} = -q/2`, `P_2^2 = 3 q^2`, `P_2^1 = -3 z q`,
`P_2^0 = (3 z^2 - 1)/2`, `P_2^{-1} = -z q/2`, `P_2^{-2} = q^2/8`, with `q = sqrt(1 - z^2)`. -/
theorem construct_two : (associated_legendre.construct 2 : Except Fault (associated_legendre ℚ)) =
  .ok ⟨[⟨0, 0, ⟨[⟨0, 0, 1⟩]⟩⟩, ⟨1, 1, ⟨[⟨0, 1, -1⟩]⟩⟩, ⟨1, 0, ⟨[⟨1, 0, 1⟩]⟩⟩, ⟨1, -1, ⟨[⟨0, 1, -1/2⟩]⟩⟩,
    ⟨2, 2, ⟨[⟨0, 2, 3⟩]⟩⟩, ⟨2, 1, ⟨[⟨1, 1, -3⟩]⟩⟩, ⟨2, 0, ⟨[⟨2, 0, 3/2⟩, ⟨0, 0, -1/2⟩]⟩⟩,
    ⟨2, -1, ⟨[⟨1, 1, -1/2⟩]⟩⟩, ⟨2, -2, ⟨[⟨0, 2, 1/8⟩]⟩⟩], 2⟩ := by
  simp [associated_legendre.construct, associated_legendre.grow_loop,
    associated_legendre.increment_max_order, associated_legendre.increment_loop,
    associated_legendre.increment_body, associated_legendre.sumrule_lplus1,
    associated_legendre.sumrule_mplus1, associated_legendre.sumrule_minusm,
    associated_legendre.get_poly, associated_legendre.at_index, associated_legendre.push_back,
    associated_legendre_poly.copy_q_plus_1, associated_legendre_poly.copy_z_plus_1,
    associated_legendre_poly.scale, associated_legendre_poly.add, associated_legendre_poly.add_alp,
    associated_legendre_poly.add_loop, associated_legendre_poly.copy, associated_legendre_poly.empty,
    poly_term.copy_q_plus_1, poly_term.copy_z_plus_1, poly_term.scale, poly_term.add,
    poly_term.get_z, poly_term.get_q, poly_term.get_fac, gsl_sf_gamma, Nat.factorial]
  norm_num

section claims_table

theorem entry_succ_evaluate {K : Type} [Field K] [CharZero K] (sqrt : K → K) (z : K)
    (N m : Nat) (hm : m ≤ N) :
    ((N : K) - m + 1) * (entry (N + 1) (m : Int) : associated_legendre_poly K).evaluate sqrt z
      = (2 * (N : K) + 1) * z * (entry N (m : Int) : associated_legendre_poly K).evaluate sqrt z
        - ((N : K) + m)
          * (if m < N then (entry (N - 1) (m : Int) : associated_legendre_poly K).copy
              else associated_legendre_poly.empty).evaluate sqrt z := by
  have hsh : ∀ t ∈ (entry N (m : Int) : associated_legendre_poly K).poly, 0 ≤ t.zexp := by
    intro t ht
    have := entry_nonneg_shape (K := K) N m hm t (by rw [← entry_of_nonneg]; exact ht)
    simp only [shape] at this
    omega
  have hne : ((N : K) - m + 1) ≠ 0 := by
    have h : ((N : K) - m + 1) = ((N - m + 1 : Nat) : K) := by
      push_cast [Nat.cast_sub hm]; ring
    rw [h]
    exact Nat.cast_ne_zero.2 (by omega)
  rw [entry_mplus N m hm, mplus_rule, evaluate_add_alp, evaluate_scale, evaluate_scale,
    evaluate_copy_z_plus_1 _ _ _ hsh]
  push_cast
  field_simp
  ring

theorem evaluate_eq_zero_of_qexp {K : Type} [Field K] (sqrt : K → K) (z : K)
    (p : associated_legendre_poly K) (h0 : sqrt (1 - z * z) = 0)
    (hq : ∀ t ∈ p.poly, t.qexp ≠ 0) : p.evaluate sqrt z = 0 := by
  rw [evaluate_eq_sum]
  apply List.sum_eq_zero
  intro x hx
  obtain ⟨t, ht, rfl⟩ := List.mem_map.1 hx
  simp [poly_term.evaluate, h0, zero_zpow _ (hq t ht)]

theorem entry_zero_evaluate_one {K : Type} [Field K] [CharZero K] (sqrt : K → K) (l : Nat) :
    (entry l 0 : associated_legendre_poly K).evaluate sqrt 1 = 1 := by
  induction l using Nat.strong_induction_on with
  | _ l ih =>
    cases l with
    | zero => simp [entry, entry_nonneg, associated_legendre_poly.evaluate, poly_term.evaluate]
    | succ N =>
      have h := entry_succ_evaluate sqrt (1 : K) N 0 (Nat.zero_le N)
      simp only [Nat.cast_zero, sub_zero, add_zero, mul_one] at h
      rw [ih N (by omega)] at h
      have hne : ((N : K) + 1) ≠ 0 := by exact_mod_cast Nat.succ_ne_zero N
      cases N with
      | zero =>
        rw [if_neg (by omega), evaluate_empty] at h
        simpa using h
      | succ k =>
        rw [if_pos (by omega), evaluate_copy, Nat.add_sub_cancel, ih k (by omega)] at h
        apply mul_left_cancel₀ hne
        rw [h]
        push_cast
        ring

theorem index_injective (l m l1 m1 : Int) (hl : 0 ≤ l) (hm1 : -l ≤ m) (hm2 : m ≤ l)
    (hl1 : 0 ≤ l1) (hn1 : -l1 ≤ m1) (hn2 : m1 ≤ l1)
    (h : l * l + l - m = l1 * l1 + l1 - m1) : l = l1 ∧ m = m1 := by
  have key : l = l1 := by
    rcases lt_trichotomy l l1 with hlt | heq | hgt
    · exfalso
      have : l + 1 ≤ l1 := by omega
      nlinarith
    · exact heq
    · exfalso
      have : l1 + 1 ≤ l := by omega
      nlinarith
  subst key
  exact ⟨rfl, by omega⟩

theorem index_surjective (M : Nat) (i : Int) (h0 : 0 ≤ i) (h1 : i < ((M : Int) + 1) ^ 2) :
    ∃ l m : Int, 0 ≤ l ∧ l ≤ M ∧ -l ≤ m ∧ m ≤ l ∧ l * l + l - m = i := by
  obtain ⟨n, rfl⟩ : ∃ n : Nat, i = n := ⟨i.toNat, by omega⟩
  have hlo := Nat.sqrt_le n
  have hhi := Nat.lt_succ_sqrt n
  have hn : n < (M + 1) * (M + 1) := by
    have : ((n : Int)) < ((M + 1) * (M + 1) : Nat) := by push_cast; nlinarith
    exact_mod_cast this
  have hM : Nat.sqrt n ≤ M := by
    by_contra hc
    have : M + 1 ≤ Nat.sqrt n := by omega
    have := Nat.mul_le_mul this this
    omega
  refine ⟨(Nat.sqrt n : Int), (Nat.sqrt n : Int) * (Nat.sqrt n : Int) + (Nat.sqrt n : Int) - n,
    by omega, by exact_mod_cast hM, ?_, ?_, by ring⟩
  · have : ((n : Int)) < ((Nat.sqrt n).succ * (Nat.sqrt n).succ : Nat) := by exact_mod_cast hhi
    push_cast at this
    nlinarith
  · have : (((Nat.sqrt n) * (Nat.sqrt n) : Nat) : Int) ≤ n := by exact_mod_cast hlo
    push_cast at this
    omega

/-- The table right after `associated_legendre(0)`: the single entry `{0, 0, 1}`. -/
theorem reachable_initial {K : Type} [Field K] :
    Reachable (⟨[⟨0, 0, ⟨[⟨0, 0, 1⟩]⟩⟩], 0⟩ : associated_legendre K) := by
  rw [← canonical_zero]
  exact Reachable.construct 0 _ (construct_eq 0)

end claims_table

/-! ## The claims about the table -/

section claims

/-- C1: for every degree `l`, every order `0 ≤ m ≤ l` and every real `z` in `[-1, 1]`, the
call `get(l, m)` on a table succeeds and the returned polynomial, evaluated at `z` in
exact real arithmetic, is the associated Legendre function
`P_l^m(z) = (-1)^m (1 - z^2)^(m/2) d^m/dz^m P_l(z)` of the Rodrigues formula. -/
theorem get_is_associated_legendre (s : associated_legendre ℝ) (hs : Reachable s)
    (l m : Nat) (hm : m ≤ l) (z : ℝ) (hz1 : -1 ≤ z) (hz2 : z ≤ 1) :
    ∃ p s1, s.get (l : Int) (m : Int) = .ok (p, s1) ∧
      is_associated_legendre_value l m z (p.evaluate Real.sqrt z) := by
  obtain ⟨N, rfl⟩ := (reachable_iff s).1 hs
  refine ⟨entry l m, canonical (max N l), get_canonical N l m (by omega) (by omega),
    _, rfl, ?_⟩
  rw [entry_of_nonneg, entry_nonneg_evaluate Real.sqrt z l m hm, eval_legendre_derivative]
  have hx : 0 ≤ 1 - z ^ 2 := by nlinarith
  have hq : Real.sqrt (1 - z * z) ^ m = (1 - z ^ 2) ^ ((m : ℝ) / 2) := by
    rw [show 1 - z * z = 1 - z ^ 2 by ring, Real.sqrt_eq_rpow, ← Real.rpow_natCast,
      ← Real.rpow_mul hx]
    congr 1
    ring
  rw [hq]

theorem get_is_associated_legendre_witness :
    Reachable (⟨[⟨0, 0, ⟨[⟨0, 0, 1⟩]⟩⟩], 0⟩ : associated_legendre ℝ) ∧ 1 ≤ 2
      ∧ (-1 : ℝ) ≤ 1 / 2 ∧ (1 / 2 : ℝ) ≤ 1 ∧
      ∃ p s1, (⟨[⟨0, 0, ⟨[⟨0, 0, 1⟩]⟩⟩], 0⟩ : associated_legendre ℝ).get
            ((2 : Nat) : Int) ((1 : Nat) : Int) = .ok (p, s1) ∧
        is_associated_legendre_value 2 1 (1 / 2) (p.evaluate Real.sqrt (1 / 2)) :=
  ⟨reachable_initial, by norm_num, by norm_num, by norm_num,
    get_is_associated_legendre _ reachable_initial 2 1 (by norm_num) (1 / 2) (by norm_num)
      (by norm_num)⟩

/-- C2: for every `l ≥ 0` (in particular every `l ≥ 1`), every `0 ≤ m ≤ l` and every real
`z`, the polynomials returned by `get` (on any tables) satisfy
`(l-m+1) P_{l+1}^m(z) = (2l+1) z P_l^m(z) - (l+m) P_{l-1}^m(z)` in exact real arithmetic,
the last term being absent when `m = l`. -/
theorem get_recurrence (s1 s2 s3 : associated_legendre ℝ) (h1 : Reachable s1)
    (h2 : Reachable s2) (h3 : Reachable s3) (l m : Nat) (hm : m ≤ l) (z : ℝ) :
    ∃ p1 p0 t1 t0, s1.get ((l : Int) + 1) m = .ok (p1, t1) ∧ s2.get l m = .ok (p0, t0) ∧
      (m < l → ∃ pm tm, s3.get ((l : Int) - 1) m = .ok (pm, tm) ∧
        ((l : ℝ) - m + 1) * p1.evaluate Real.sqrt z
          = (2 * (l : ℝ) + 1) * z * p0.evaluate Real.sqrt z
            - ((l : ℝ) + m) * pm.evaluate Real.sqrt z) ∧
      (m = l → ((l : ℝ) - m + 1) * p1.evaluate Real.sqrt z
          = (2 * (l : ℝ) + 1) * z * p0.evaluate Real.sqrt z) := by
  obtain ⟨N1, rfl⟩ := (reachable_iff s1).1 h1
  obtain ⟨N2, rfl⟩ := (reachable_iff s2).1 h2
  obtain ⟨N3, rfl⟩ := (reachable_iff s3).1 h3
  have hrec := entry_succ_evaluate Real.sqrt z l m hm
  have hg1 := get_canonical (K := ℝ) N1 (l + 1) m (by omega) (by omega)
  rw [show (((l + 1 : Nat) : Int)) = (l : Int) + 1 by push_cast; rfl] at hg1
  refine ⟨_, _, _, _, hg1, get_canonical N2 l m (by omega) (by omega), ?_, ?_⟩
  · intro hlt
    have hg3 := get_canonical (K := ℝ) N3 (l - 1) m (by omega) (by omega)
    rw [show (((l - 1 : Nat) : Int)) = (l : Int) - 1 by omega] at hg3
    refine ⟨_, _, hg3, ?_⟩
    rw [if_pos hlt, evaluate_copy] at hrec
    exact hrec
  · intro heq
    rw [if_neg (by omega), evaluate_empty, mul_zero, sub_zero] at hrec
    exact hrec

theorem get_recurrence_witness :
    Reachable (⟨[⟨0, 0, ⟨[⟨0, 0, 1⟩]⟩⟩], 0⟩ : associated_legendre ℝ) ∧ 1 ≤ 2 ∧
      ∃ p1 p0 t1 t0,
        (⟨[⟨0, 0, ⟨[⟨0, 0, 1⟩]⟩⟩], 0⟩ : associated_legendre ℝ).get (((2 : Nat) : Int) + 1)
          ((1 : Nat) : Int) = .ok (p1, t1) ∧
        (⟨[⟨0, 0, ⟨[⟨0, 0, 1⟩]⟩⟩], 0⟩ : associated_legendre ℝ).get ((2 : Nat) : Int)
          ((1 : Nat) : Int) = .ok (p0, t0) ∧
        (1 < 2 → ∃ pm tm,
          (⟨[⟨0, 0, ⟨[⟨0, 0, 1⟩]⟩⟩], 0⟩ : associated_legendre ℝ).get (((2 : Nat) : Int) - 1)
            ((1 : Nat) : Int) = .ok (pm, tm) ∧
          (((2 : Nat) : ℝ) - ((1 : Nat) : ℝ) + 1) * p1.evaluate Real.sqrt (3 / 10)
            = (2 * ((2 : Nat) : ℝ) + 1) * (3 / 10) * p0.evaluate Real.sqrt (3 / 10)
              - (((2 : Nat) : ℝ) + ((1 : Nat) : ℝ)) * pm.evaluate Real.sqrt (3 / 10)) ∧
        (1 = 2 → (((2 : Nat) : ℝ) - ((1 : Nat) : ℝ) + 1) * p1.evaluate Real.sqrt (3 / 10)
            = (2 * ((2 : Nat) : ℝ) + 1) * (3 / 10) * p0.evaluate Real.sqrt (3 / 10)) :=
  ⟨reachable_initial, by norm_num,
    get_recurrence _ _ _ reachable_initial reachable_initial reachable_initial 2 1
      (by norm_num) (3 / 10)⟩

/-- C3, amended: in exact real arithmetic, for every `l ≥ 0`, the polynomial that
`get(l+1, l+1)` returns is `copy_q_plus_1` of the one that `get(l, l)` returns with every
coefficient multiplied by `-(2l+1)`; hence for every real `z` in `[-1, 1]` its value is
`-(2l+1) sqrt(1 - z^2)` times the value of the polynomial of `(l, l)`. -/
theorem get_top_order (s1 s2 : associated_legendre ℝ) (h1 : Reachable s1)
    (h2 : Reachable s2) (l : Nat) :
    ∃ p0 p1 t0 t1, s1.get l l = .ok (p0, t0) ∧
      s2.get ((l : Int) + 1) ((l : Int) + 1) = .ok (p1, t1) ∧
      p1 = p0.copy_q_plus_1.scale (-(2 * (l : ℝ) + 1)) ∧
      ∀ z : ℝ, -1 ≤ z → z ≤ 1 →
        p1.evaluate Real.sqrt z
          = -(2 * (l : ℝ) + 1) * Real.sqrt (1 - z ^ 2) * p0.evaluate Real.sqrt z := by
  obtain ⟨N1, rfl⟩ := (reachable_iff s1).1 h1
  obtain ⟨N2, rfl⟩ := (reachable_iff s2).1 h2
  have hg2 := get_canonical (K := ℝ) N2 (l + 1) ((l : Int) + 1) (by omega) (by omega)
  rw [show (((l + 1 : Nat) : Int)) = (l : Int) + 1 by push_cast; rfl] at hg2
  have htop : (entry (l + 1) ((l : Int) + 1) : associated_legendre_poly ℝ)
      = (entry l (l : Int)).copy_q_plus_1.scale (-(2 * (l : ℝ) + 1)) := by
    rw [entry_top, top_rule]
    push_cast
    rfl
  have hq : ∀ t ∈ (entry l (l : Int) : associated_legendre_poly ℝ).poly, 0 ≤ t.qexp := by
    intro t ht
    have := entry_shape (K := ℝ) l (l : Int) (by omega) (by omega) t ht
    simp only [shape] at this
    omega
  refine ⟨_, _, _, _, get_canonical N1 l l (by omega) (by omega), hg2, htop, ?_⟩
  intro z _ _
  rw [htop, evaluate_scale, evaluate_copy_q_plus_1 _ _ _ hq,
    show 1 - z * z = 1 - z ^ 2 by ring]
  ring

theorem get_top_order_witness :
    Reachable (⟨[⟨0, 0, ⟨[⟨0, 0, 1⟩]⟩⟩], 0⟩ : associated_legendre ℝ) ∧
      ∃ p0 p1 t0 t1,
        (⟨[⟨0, 0, ⟨[⟨0, 0, 1⟩]⟩⟩], 0⟩ : associated_legendre ℝ).get ((2 : Nat) : Int)
          ((2 : Nat) : Int) = .ok (p0, t0) ∧
        (⟨[⟨0, 0, ⟨[⟨0, 0, 1⟩]⟩⟩], 0⟩ : associated_legendre ℝ).get (((2 : Nat) : Int) + 1)
          (((2 : Nat) : Int) + 1) = .ok (p1, t1) ∧
        p1 = p0.copy_q_plus_1.scale (-(2 * ((2 : Nat) : ℝ) + 1)) ∧
        ∀ z : ℝ, -1 ≤ z → z ≤ 1 →
          p1.evaluate Real.sqrt z
            = -(2 * ((2 : Nat) : ℝ) + 1) * Real.sqrt (1 - z ^ 2) * p0.evaluate Real.sqrt z :=
  ⟨reachable_initial, get_top_order _ _ reachable_initial reachable_initial 2⟩

/-- C4, amended: in exact real arithmetic, for every `l ≥ 1`, every `1 ≤ m ≤ l` and every
real `z`, the polynomial that `get(l, -m)` returns is the one of `get(l, m)` with every
coefficient multiplied by `(l-m)!/(l+m)!`, so that
`P_l^{-m}(z) Gamma(l+m+1) = P_l^m(z) Gamma(l-m+1)`. -/
theorem get_negative_order (s1 s2 : associated_legendre ℝ) (h1 : Reachable s1)
    (h2 : Reachable s2) (l m : Nat) (hm1 : 1 ≤ m) (hml : m ≤ l) :
    ∃ pneg ppos t1 t2, s1.get l (-(m : Int)) = .ok (pneg, t1) ∧
      s2.get l m = .ok (ppos, t2) ∧
      pneg = ppos.scale (((l - m).factorial : ℝ) / ((l + m).factorial : ℝ)) ∧
      ∀ z : ℝ, pneg.evaluate Real.sqrt z * Real.Gamma ((l : ℝ) + m + 1)
        = ppos.evaluate Real.sqrt z * Real.Gamma ((l : ℝ) - m + 1) := by
  obtain ⟨N1, rfl⟩ := (reachable_iff s1).1 h1
  obtain ⟨N2, rfl⟩ := (reachable_iff s2).1 h2
  have hneg : (entry l (-(m : Int)) : associated_legendre_poly ℝ)
      = (entry l (m : Int)).scale (((l - m).factorial : ℝ) / ((l + m).factorial : ℝ)) := by
    rw [entry_minus l (-(m : Int)) (by omega), minus_rule, neg_neg,
      show ((l : Int) + -(m : Int)).toNat = l - m by omega,
      show ((l : Int) - -(m : Int)).toNat = l + m by omega]
    rfl
  refine ⟨_, _, _, _, get_canonical N1 l (-(m : Int)) (by omega) (by omega),
    get_canonical N2 l m (by omega) (by omega), hneg, ?_⟩
  intro z
  have hg1 : Real.Gamma ((l : ℝ) + m + 1) = ((l + m).factorial : ℝ) := by
    rw [← Real.Gamma_nat_eq_factorial]; push_cast; rfl
  have hg2 : Real.Gamma ((l : ℝ) - m + 1) = ((l - m).factorial : ℝ) := by
    rw [← Real.Gamma_nat_eq_factorial, Nat.cast_sub hml]
  have hne : ((l + m).factorial : ℝ) ≠ 0 := by positivity
  rw [hneg, evaluate_scale, hg1, hg2]
  field_simp
  ring

theorem get_negative_order_witness :
    Reachable (⟨[⟨0, 0, ⟨[⟨0, 0, 1⟩]⟩⟩], 0⟩ : associated_legendre ℝ) ∧ 1 ≤ 1 ∧ 1 ≤ 3 ∧
      ∃ pneg ppos t1 t2,
        (⟨[⟨0, 0, ⟨[⟨0, 0, 1⟩]⟩⟩], 0⟩ : associated_legendre ℝ).get ((3 : Nat) : Int)
          (-((1 : Nat) : Int)) = .ok (pneg, t1) ∧
        (⟨[⟨0, 0, ⟨[⟨0, 0, 1⟩]⟩⟩], 0⟩ : associated_legendre ℝ).get ((3 : Nat) : Int)
          ((1 : Nat) : Int) = .ok (ppos, t2) ∧
        pneg = ppos.scale (((3 - 1).factorial : ℝ) / ((3 + 1).factorial : ℝ)) ∧
        ∀ z : ℝ, pneg.evaluate Real.sqrt z * Real.Gamma (((3 : Nat) : ℝ) + ((1 : Nat) : ℝ) + 1)
          = ppos.evaluate Real.sqrt z * Real.Gamma (((3 : Nat) : ℝ) - ((1 : Nat) : ℝ) + 1) :=
  ⟨reachable_initial, by norm_num, by norm_num,
    get_negative_order _ _ reachable_initial reachable_initial 3 1 (by norm_num)
      (by norm_num)⟩

/-- C5, amended: in exact real arithmetic, for every `l ≥ 0` and every `m` with
`|m| ≤ l`, the polynomial returned by `get(l, m)`, evaluated at `z = 1`, is `1` when
`m = 0` and `0` when `m ≠ 0`. -/
theorem get_evaluate_at_one (s : associated_legendre ℝ) (hs : Reachable s) (l : Nat)
    (m : Int) (hm1 : -(l : Int) ≤ m) (hm2 : m ≤ l) :
    ∃ p s1, s.get l m = .ok (p, s1) ∧
      p.evaluate Real.sqrt 1 = if m = 0 then 1 else 0 := by
  obtain ⟨N, rfl⟩ := (reachable_iff s).1 hs
  refine ⟨_, _, get_canonical N l m hm1 hm2, ?_⟩
  split
  · rename_i h
    subst h
    exact entry_zero_evaluate_one Real.sqrt l
  · rename_i h
    apply evaluate_eq_zero_of_qexp
    · norm_num
    · intro t ht
      have := entry_shape (K := ℝ) l m hm1 hm2 t ht
      simp only [shape] at this
      omega

theorem get_evaluate_at_one_witness :
    Reachable (⟨[⟨0, 0, ⟨[⟨0, 0, 1⟩]⟩⟩], 0⟩ : associated_legendre ℝ)
      ∧ -((3 : Nat) : Int) ≤ -2 ∧ (-2 : Int) ≤ (3 : Nat) ∧
      ∃ p s1, (⟨[⟨0, 0, ⟨[⟨0, 0, 1⟩]⟩⟩], 0⟩ : associated_legendre ℝ).get ((3 : Nat) : Int)
          (-2) = .ok (p, s1) ∧
        p.evaluate Real.sqrt 1 = if (-2 : Int) = 0 then 1 else 0 :=
  ⟨reachable_initial, by norm_num, by norm_num,
    get_evaluate_at_one _ reachable_initial 3 (-2) (by norm_num) (by norm_num)⟩

/-- C6: in every state reachable from the constructor by `get` and `increment_max_order`,
`maxOrder ≥ 0`, the table has exactly `(maxOrder+1)^2` entries, the entry at position
`l^2 + l - m` carries the fields `l` and `m` for every `0 ≤ l ≤ maxOrder`, `-l ≤ m ≤ l`,
the map `(l, m) ↦ l^2 + l - m` is injective on the valid pairs and onto the indices
`0 .. (maxOrder+1)^2 - 1`, and the reads of `increment_max_order` (the three sum rules)
and of `get` never leave the stored range: both calls succeed. -/
theorem table_indexing (s : associated_legendre ℝ) (hs : Reachable s) :
    0 ≤ s.maxOrder ∧ (s.poly.length : Int) = (s.maxOrder + 1) ^ 2 ∧
      (∀ l m : Int, 0 ≤ l → l ≤ s.maxOrder → -l ≤ m → m ≤ l →
        0 ≤ l * l + l - m ∧ l * l + l - m < s.poly.length ∧
        ∃ e, s.poly[(l * l + l - m).toNat]? = some e ∧ e.l = l ∧ e.m = m) ∧
      (∀ l m l1 m1 : Int, 0 ≤ l → -l ≤ m → m ≤ l → 0 ≤ l1 → -l1 ≤ m1 → m1 ≤ l1 →
        l * l + l - m = l1 * l1 + l1 - m1 → l = l1 ∧ m = m1) ∧
      (∀ i : Int, 0 ≤ i → i < (s.maxOrder + 1) ^ 2 →
        ∃ l m : Int, 0 ≤ l ∧ l ≤ s.maxOrder ∧ -l ≤ m ∧ m ≤ l ∧ l * l + l - m = i) ∧
      (∃ s1, s.increment_max_order = .ok s1) ∧
      (∀ l m : Int, |m| ≤ l → ∃ p s1, s.get l m = .ok (p, s1)) := by
  obtain ⟨N, rfl⟩ := (reachable_iff s).1 hs
  have hlen := length_table_list (K := ℝ) N
  refine ⟨by simp [canonical], ?_, ?_, index_injective, index_surjective N, ?_, ?_⟩
  · simp only [canonical, hlen]; push_cast; ring
  · intro l m hl0 hlN hm1 hm2
    simp only [canonical] at hlN ⊢
    obtain ⟨ln, rfl⟩ : ∃ ln : Nat, l = ln := ⟨l.toNat, by omega⟩
    obtain ⟨j, hj⟩ : ∃ j : Nat, (ln : Int) - m = j := ⟨((ln : Int) - m).toNat, by omega⟩
    have hi : ((ln : Int) * ln + ln - m).toNat = ln * ln + j := by
      have : (ln : Int) * ln + ln - m = ((ln * ln + j : Nat) : Int) := by push_cast; omega
      rw [this, Int.toNat_ofNat]
    have hln : ln ≤ N := by omega
    refine ⟨by nlinarith, ?_, ⟨ln, m, entry ln m⟩, ?_, rfl, rfl⟩
    · rw [hlen]; push_cast; nlinarith
    · rw [hi, table_list_get N ln j hln (by omega)]
      have : m = (ln : Int) - j := by omega
      rw [this]
  · exact ⟨_, increment_max_order_canonical N⟩
  · intro l m h
    have hl : 0 ≤ l := le_trans (abs_nonneg m) h
    obtain ⟨ln, rfl⟩ : ∃ ln : Nat, l = ln := ⟨l.toNat, by omega⟩
    rw [abs_le] at h
    exact ⟨_, _, get_canonical N ln m h.1 h.2⟩

theorem table_indexing_witness :
    Reachable (⟨[⟨0, 0, ⟨[⟨0, 0, 1⟩]⟩⟩], 0⟩ : associated_legendre ℝ) ∧
      (0 ≤ (⟨[⟨0, 0, ⟨[⟨0, 0, 1⟩]⟩⟩], 0⟩ : associated_legendre ℝ).maxOrder ∧
      (((⟨[⟨0, 0, ⟨[⟨0, 0, 1⟩]⟩⟩], 0⟩ : associated_legendre ℝ).poly.length : Nat) : Int)
        = ((⟨[⟨0, 0, ⟨[⟨0, 0, 1⟩]⟩⟩], 0⟩ : associated_legendre ℝ).maxOrder + 1) ^ 2 ∧
      (∀ l m : Int, 0 ≤ l →
        l ≤ (⟨[⟨0, 0, ⟨[⟨0, 0, 1⟩]⟩⟩], 0⟩ : associated_legendre ℝ).maxOrder → -l ≤ m → m ≤ l →
        0 ≤ l * l + l - m ∧
        l * l + l - m < (⟨[⟨0, 0, ⟨[⟨0, 0, 1⟩]⟩⟩], 0⟩ : associated_legendre ℝ).poly.length ∧
        ∃ e, (⟨[⟨0, 0, ⟨[⟨0, 0, 1⟩]⟩⟩], 0⟩ : associated_legendre ℝ).poly[(l * l + l - m).toNat]?
          = some e ∧ e.l = l ∧ e.m = m) ∧
      (∀ l m l1 m1 : Int, 0 ≤ l → -l ≤ m → m ≤ l → 0 ≤ l1 → -l1 ≤ m1 → m1 ≤ l1 →
        l * l + l - m = l1 * l1 + l1 - m1 → l = l1 ∧ m = m1) ∧
      (∀ i : Int, 0 ≤ i →
        i < ((⟨[⟨0, 0, ⟨[⟨0, 0, 1⟩]⟩⟩], 0⟩ : associated_legendre ℝ).maxOrder + 1) ^ 2 →
        ∃ l m : Int, 0 ≤ l ∧
          l ≤ (⟨[⟨0, 0, ⟨[⟨0, 0, 1⟩]⟩⟩], 0⟩ : associated_legendre ℝ).maxOrder ∧
          -l ≤ m ∧ m ≤ l ∧ l * l + l - m = i) ∧
      (∃ s1, (⟨[⟨0, 0, ⟨[⟨0, 0, 1⟩]⟩⟩], 0⟩ : associated_legendre ℝ).increment_max_order
        = .ok s1) ∧
      (∀ l m : Int, |m| ≤ l →
        ∃ p s1, (⟨[⟨0, 0, ⟨[⟨0, 0, 1⟩]⟩⟩], 0⟩ : associated_legendre ℝ).get l m = .ok (p, s1))) :=
  ⟨reachable_initial, table_indexing _ reachable_initial⟩

/-- C7: on a table, `get(l, m)` fails its assertion if and only if `|m| > l`, in particular
for every `l < 0`; and whenever `|m| ≤ l` it returns (the loop ends, every read is in
range) and leaves `maxOrder` equal to the maximum of its previous value and `l`. -/
theorem get_fails_iff (s : associated_legendre ℝ) (hs : Reachable s) (l m : Int) :
    (s.get l m = .error .assertion ↔ l < |m|) ∧
      (l < 0 → s.get l m = .error .assertion) ∧
      (|m| ≤ l → ∃ p s1, s.get l m = .ok (p, s1) ∧ s1.maxOrder = max s.maxOrder l) := by
  obtain ⟨N, rfl⟩ := (reachable_iff s).1 hs
  have hok : |m| ≤ l → ∃ p s1, (canonical N : associated_legendre ℝ).get l m = .ok (p, s1)
      ∧ s1.maxOrder = max (canonical N : associated_legendre ℝ).maxOrder l := by
    intro h
    have hl : 0 ≤ l := le_trans (abs_nonneg m) h
    obtain ⟨ln, rfl⟩ : ∃ ln : Nat, l = ln := ⟨l.toNat, by omega⟩
    rw [abs_le] at h
    refine ⟨_, _, get_canonical N ln m h.1 h.2, ?_⟩
    simp only [canonical]
    push_cast
    rfl
  refine ⟨⟨?_, get_assertion _ l m⟩, ?_, hok⟩
  · intro h
    by_contra hc
    obtain ⟨p, s1, hget, _⟩ := hok (by omega)
    rw [hget] at h
    cases h
  · intro h
    exact get_assertion _ l m (lt_of_lt_of_le h (abs_nonneg m))

theorem get_fails_iff_witness :
    Reachable (⟨[⟨0, 0, ⟨[⟨0, 0, 1⟩]⟩⟩], 0⟩ : associated_legendre ℝ) ∧
      (((⟨[⟨0, 0, ⟨[⟨0, 0, 1⟩]⟩⟩], 0⟩ : associated_legendre ℝ).get 2 (-3)
          = .error .assertion ↔ (2 : Int) < |(-3)|) ∧
      ((2 : Int) < 0 → (⟨[⟨0, 0, ⟨[⟨0, 0, 1⟩]⟩⟩], 0⟩ : associated_legendre ℝ).get 2 (-3)
          = .error .assertion) ∧
      (|(-3 : Int)| ≤ 2 → ∃ p s1,
        (⟨[⟨0, 0, ⟨[⟨0, 0, 1⟩]⟩⟩], 0⟩ : associated_legendre ℝ).get 2 (-3) = .ok (p, s1) ∧
        s1.maxOrder
          = max (⟨[⟨0, 0, ⟨[⟨0, 0, 1⟩]⟩⟩], 0⟩ : associated_legendre ℝ).maxOrder 2)) :=
  ⟨reachable_initial, get_fails_iff _ reachable_initial 2 (-3)⟩

/-- C8: growing the table never changes an answer: on any two tables (constructed with
any `maxOrder` and used for any earlier `get` calls) the call `get(l, m)` with `|m| ≤ l`
returns the same polynomial, term for term, and a second call on the table left by the
first returns it again and leaves the table as it is. -/
theorem get_independent_of_growth (s1 s2 : associated_legendre ℝ) (h1 : Reachable s1)
    (h2 : Reachable s2) (l m : Int) (h : |m| ≤ l) :
    ∃ p t1 t2, s1.get l m = .ok (p, t1) ∧ s2.get l m = .ok (p, t2) ∧
      t1.get l m = .ok (p, t1) := by
  obtain ⟨N1, rfl⟩ := (reachable_iff s1).1 h1
  obtain ⟨N2, rfl⟩ := (reachable_iff s2).1 h2
  have hl : 0 ≤ l := le_trans (abs_nonneg m) h
  obtain ⟨ln, rfl⟩ : ∃ ln : Nat, l = ln := ⟨l.toNat, by omega⟩
  rw [abs_le] at h
  refine ⟨_, _, _, get_canonical N1 ln m h.1 h.2, get_canonical N2 ln m h.1 h.2, ?_⟩
  have := get_canonical (K := ℝ) (max N1 ln) ln m h.1 h.2
  rw [show max (max N1 ln) ln = max N1 ln by omega] at this
  exact this

theorem get_independent_of_growth_witness :
    Reachable (canonical 5 : associated_legendre ℝ) ∧
      Reachable (canonical 3 : associated_legendre ℝ) ∧ |(-2 : Int)| ≤ 3 ∧
      ∃ p t1 t2, (canonical 5 : associated_legendre ℝ).get 3 (-2) = .ok (p, t1) ∧
        (canonical 3 : associated_legendre ℝ).get 3 (-2) = .ok (p, t2) ∧
        t1.get 3 (-2) = .ok (p, t1) :=
  ⟨Reachable.construct 5 _ (construct_eq 5), Reachable.construct 3 _ (construct_eq 3),
    by norm_num,
    get_independent_of_growth _ _ (Reachable.construct 5 _ (construct_eq 5))
      (Reachable.construct 3 _ (construct_eq 3)) 3 (-2) (by norm_num)⟩

end claims

/-! ## The spherical-harmonic evaluator -/

section claims_evaluator

theorem sh_construct_eq {K : Type} [Field K] (maxOrder : Int) :
    (spherical_harmonic.construct maxOrder : Except Fault (spherical_harmonic K))
      = .ok ⟨canonical maxOrder.toNat, associated_legendre_poly.empty, 0, 0⟩ := by
  unfold spherical_harmonic.construct
  rw [construct_eq]
  simp [spherical_harmonic.load_poly]

theorem load_poly_same {K : Type} [Field K] (s : spherical_harmonic K) :
    s.load_poly s.lnow s.mnow = .ok s := by
  simp [spherical_harmonic.load_poly]

theorem load_poly_other {K : Type} [Field K] (N : Nat) (p : associated_legendre_poly K)
    (lnow mnow : Int) (l : Nat) (m : Int) (hkey : (l : Int) ≠ lnow ∨ m ≠ mnow)
    (hm1 : -(l : Int) ≤ m) (hm2 : m ≤ l) :
    (⟨canonical N, p, lnow, mnow⟩ : spherical_harmonic K).load_poly l m
      = .ok ⟨canonical (max N l), entry l m, l, m⟩ := by
  unfold spherical_harmonic.load_poly
  rw [if_pos hkey, get_canonical N l m hm1 hm2]

theorem gsl_sf_gamma_one {K : Type} [NatCast K] :
    (gsl_sf_gamma 1 : Except Fault K) = .ok ((Nat.factorial 0 : Nat) : K) := by
  simp [gsl_sf_gamma]

theorem evaluate_xl_zero (M : libm ℝ) (hM : is_real_libm M) (x0 x1 x2 : ℝ) :
    spherical_harmonic.evaluate_xl M 0 x0 x1 x2 = 1 := by
  obtain ⟨_, hpow, _⟩ := hM
  simp [spherical_harmonic.evaluate_xl, hpow]

theorem evaluate_xl_origin (M : libm ℝ) (hM : is_real_libm M) (l : Int) (hl : 1 ≤ l) :
    spherical_harmonic.evaluate_xl M l 0 0 0 = 0 := by
  obtain ⟨_, hpow, _⟩ := hM
  simp only [spherical_harmonic.evaluate_xl, hpow, mul_zero, add_zero]
  apply Real.zero_rpow
  have : (1 : ℝ) ≤ (l : ℝ) := by exact_mod_cast hl
  positivity

/-- Once the cached key is not `(0, 0)`, the call `evaluate(0, 0, ...)` loads the constant
polynomial and returns `1/sqrt(4 pi)`. -/
theorem evaluate_zero_zero_loaded (M : libm ℝ) (hM : is_real_libm M) (N : Nat)
    (p : associated_legendre_poly ℝ) (lnow mnow : Int) (hkey : (0 : Int) ≠ lnow ∨ (0 : Int) ≠ mnow)
    (x0 x1 x2 : ℝ) :
    (⟨canonical N, p, lnow, mnow⟩ : spherical_harmonic ℝ).evaluate M 0 0 x0 x1 x2
      = .ok (⟨1 / Real.sqrt (4 * Real.pi), 0⟩, ⟨canonical N, entry 0 0, 0, 0⟩) := by
  have hxl := evaluate_xl_zero M hM x0 x1 x2
  have hload := load_poly_other (K := ℝ) N p lnow mnow 0 0 hkey (by simp) (by simp)
  obtain ⟨hsqrt, _, _, hcos, hsin, hpi⟩ := hM
  unfold spherical_harmonic.evaluate
  simp only [hxl, gt_iff_lt, zero_lt_one, if_true]
  simp only [Nat.cast_zero, Nat.zero_max, max_eq_left (Nat.zero_le N)] at hload
  simp only [sub_zero, zero_add, add_zero, gsl_sf_gamma_one, hload]
  have hev : ∀ (sq : ℝ → ℝ) (c : ℝ),
      (entry 0 0 : associated_legendre_poly ℝ).evaluate sq c = 1 := by
    intro sq c
    simp [entry, entry_nonneg, associated_legendre_poly.evaluate, poly_term.evaluate]
  simp only [hev, gsl_complex_mul_real, gsl_complex_polar, hcos, hsin, hsqrt, hpi,
    Int.cast_zero, zero_mul, Real.cos_zero, Real.sin_zero, Nat.factorial_zero, Nat.cast_one,
    mul_zero, mul_one, div_one, zero_add]
  rw [Real.sqrt_div zero_le_one, Real.sqrt_one]

/-- C9: on a freshly constructed evaluator (any `maxOrder`, any math library) the key
`(0, 0)` is set before `load_poly(0,0)` runs, so the cached polynomial stays empty and
`evaluate(0, 0, x0, x1, x2)` returns complex zero at every point, not `1/sqrt(4 pi)`. -/
theorem evaluate_fresh_zero_zero (M : libm ℝ) (maxOrder : Int) (x0 x1 x2 : ℝ) :
    ∃ s0 : spherical_harmonic ℝ, spherical_harmonic.construct maxOrder = .ok s0 ∧
      s0.alpoly = associated_legendre_poly.empty ∧
      s0.evaluate M 0 0 x0 x1 x2 = .ok (⟨0, 0⟩, s0) ∧
      (⟨0, 0⟩ : gsl_complex ℝ) ≠ ⟨1 / Real.sqrt (4 * Real.pi), 0⟩ := by
  refine ⟨_, sh_construct_eq maxOrder, rfl, ?_, ?_⟩
  · have hload := load_poly_same
      (⟨canonical maxOrder.toNat, associated_legendre_poly.empty, 0, 0⟩ : spherical_harmonic ℝ)
    simp only at hload
    unfold spherical_harmonic.evaluate
    simp only [sub_zero, zero_add, add_zero, gsl_sf_gamma_one, hload, evaluate_empty,
      gsl_complex_mul_real, mul_zero, zero_mul, gsl_complex_rect, ite_self]
  · intro h
    have h1 : (0 : ℝ) = 1 / Real.sqrt (4 * Real.pi) := congrArg gsl_complex.re h
    have h2 : 0 < 1 / Real.sqrt (4 * Real.pi) := by positivity
    linarith

/-- C10, as stated, fails at `l = 0`, `m = 0`: with the real math library the guard value
at the origin is `pow(0, 0) = 1 > 0`, so the guard branch is not taken; and an evaluator
that has evaluated `(1, 0)` before returns `1/sqrt(4 pi)` there, not zero. -/
theorem evaluate_origin_degree_zero :
    ∃ M : libm ℝ, is_real_libm M ∧ 0 < spherical_harmonic.evaluate_xl M 0 0 0 0 ∧
      ∃ s0 v s1 s2, spherical_harmonic.construct 0 = .ok s0 ∧
        s0.evaluate M 1 0 0 0 1 = .ok (v, s1) ∧
        s1.evaluate M 0 0 0 0 0 = .ok (⟨1 / Real.sqrt (4 * Real.pi), 0⟩, s2) ∧
        (⟨1 / Real.sqrt (4 * Real.pi), 0⟩ : gsl_complex ℝ) ≠ gsl_complex_rect 0 0 := by
  have hM : is_real_libm ⟨Real.sqrt, fun x y => x ^ y, fun y x => Complex.arg ⟨x, y⟩,
      Real.cos, Real.sin, Real.pi⟩ := ⟨rfl, rfl, rfl, rfl, rfl, rfl⟩
  refine ⟨_, hM, ?_, ?_⟩
  · rw [evaluate_xl_zero _ hM]; exact zero_lt_one
  · have hload := load_poly_other (K := ℝ) 0 associated_legendre_poly.empty 0 0 1 0
      (Or.inl (by norm_num)) (by norm_num) (by norm_num)
    have hxl : spherical_harmonic.evaluate_xl (⟨Real.sqrt, fun x y => x ^ y,
        fun y x => Complex.arg ⟨x, y⟩, Real.cos, Real.sin, Real.pi⟩ : libm ℝ) 1 0 0 1 = 1 := by
      simp [spherical_harmonic.evaluate_xl]
    have hfirst : ∃ v, (⟨canonical 0, associated_legendre_poly.empty, 0, 0⟩ :
        spherical_harmonic ℝ).evaluate (⟨Real.sqrt, fun x y => x ^ y,
          fun y x => Complex.arg ⟨x, y⟩, Real.cos, Real.sin, Real.pi⟩ : libm ℝ) 1 0 0 0 1
        = .ok (v, ⟨canonical (max 0 1), entry 1 0, 1, 0⟩) := by
      unfold spherical_harmonic.evaluate
      simp only [hxl, gt_iff_lt, zero_lt_one, if_true]
      simp only [Nat.cast_one] at hload
      simp only [gsl_sf_gamma, sub_zero, add_zero, hload]
      simp
    obtain ⟨v, hv⟩ := hfirst
    refine ⟨_, v, _, _, sh_construct_eq 0, hv,
      evaluate_zero_zero_loaded _ hM (max 0 1) (entry 1 0) 1 0 (Or.inl (by norm_num)) 0 0 0, ?_⟩
    · intro h
      have h1 : 1 / Real.sqrt (4 * Real.pi) = (0 : ℝ) := congrArg gsl_complex.re h
      have h2 : 0 < 1 / Real.sqrt (4 * Real.pi) := by positivity
      linarith

/-- C10, amended: for every degree `l ≥ 1` and every order `m` (in particular `|m| ≤ l`),
on any evaluator, `evaluate(l, m, 0, 0, 0)` finds the guard value `pow(0, l/2) = 0`, takes
the guard branch and returns complex zero, leaving the evaluator unchanged. -/
theorem evaluate_origin (M : libm ℝ) (hM : is_real_libm M) (s : spherical_harmonic ℝ)
    (l m : Int) (hl : 1 ≤ l) :
    ¬ (0 < spherical_harmonic.evaluate_xl M l 0 0 0) ∧
      s.evaluate M l m 0 0 0 = .ok (gsl_complex_rect 0 0, s) := by
  have hxl := evaluate_xl_origin M hM l hl
  refine ⟨by rw [hxl]; exact lt_irrefl 0, ?_⟩
  unfold spherical_harmonic.evaluate
  simp only [hxl, gt_iff_lt, lt_irrefl, if_false]

theorem evaluate_origin_witness :
    is_real_libm ⟨Real.sqrt, fun x y => x ^ y, fun y x => Complex.arg ⟨x, y⟩,
      Real.cos, Real.sin, Real.pi⟩ ∧ (1 : Int) ≤ 2 ∧
    (¬ (0 < spherical_harmonic.evaluate_xl (⟨Real.sqrt, fun x y => x ^ y,
        fun y x => Complex.arg ⟨x, y⟩, Real.cos, Real.sin, Real.pi⟩ : libm ℝ) 2 0 0 0) ∧
      (⟨⟨[⟨0, 0, ⟨[⟨0, 0, 1⟩]⟩⟩], 0⟩, ⟨[]⟩, 0, 0⟩ : spherical_harmonic ℝ).evaluate
          ⟨Real.sqrt, fun x y => x ^ y, fun y x => Complex.arg ⟨x, y⟩,
            Real.cos, Real.sin, Real.pi⟩ 2 1 0 0 0
        = .ok (gsl_complex_rect 0 0, ⟨⟨[⟨0, 0, ⟨[⟨0, 0, 1⟩]⟩⟩], 0⟩, ⟨[]⟩, 0, 0⟩)) :=
  ⟨⟨rfl, rfl, rfl, rfl, rfl, rfl⟩, by norm_num,
    evaluate_origin _ ⟨rfl, rfl, rfl, rfl, rfl, rfl⟩ _ 2 1 (by norm_num)⟩

end claims_evaluator

/-! ## The no-duplicate invariant and merge-on-insert -/

section distinct

variable {K : Type}

theorem exps_add_loop_of_mem [Add K] (xs : List (poly_term K)) (term : poly_term K)
    (h : (term.zexp, term.qexp) ∈ xs.map (fun t => (t.zexp, t.qexp))) :
    (associated_legendre_poly.add_loop xs term).map (fun t => (t.zexp, t.qexp))
      = xs.map (fun t => (t.zexp, t.qexp)) := by
  induction xs with
  | nil => simp at h
  | cons x xs ih =>
    unfold associated_legendre_poly.add_loop
    split
    · simp [poly_term.add]
    · rename_i hne
      simp only [poly_term.get_z, poly_term.get_q] at hne
      simp only [List.map_cons, List.mem_cons, Prod.mk.injEq] at h
      rcases h with h | h
      · exact absurd ⟨h.1.symm, h.2.symm⟩ hne
      · simp only [List.map_cons, ih h]

theorem exps_add_loop_of_not_mem [Add K] (xs : List (poly_term K)) (term : poly_term K)
    (h : (term.zexp, term.qexp) ∉ xs.map (fun t => (t.zexp, t.qexp))) :
    associated_legendre_poly.add_loop xs term = xs ++ [term] := by
  induction xs with
  | nil => rfl
  | cons x xs ih =>
    simp only [List.map_cons, List.mem_cons, not_or, Prod.mk.injEq] at h
    unfold associated_legendre_poly.add_loop
    rw [if_neg (by
      simp only [poly_term.get_z, poly_term.get_q]
      intro hc
      exact h.1 ⟨hc.1.symm, hc.2.symm⟩), ih h.2]
    rfl

theorem distinct_exps_add [Add K] (p : associated_legendre_poly K) (term : poly_term K)
    (hp : distinct_exps p) : distinct_exps (p.add term) := by
  unfold distinct_exps exps associated_legendre_poly.add at *
  by_cases h : (term.zexp, term.qexp) ∈ p.poly.map (fun t => (t.zexp, t.qexp))
  · simp only [exps_add_loop_of_mem p.poly term h]
    exact hp
  · simp only [exps_add_loop_of_not_mem p.poly term h, List.map_append, List.map_cons,
      List.map_nil]
    exact List.Nodup.append hp (List.nodup_singleton _)
      (by
        intro x hx hx2
        rw [List.mem_singleton] at hx2
        subst hx2
        exact h hx)

theorem distinct_exps_foldl_add [Add K] {α : Type} (f : α → poly_term K) (xs : List α)
    (acc : associated_legendre_poly K) (hacc : distinct_exps acc) :
    distinct_exps (xs.foldl (fun p0 x => p0.add (f x)) acc) := by
  induction xs generalizing acc with
  | nil => exact hacc
  | cons x xs ih => exact ih _ (distinct_exps_add acc (f x) hacc)

theorem distinct_exps_nil : distinct_exps (⟨[]⟩ : associated_legendre_poly K) :=
  List.nodup_nil

theorem distinct_exps_add_alp [Add K] (p alp : associated_legendre_poly K)
    (hp : distinct_exps p) : distinct_exps (p.add_alp alp) :=
  distinct_exps_foldl_add (fun t => t) alp.poly p hp

theorem exps_scale [Mul K] (p : associated_legendre_poly K) (fac : K) :
    exps (p.scale fac) = exps p := by
  simp [exps, associated_legendre_poly.scale, poly_term.scale, Function.comp]

theorem distinct_exps_scale [Mul K] (p : associated_legendre_poly K) (fac : K)
    (hp : distinct_exps p) : distinct_exps (p.scale fac) := by
  unfold distinct_exps
  rw [exps_scale]
  exact hp

theorem distinct_exps_copy_z_plus_1 [Add K] (p : associated_legendre_poly K) :
    distinct_exps p.copy_z_plus_1 :=
  distinct_exps_foldl_add (fun (t : poly_term K) => t.copy_z_plus_1) p.poly ⟨[]⟩
    distinct_exps_nil

theorem distinct_exps_copy_q_plus_1 [Add K] (p : associated_legendre_poly K) :
    distinct_exps p.copy_q_plus_1 :=
  distinct_exps_foldl_add (fun (t : poly_term K) => t.copy_q_plus_1) p.poly ⟨[]⟩
    distinct_exps_nil

/-- What `add(poly_term)` does: it adds the coefficient into the first stored term with
the exponents of `term` and keeps the number of terms, or it appends `term`. -/
theorem add_loop_cases [Add K] (xs : List (poly_term K)) (term : poly_term K) :
    (∃ pre t0 post, xs = pre ++ t0 :: post ∧ t0.zexp = term.zexp ∧ t0.qexp = term.qexp ∧
        (∀ x ∈ pre, ¬ (x.zexp = term.zexp ∧ x.qexp = term.qexp)) ∧
        associated_legendre_poly.add_loop xs term = pre ++ t0.add term.fac :: post ∧
        (associated_legendre_poly.add_loop xs term).length = xs.length) ∨
      ((∀ x ∈ xs, ¬ (x.zexp = term.zexp ∧ x.qexp = term.qexp)) ∧
        associated_legendre_poly.add_loop xs term = xs ++ [term]) := by
  induction xs with
  | nil => exact Or.inr ⟨fun x hx => absurd hx (List.not_mem_nil _), rfl⟩
  | cons x xs ih =>
    by_cases h : x.zexp = term.zexp ∧ x.qexp = term.qexp
    · refine Or.inl ⟨[], x, xs, rfl, h.1, h.2, fun y hy => absurd hy (List.not_mem_nil _), ?_, ?_⟩
      · unfold associated_legendre_poly.add_loop
        rw [if_pos (by simpa [poly_term.get_z, poly_term.get_q] using h)]
        rfl
      · unfold associated_legendre_poly.add_loop
        rw [if_pos (by simpa [poly_term.get_z, poly_term.get_q] using h)]
        rfl
    · have hstep : associated_legendre_poly.add_loop (x :: xs) term
          = x :: associated_legendre_poly.add_loop xs term := by
        rw [associated_legendre_poly.add_loop,
          if_neg (by simpa [poly_term.get_z, poly_term.get_q] using h)]
      rcases ih with ⟨pre, t0, post, hxs, hz, hq, hpre, hadd, hlen⟩ | ⟨hno, hadd⟩
      · refine Or.inl ⟨x :: pre, t0, post, by rw [hxs]; rfl, hz, hq, ?_, ?_, ?_⟩
        · intro y hy
          rcases List.mem_cons.1 hy with rfl | hy
          · exact h
          · exact hpre y hy
        · rw [hstep, hadd]; rfl
        · rw [hstep, List.length_cons, hlen, List.length_cons]
      · refine Or.inr ⟨?_, by rw [hstep, hadd]; rfl⟩
        intro y hy
        rcases List.mem_cons.1 hy with rfl | hy
        · exact h
        · exact hno y hy

end distinct

section coefficients

variable {K : Type} [Field K]

theorem coeff_sum_nil (a b : Int) : coeff_sum ([] : List (poly_term K)) a b = 0 := rfl

theorem coeff_sum_cons (x : poly_term K) (xs : List (poly_term K)) (a b : Int) :
    coeff_sum (x :: xs) a b
      = (if x.zexp = a ∧ x.qexp = b then x.fac else 0) + coeff_sum xs a b := by
  unfold coeff_sum
  by_cases h : x.zexp = a ∧ x.qexp = b
  · simp [List.filter_cons, h]
  · simp [List.filter_cons, h]

theorem coeff_sum_append (xs ys : List (poly_term K)) (a b : Int) :
    coeff_sum (xs ++ ys) a b = coeff_sum xs a b + coeff_sum ys a b := by
  simp [coeff_sum, List.filter_append]

theorem coeff_sum_add_loop (xs : List (poly_term K)) (term : poly_term K) (a b : Int) :
    coeff_sum (associated_legendre_poly.add_loop xs term) a b
      = coeff_sum xs a b + (if term.zexp = a ∧ term.qexp = b then term.fac else 0) := by
  induction xs with
  | nil => simp [associated_legendre_poly.add_loop, coeff_sum_cons, coeff_sum_nil]
  | cons x xs ih =>
    unfold associated_legendre_poly.add_loop
    split
    · rename_i h
      simp only [poly_term.get_z, poly_term.get_q] at h
      simp only [coeff_sum_cons, poly_term.add, poly_term.get_fac, h.1, h.2]
      split <;> ring
    · simp only [coeff_sum_cons, ih]
      ring

theorem coeff_sum_foldl_add (xs : List (poly_term K)) (acc : associated_legendre_poly K)
    (a b : Int) :
    coeff_sum (xs.foldl (fun p t => p.add t) acc).poly a b
      = coeff_sum acc.poly a b + coeff_sum xs a b := by
  induction xs generalizing acc with
  | nil => simp [coeff_sum_nil]
  | cons x xs ih =>
    rw [List.foldl_cons, ih, coeff_sum_cons]
    simp only [associated_legendre_poly.add, coeff_sum_add_loop]
    ring

theorem coeff_sum_of_not_mem (xs : List (poly_term K)) (a b : Int)
    (h : (a, b) ∉ xs.map (fun t => (t.zexp, t.qexp))) : coeff_sum xs a b = 0 := by
  induction xs with
  | nil => rfl
  | cons x xs ih =>
    simp only [List.map_cons, List.mem_cons, not_or, Prod.mk.injEq] at h
    rw [coeff_sum_cons, ih h.2, if_neg (fun hc => h.1 ⟨hc.1.symm, hc.2.symm⟩), add_zero]

/-- With pairwise distinct exponent pairs, the coefficient sum of a pair is the
coefficient of its one term. -/
theorem coeff_sum_of_mem (xs : List (poly_term K))
    (hnd : (xs.map (fun t => (t.zexp, t.qexp))).Nodup) (t : poly_term K) (ht : t ∈ xs) :
    coeff_sum xs t.zexp t.qexp = t.fac := by
  induction xs with
  | nil => exact absurd ht (List.not_mem_nil _)
  | cons x xs ih =>
    rw [List.map_cons, List.nodup_cons] at hnd
    rw [coeff_sum_cons]
    rcases List.mem_cons.1 ht with rfl | ht
    · rw [if_pos ⟨rfl, rfl⟩, coeff_sum_of_not_mem xs _ _ hnd.1, add_zero]
    · have hne : ¬ (x.zexp = t.zexp ∧ x.qexp = t.qexp) := by
        intro hc
        apply hnd.1
        rw [hc.1, hc.2]
        exact List.mem_map.2 ⟨t, ht, rfl⟩
      rw [if_neg hne, zero_add, ih hnd.2 ht]

theorem coeff_sum_perm (xs ys : List (poly_term K)) (h : xs.Perm ys) (a b : Int) :
    coeff_sum xs a b = coeff_sum ys a b :=
  ((h.filter _).map _).sum_eq

theorem mem_exps_add_loop (xs : List (poly_term K)) (term : poly_term K) (c : Int × Int) :
    c ∈ (associated_legendre_poly.add_loop xs term).map (fun t => (t.zexp, t.qexp))
      ↔ c ∈ xs.map (fun t => (t.zexp, t.qexp)) ∨ c = (term.zexp, term.qexp) := by
  by_cases h : (term.zexp, term.qexp) ∈ xs.map (fun t => (t.zexp, t.qexp))
  · rw [exps_add_loop_of_mem xs term h]
    constructor
    · exact Or.inl
    · rintro (h1 | h1)
      · exact h1
      · rw [h1]; exact h
  · rw [exps_add_loop_of_not_mem xs term h]
    simp

theorem mem_exps_foldl_add (xs : List (poly_term K)) (acc : associated_legendre_poly K)
    (c : Int × Int) :
    c ∈ exps (xs.foldl (fun p t => p.add t) acc)
      ↔ c ∈ exps acc ∨ c ∈ xs.map (fun t => (t.zexp, t.qexp)) := by
  induction xs generalizing acc with
  | nil => simp
  | cons x xs ih =>
    rw [List.foldl_cons, ih]
    simp only [exps, associated_legendre_poly.add, mem_exps_add_loop, List.map_cons,
      List.mem_cons]
    tauto

end coefficients

section stored

variable {K : Type} [Field K]

theorem entry_nonneg_distinct (l m : Nat) :
    distinct_exps (entry_nonneg l m : associated_legendre_poly K) := by
  cases l with
  | zero => simp [entry_nonneg, distinct_exps, exps]
  | succ l =>
    rw [entry_nonneg_succ]
    split
    · exact distinct_exps_scale _ _ (distinct_exps_copy_q_plus_1 _)
    · exact distinct_exps_add_alp _ _ (distinct_exps_scale _ _ (distinct_exps_copy_z_plus_1 _))

theorem entry_distinct (l : Nat) (m : Int) :
    distinct_exps (entry l m : associated_legendre_poly K) := by
  unfold entry
  split
  · exact entry_nonneg_distinct l _
  · exact distinct_exps_scale _ _ (entry_nonneg_distinct l _)

theorem mem_row (l : Nat) (e : associated_legendre_pair K) (h : e ∈ row l) :
    ∃ m : Int, e = ⟨l, m, entry l m⟩ := by
  simp only [row, List.mem_map, List.mem_range] at h
  obtain ⟨j, _, rfl⟩ := h
  exact ⟨_, rfl⟩

theorem mem_table_list (N : Nat) (e : associated_legendre_pair K) (h : e ∈ table_list N) :
    ∃ (l : Nat) (m : Int), e = ⟨l, m, entry l m⟩ := by
  induction N with
  | zero => exact ⟨0, mem_row 0 e h⟩
  | succ N ih =>
    rw [table_list, List.mem_append] at h
    rcases h with h | h
    · exact ih h
    · exact ⟨N + 1, mem_row (N + 1) e h⟩

end stored

section parity

theorem entry_top_closed {K : Type} [Field K] (l : Nat) :
    (entry l (l : Int) : associated_legendre_poly K)
      = ⟨[⟨0, l, (-1) ^ l * (Nat.doubleFactorial (2 * l - 1) : K)⟩]⟩ := by
  induction l with
  | zero => simp [entry, entry_nonneg]
  | succ l ih =>
    have hcast : (((l + 1 : Nat) : Int)) = (l : Int) + 1 := by push_cast; rfl
    rw [hcast, entry_top, ih]
    have hdf : Nat.doubleFactorial (2 * (l + 1) - 1)
        = (2 * l + 1) * Nat.doubleFactorial (2 * l - 1) := by
      cases l with
      | zero => rfl
      | succ k =>
        rw [show 2 * (k + 1 + 1) - 1 = (2 * (k + 1) - 1) + 2 by omega,
          Nat.doubleFactorial_add_two]
        congr 1
    simp only [top_rule, associated_legendre_poly.copy_q_plus_1, List.foldl_cons,
      List.foldl_nil, associated_legendre_poly.add, associated_legendre_poly.add_loop,
      associated_legendre_poly.scale, List.map_cons, List.map_nil, poly_term.scale,
      poly_term.copy_q_plus_1, hdf]
    congr 3
    push_cast
    ring

theorem doubleFactorial_odd_eq_prod (l : Nat) :
    Nat.doubleFactorial (2 * l - 1) = (Finset.range l).prod (fun k => 2 * k + 1) := by
  induction l with
  | zero => rfl
  | succ l ih =>
    rw [Finset.prod_range_succ, ← ih]
    cases l with
    | zero => rfl
    | succ k =>
      rw [show 2 * (k + 1 + 1) - 1 = (2 * (k + 1) - 1) + 2 by omega,
        Nat.doubleFactorial_add_two, Nat.mul_comm]
      congr 1

end parity

/-! ## The claims about polynomials and stored entries -/

section claims_poly

/-- C13: if no two terms of `p` share an exponent pair, the same holds after `add(term)`
(which adds the coefficient into the one stored term with these exponents and keeps the
number of terms, or else appends the term and keeps all other terms), after
`add(polynomial)`, after `scale`, and for `copy_z_plus_1` and `copy_q_plus_1`; and every
polynomial stored in a table, or returned by `get`, has pairwise distinct exponent
pairs. -/
theorem distinct_exps_invariant (p : associated_legendre_poly ℝ) (hp : distinct_exps p)
    (s : associated_legendre ℝ) (hs : Reachable s) :
    (∀ term : poly_term ℝ, distinct_exps (p.add term) ∧
      ((∃ pre t0 post, p.poly = pre ++ t0 :: post ∧ t0.zexp = term.zexp ∧
          t0.qexp = term.qexp ∧ (p.add term).poly = pre ++ t0.add term.fac :: post ∧
          (p.add term).poly.length = p.poly.length) ∨
        ((∀ x ∈ p.poly, ¬ (x.zexp = term.zexp ∧ x.qexp = term.qexp)) ∧
          (p.add term).poly = p.poly ++ [term]))) ∧
      (∀ q : associated_legendre_poly ℝ, distinct_exps (p.add_alp q)) ∧
      (∀ fac : ℝ, distinct_exps (p.scale fac)) ∧
      distinct_exps p.copy_z_plus_1 ∧ distinct_exps p.copy_q_plus_1 ∧
      (∀ e ∈ s.poly, distinct_exps e.ascleg) ∧
      (∀ l m : Int, |m| ≤ l → ∃ r s1, s.get l m = .ok (r, s1) ∧ distinct_exps r) := by
  refine ⟨fun term => ⟨distinct_exps_add p term hp, ?_⟩, fun q => distinct_exps_add_alp p q hp,
    fun fac => distinct_exps_scale p fac hp, distinct_exps_copy_z_plus_1 p,
    distinct_exps_copy_q_plus_1 p, ?_, ?_⟩
  · rcases add_loop_cases p.poly term with ⟨pre, t0, post, h1, h2, h3, _, h5, h6⟩ | h
    · exact Or.inl ⟨pre, t0, post, h1, h2, h3, h5, h6⟩
    · exact Or.inr h
  · obtain ⟨N, rfl⟩ := (reachable_iff s).1 hs
    intro e he
    obtain ⟨l, m, rfl⟩ := mem_table_list N e he
    exact entry_distinct l m
  · obtain ⟨N, rfl⟩ := (reachable_iff s).1 hs
    intro l m h
    have hl : 0 ≤ l := le_trans (abs_nonneg m) h
    obtain ⟨ln, rfl⟩ : ∃ ln : Nat, l = ln := ⟨l.toNat, by omega⟩
    rw [abs_le] at h
    exact ⟨_, _, get_canonical N ln m h.1 h.2, entry_distinct ln m⟩

theorem distinct_exps_invariant_witness :
    distinct_exps (⟨[⟨2, 0, 3 / 2⟩, ⟨0, 0, -1 / 2⟩]⟩ : associated_legendre_poly ℝ) ∧
      Reachable (⟨[⟨0, 0, ⟨[⟨0, 0, 1⟩]⟩⟩], 0⟩ : associated_legendre ℝ) ∧
      distinct_exps
        ((⟨[⟨2, 0, 3 / 2⟩, ⟨0, 0, -1 / 2⟩]⟩ : associated_legendre_poly ℝ).add ⟨0, 0, 5⟩) ∧
      distinct_exps
        (⟨[⟨2, 0, 3 / 2⟩, ⟨0, 0, -1 / 2⟩]⟩ : associated_legendre_poly ℝ).copy_z_plus_1 :=
  ⟨by simp [distinct_exps, exps], reachable_initial,
    ((distinct_exps_invariant _ (by simp [distinct_exps, exps]) _ reachable_initial).1
      ⟨0, 0, 5⟩).1,
    (distinct_exps_invariant _ (by simp [distinct_exps, exps]) _ reachable_initial).2.2.2.1⟩

/-- C14: for a table constructed with any `maxOrder`, `get(0, 0)` returns the single term
with `zexp = 0`, `qexp = 0`, `fac = 1`, whose value is `1` at every real `z`. -/
theorem get_zero_zero (maxOrder : Int) :
    ∃ s : associated_legendre ℝ, associated_legendre.construct maxOrder = .ok s ∧
      ∃ s1, s.get 0 0 = .ok (⟨[⟨0, 0, 1⟩]⟩, s1) ∧
        ∀ z : ℝ, (⟨[⟨0, 0, 1⟩]⟩ : associated_legendre_poly ℝ).evaluate Real.sqrt z = 1 := by
  refine ⟨_, construct_eq maxOrder, canonical (max maxOrder.toNat 0), ?_, ?_⟩
  · have h := get_canonical (K := ℝ) maxOrder.toNat 0 0 (by simp) (by simp)
    have he : (entry 0 0 : associated_legendre_poly ℝ) = ⟨[⟨0, 0, 1⟩]⟩ := by
      simp [entry, entry_nonneg]
    rw [he] at h
    exact h
  · intro z
    simp [associated_legendre_poly.evaluate, poly_term.evaluate]

/-- C15: for all polynomials `p` and `q` and every real `z`, the value of `p` after
`p.add(q)` is the sum of the values of `p` and `q` before the call; adding the empty
polynomial leaves the terms of `p` unchanged; the empty polynomial evaluates to `0`. -/
theorem evaluate_additive (p q : associated_legendre_poly ℝ) (z : ℝ) :
    (p.add_alp q).evaluate Real.sqrt z = p.evaluate Real.sqrt z + q.evaluate Real.sqrt z ∧
      (p.add_alp associated_legendre_poly.empty).poly = p.poly ∧
      (associated_legendre_poly.empty : associated_legendre_poly ℝ).evaluate Real.sqrt z = 0 :=
  ⟨evaluate_add_alp Real.sqrt z p q, rfl, rfl⟩

/-- C16: adding the terms of a list one by one with `add(term)` to the empty polynomial
gives, for every permutation of the list, a polynomial with pairwise distinct exponent
pairs, the same set of exponent pairs, the same coefficient for each pair (the sum of the
coefficients of the listed terms with that pair) and the same value at every `z`. -/
theorem add_order_independent (xs ys : List (poly_term ℝ)) (h : xs.Perm ys) :
    distinct_exps (xs.foldl (fun p t => p.add t) associated_legendre_poly.empty) ∧
      distinct_exps (ys.foldl (fun p t => p.add t) associated_legendre_poly.empty) ∧
      (∀ c : Int × Int,
        c ∈ exps (xs.foldl (fun p t => p.add t) associated_legendre_poly.empty)
          ↔ c ∈ exps (ys.foldl (fun p t => p.add t) associated_legendre_poly.empty)) ∧
      (∀ t1 ∈ (xs.foldl (fun p t => p.add t) associated_legendre_poly.empty).poly,
        ∀ t2 ∈ (ys.foldl (fun p t => p.add t) associated_legendre_poly.empty).poly,
          t1.zexp = t2.zexp → t1.qexp = t2.qexp →
            t1.fac = t2.fac ∧ t1.fac = coeff_sum xs t1.zexp t1.qexp) ∧
      ∀ z : ℝ,
        (xs.foldl (fun p t => p.add t) associated_legendre_poly.empty).evaluate Real.sqrt z
          = (ys.foldl (fun p t => p.add t) associated_legendre_poly.empty).evaluate
              Real.sqrt z := by
  have hd1 := distinct_exps_foldl_add (fun (t : poly_term ℝ) => t) xs
    associated_legendre_poly.empty distinct_exps_nil
  have hd2 := distinct_exps_foldl_add (fun (t : poly_term ℝ) => t) ys
    associated_legendre_poly.empty distinct_exps_nil
  have hc : ∀ (zs : List (poly_term ℝ)),
      ∀ t ∈ (zs.foldl (fun p t => p.add t) associated_legendre_poly.empty).poly,
        t.fac = coeff_sum zs t.zexp t.qexp := by
    intro zs t ht
    have h1 := coeff_sum_of_mem _ (distinct_exps_foldl_add (fun (t : poly_term ℝ) => t) zs
      associated_legendre_poly.empty distinct_exps_nil) t ht
    rw [coeff_sum_foldl_add] at h1
    simp only [associated_legendre_poly.empty, coeff_sum_nil, zero_add] at h1
    exact h1.symm
  refine ⟨hd1, hd2, ?_, ?_, ?_⟩
  · intro c
    rw [mem_exps_foldl_add, mem_exps_foldl_add]
    have := (h.map (fun (t : poly_term ℝ) => (t.zexp, t.qexp))).mem_iff (a := c)
    rw [this]
  · intro t1 h1 t2 h2 hz hq
    refine ⟨?_, hc xs t1 h1⟩
    rw [hc xs t1 h1, hc ys t2 h2, hz, hq]
    exact coeff_sum_perm xs ys h _ _
  · intro z
    rw [evaluate_foldl_add Real.sqrt z (fun t => t) xs, evaluate_foldl_add Real.sqrt z
      (fun t => t) ys]
    rw [(h.map (fun (t : poly_term ℝ) => t.evaluate Real.sqrt z)).sum_eq]

theorem add_order_independent_witness :
    List.Perm (([⟨1, 0, 2⟩, ⟨0, 1, 3⟩] : List (poly_term ℝ)) ++ ([⟨1, 0, 5⟩] : List (poly_term ℝ)))
        (([⟨1, 0, 5⟩] : List (poly_term ℝ)) ++ ([⟨1, 0, 2⟩, ⟨0, 1, 3⟩] : List (poly_term ℝ))) ∧
      ∀ z : ℝ,
        ((([⟨1, 0, 2⟩, ⟨0, 1, 3⟩] : List (poly_term ℝ)) ++ ([⟨1, 0, 5⟩] : List (poly_term ℝ))).foldl
            (fun p t => p.add t) associated_legendre_poly.empty).evaluate Real.sqrt z
          = ((([⟨1, 0, 5⟩] : List (poly_term ℝ)) ++ ([⟨1, 0, 2⟩, ⟨0, 1, 3⟩] : List (poly_term ℝ))).foldl
            (fun p t => p.add t) associated_legendre_poly.empty).evaluate Real.sqrt z :=
  ⟨List.perm_append_comm, (add_order_independent _ _ List.perm_append_comm).2.2.2.2⟩

/-- C18, amended: in exact real arithmetic, for every `l ≥ 0`, the polynomial that
`get(l, l)` returns consists of exactly one term, with `zexp = 0`, `qexp = l` and
`fac = (-1)^l (2l-1)!!`, where the double factorial `(2l-1)!!` is the product
`1 * 3 * ... * (2l-1)` (equal to `1` for `l = 0`). -/
theorem get_top_closed_form (s : associated_legendre ℝ) (hs : Reachable s) (l : Nat) :
    ∃ s1, s.get l l
        = .ok (⟨[⟨0, l, (-1) ^ l * (Nat.doubleFactorial (2 * l - 1) : ℝ)⟩]⟩, s1) ∧
      Nat.doubleFactorial (2 * l - 1) = (Finset.range l).prod (fun k => 2 * k + 1) := by
  obtain ⟨N, rfl⟩ := (reachable_iff s).1 hs
  have h := get_canonical (K := ℝ) N l l (by omega) (by omega)
  rw [entry_top_closed] at h
  exact ⟨_, h, doubleFactorial_odd_eq_prod l⟩

theorem get_top_closed_form_witness :
    Reachable (⟨[⟨0, 0, ⟨[⟨0, 0, 1⟩]⟩⟩], 0⟩ : associated_legendre ℝ) ∧
      ∃ s1, (⟨[⟨0, 0, ⟨[⟨0, 0, 1⟩]⟩⟩], 0⟩ : associated_legendre ℝ).get ((3 : Nat) : Int)
          ((3 : Nat) : Int)
        = .ok (⟨[⟨0, ((3 : Nat) : Int),
            (-1) ^ 3 * (Nat.doubleFactorial (2 * 3 - 1) : ℝ)⟩]⟩, s1) ∧
        Nat.doubleFactorial (2 * 3 - 1) = (Finset.range 3).prod (fun k => 2 * k + 1) :=
  ⟨reachable_initial, get_top_closed_form _ reachable_initial 3⟩

end claims_poly

/-! ## Lemmas about the evaluator -/

section evaluator

theorem gsl_sf_gamma_of_pos {K : Type} [NatCast K] (n : Int) (h : 1 ≤ n) :
    (gsl_sf_gamma n : Except Fault K) = .ok (((n - 1).toNat.factorial : Nat) : K) := by
  simp [gsl_sf_gamma, h]

theorem gsl_sf_gamma_of_not_pos {K : Type} [NatCast K] (n : Int) (h : ¬ 1 ≤ n) :
    (gsl_sf_gamma n : Except Fault K) = .error .gamma_domain := by
  simp [gsl_sf_gamma, h]

theorem load_poly_cache_state {K : Type} [Field K] (s : spherical_harmonic K)
    (hs : cache_state s) (l : Nat) (m : Int) (hm1 : -(l : Int) ≤ m) (hm2 : m ≤ l) :
    ∃ s1, s.load_poly l m = .ok s1 ∧ cache_state s1 ∧ s1.lnow = l ∧ s1.mnow = m ∧
      (s1.alpoly = entry l m ∨
        (l = 0 ∧ m = 0 ∧ s1 = s ∧ s1.alpoly = associated_legendre_poly.empty)) := by
  obtain ⟨N, hN, hc⟩ := hs
  by_cases hkey : (l : Int) ≠ s.lnow ∨ m ≠ s.mnow
  · refine ⟨⟨canonical (max N l), entry l m, l, m⟩, ?_, ?_, rfl, rfl, Or.inl rfl⟩
    · unfold spherical_harmonic.load_poly
      rw [if_pos hkey, hN, get_canonical N l m hm1 hm2]
    · exact ⟨max N l, rfl, Or.inr ⟨l, rfl, hm1, hm2, rfl⟩⟩
  · have hl : (l : Int) = s.lnow := by
      by_contra hc2; exact hkey (Or.inl hc2)
    have hm : m = s.mnow := by
      by_contra hc2; exact hkey (Or.inr hc2)
    refine ⟨s, ?_, ⟨N, hN, hc⟩, hl.symm, hm.symm, ?_⟩
    · unfold spherical_harmonic.load_poly
      rw [if_neg hkey]
    · rcases hc with ⟨h1, h2, h3⟩ | ⟨l1, h1, _, _, h4⟩
      · exact Or.inr ⟨by omega, by omega, rfl, h3⟩
      · have : l1 = l := by omega
        subst this
        rw [hm]
        exact Or.inl h4

/-- The main branch of `evaluate`, for a valid `(l, m)` and a positive guard value. -/
theorem evaluate_main {K : Type} [LinearOrderedField K] (M : libm K)
    (s s1 : spherical_harmonic K) (l : Nat) (m : Int) (hm1 : -(l : Int) ≤ m) (hm2 : m ≤ l)
    (x0 x1 x2 : K) (hg : 0 < spherical_harmonic.evaluate_xl M l x0 x1 x2)
    (hload : s.load_poly l m = .ok s1) :
    s.evaluate M l m x0 x1 x2
      = .ok (gsl_complex_mul_real
          (gsl_complex_polar M 1 ((m : K) * spherical_harmonic.Ylm_phi M x0 x1 x2))
          (M.sqrt ((2 * ((l : Int) : K) + 1) / (4 * M.M_PI)
              * ((((l : Int) - m).toNat.factorial : Nat) : K)
              / ((((l : Int) + m).toNat.factorial : Nat) : K))
            * s1.alpoly.evaluate M.sqrt (spherical_harmonic.Ylm_cosTheta M x0 x1 x2)), s1) := by
  unfold spherical_harmonic.evaluate
  simp only [gt_iff_lt, hg, if_true]
  rw [gsl_sf_gamma_of_pos ((l : Int) - m + 1) (by omega),
    gsl_sf_gamma_of_pos ((l : Int) + m + 1) (by omega)]
  simp only [hload, add_sub_cancel_right]

theorem evaluate_guard {K : Type} [LinearOrderedField K] (M : libm K)
    (s : spherical_harmonic K) (l m : Int) (x0 x1 x2 : K)
    (hg : ¬ 0 < spherical_harmonic.evaluate_xl M l x0 x1 x2) :
    s.evaluate M l m x0 x1 x2 = .ok (gsl_complex_rect 0 0, s) := by
  unfold spherical_harmonic.evaluate
  simp only [gt_iff_lt, hg, if_false]

/-- A call of `evaluate` that returns from its main branch had a valid `(l, m)`: the
Gamma function is called at `l-m+1` and `l+m+1`. -/
theorem evaluate_ok_valid {K : Type} [LinearOrderedField K] (M : libm K)
    (s s1 : spherical_harmonic K) (l m : Int) (x0 x1 x2 : K) (v : gsl_complex K)
    (hg : 0 < spherical_harmonic.evaluate_xl M l x0 x1 x2)
    (h : s.evaluate M l m x0 x1 x2 = .ok (v, s1)) : -l ≤ m ∧ m ≤ l := by
  unfold spherical_harmonic.evaluate at h
  simp only [gt_iff_lt, hg, if_true] at h
  by_cases h1 : 1 ≤ l - m + 1
  · by_cases h2 : 1 ≤ l + m + 1
    · omega
    · rw [gsl_sf_gamma_of_pos _ h1, gsl_sf_gamma_of_not_pos _ h2] at h
      simp at h
  · rw [gsl_sf_gamma_of_not_pos _ h1] at h
    simp at h

theorem sh_reachable_cache_state {K : Type} [LinearOrderedField K] (M : libm K)
    (s : spherical_harmonic K) (hs : sh_reachable M s) : cache_state s := by
  induction hs with
  | construct maxOrder s h =>
    rw [sh_construct_eq] at h
    have := (Except.ok.inj h).symm
    subst this
    exact ⟨maxOrder.toNat, rfl, Or.inl ⟨rfl, rfl, rfl⟩⟩
  | evaluate s l m x0 x1 x2 v s1 _ h ih =>
    by_cases hg : 0 < spherical_harmonic.evaluate_xl M l x0 x1 x2
    · have hv := evaluate_ok_valid M s s1 l m x0 x1 x2 v hg h
      obtain ⟨ln, rfl⟩ : ∃ ln : Nat, l = ln := ⟨l.toNat, by omega⟩
      obtain ⟨s2, hload, hc2, _⟩ := load_poly_cache_state s ih ln m hv.1 hv.2
      rw [evaluate_main M s s2 ln m hv.1 hv.2 x0 x1 x2 hg hload] at h
      have := congrArg Prod.snd (Except.ok.inj h)
      simp only at this
      rw [← this]
      exact hc2
    · rw [evaluate_guard M s l m x0 x1 x2 hg] at h
      have := congrArg Prod.snd (Except.ok.inj h)
      simp only at this
      rw [← this]
      exact ih

theorem entry_neg_eq_scale {K : Type} [Field K] (l m : Nat) (hm1 : 1 ≤ m) (hml : m ≤ l) :
    (entry l (-(m : Int)) : associated_legendre_poly K)
      = (entry l (m : Int)).scale (((l - m).factorial : K) / ((l + m).factorial : K)) := by
  rw [entry_minus l (-(m : Int)) (by omega), minus_rule, neg_neg,
    show ((l : Int) + -(m : Int)).toNat = l - m by omega,
    show ((l : Int) - -(m : Int)).toNat = l + m by omega]
  rfl

theorem evaluate_xl_pos (M : libm ℝ) (hM : is_real_libm M) (l : Int) (x0 x1 x2 : ℝ)
    (h : ¬ (x0 = 0 ∧ x1 = 0 ∧ x2 = 0)) : 0 < spherical_harmonic.evaluate_xl M l x0 x1 x2 := by
  obtain ⟨_, hpow, _⟩ := hM
  simp only [spherical_harmonic.evaluate_xl, hpow]
  apply Real.rpow_pos_of_pos
  by_contra hc
  have h0 : x0 * x0 + x1 * x1 + x2 * x2 = 0 :=
    le_antisymm (not_lt.1 hc)
      (by nlinarith [mul_self_nonneg x0, mul_self_nonneg x1, mul_self_nonneg x2])
  have hx0 : x0 = 0 := by nlinarith [mul_self_nonneg x0, mul_self_nonneg x1, mul_self_nonneg x2]
  have hx1 : x1 = 0 := by nlinarith [mul_self_nonneg x0, mul_self_nonneg x1, mul_self_nonneg x2]
  have hx2 : x2 = 0 := by nlinarith [mul_self_nonneg x0, mul_self_nonneg x1, mul_self_nonneg x2]
  exact h ⟨hx0, hx1, hx2⟩

end evaluator

/-! ## The claims about the evaluator's azimuth, cache and symmetries -/

section claims_evaluator2

theorem Ylm_phi_small {K : Type} [LinearOrderedField K] (M : libm K) (x0 x1 x2 : K)
    (h : |x0| < 1 / 10 ^ 8) :
    spherical_harmonic.Ylm_phi M x0 x1 x2
      = if x1 > 0 then M.M_PI / 2 else if x1 < 0 then -(M.M_PI / 2) else 0 := by
  unfold spherical_harmonic.Ylm_phi
  rw [if_pos h]
  split
  · simp; ring
  · split
    · simp; ring
    · simp

theorem Ylm_phi_large {K : Type} [LinearOrderedField K] (M : libm K) (x0 x1 x2 : K)
    (h : ¬ |x0| < 1 / 10 ^ 8) :
    spherical_harmonic.Ylm_phi M x0 x1 x2 = M.atan2 x1 x0 := by
  unfold spherical_harmonic.Ylm_phi
  rw [if_neg h]

theorem entry_one_one_evaluate (sqrt : ℝ → ℝ) (hs : sqrt 1 = 1) :
    (entry 1 1 : associated_legendre_poly ℝ).evaluate sqrt 0 = -1 := by
  have h := entry_top_closed (K := ℝ) 1
  simp only [Nat.cast_one] at h
  rw [h]
  simp [associated_legendre_poly.evaluate, poly_term.evaluate, hs]

/-- C11, amended: in exact real arithmetic, with `M_PI` the number pi and the functions
of `<math.h>` the real functions, for every point with `|x0| < 1e-8` the azimuth is
`sign(x1) * pi/2` (`0` when `x1 = 0`) whatever `atan2` is; for every other point it is
`atan2(x1, x0)`; and on every evaluator `evaluate(1, 1, 0, 2, 0)` returns real part `0`
and imaginary part `-sqrt(3/(8 pi))`. -/
theorem azimuth_rule (M : libm ℝ) (hM : is_real_libm M) (s : spherical_harmonic ℝ)
    (hs : sh_reachable M s) :
    (∀ x0 x1 x2 : ℝ, |x0| < 1 / 10 ^ 8 →
      spherical_harmonic.Ylm_phi M x0 x1 x2
          = (if x1 > 0 then Real.pi / 2 else if x1 < 0 then -(Real.pi / 2) else 0) ∧
        ∀ f : ℝ → ℝ → ℝ, spherical_harmonic.Ylm_phi { M with atan2 := f } x0 x1 x2
          = spherical_harmonic.Ylm_phi M x0 x1 x2) ∧
      (∀ x0 x1 x2 : ℝ, ¬ |x0| < 1 / 10 ^ 8 →
        spherical_harmonic.Ylm_phi M x0 x1 x2 = M.atan2 x1 x0 ∧
          M.atan2 x1 x0 = Complex.arg ⟨x0, x1⟩) ∧
      ∃ s1, s.evaluate M 1 1 0 2 0 = .ok (⟨0, -Real.sqrt (3 / (8 * Real.pi))⟩, s1) := by
  have hM2 := hM
  obtain ⟨hsqrt, hpow, hatan, hcos, hsin, hpi⟩ := hM2
  refine ⟨?_, ?_, ?_⟩
  · intro x0 x1 x2 h
    refine ⟨by rw [Ylm_phi_small M x0 x1 x2 h, hpi], ?_⟩
    intro f
    rw [Ylm_phi_small M x0 x1 x2 h, Ylm_phi_small _ x0 x1 x2 h]
  · intro x0 x1 x2 h
    exact ⟨Ylm_phi_large M x0 x1 x2 h, by rw [hatan]⟩
  · obtain ⟨s1, hload, _, _, _, hp⟩ :=
      load_poly_cache_state s (sh_reachable_cache_state M s hs) 1 1 (by norm_num) (by norm_num)
    have hp1 : s1.alpoly = entry 1 1 := by
      rcases hp with hp | ⟨h0, _⟩
      · simpa using hp
      · omega
    have hg := evaluate_xl_pos M hM ((1 : Nat) : Int) 0 2 0 (by norm_num)
    have hphi : spherical_harmonic.Ylm_phi M 0 2 0 = Real.pi / 2 := by
      rw [Ylm_phi_small M 0 2 0 (by norm_num), hpi]
      norm_num
    refine ⟨s1, ?_⟩
    have hmain := evaluate_main M s s1 1 1 (by norm_num) (by norm_num) 0 2 0 hg hload
    simp only [Nat.cast_one, Int.cast_one] at hmain
    rw [hmain, hp1, hphi]
    have hct : spherical_harmonic.Ylm_cosTheta M 0 2 0 = 0 := by
      simp [spherical_harmonic.Ylm_cosTheta]
    rw [hct, entry_one_one_evaluate M.sqrt (by rw [hsqrt]; exact Real.sqrt_one)]
    have hpf : (2 + 1) / (4 * Real.pi) * ((((1 : Int) - 1).toNat.factorial : Nat) : ℝ)
        / ((((1 : Int) + 1).toNat.factorial : Nat) : ℝ) = 3 / (8 * Real.pi) := by
      rw [show ((1 : Int) - 1).toNat = 0 from rfl, show ((1 : Int) + 1).toNat = 2 from rfl]
      have hpi0 : Real.pi ≠ 0 := Real.pi_ne_zero
      simp only [Nat.factorial, Nat.cast_one, Nat.cast_ofNat, Nat.succ_eq_add_one]
      field_simp
      ring
    simp only [gsl_complex_mul_real, gsl_complex_polar, hcos, hsin, hsqrt, hpi, one_mul,
      Real.cos_pi_div_two, Real.sin_pi_div_two, mul_zero, mul_one, mul_neg, hpf]

end claims_evaluator2

section claims_evaluator3

theorem pfac_symm (A a b : ℝ) (ha : 0 < a) (hb : 0 < b) :
    Real.sqrt (A * b / a) * (a / b) = Real.sqrt (A * a / b) := by
  have hab : 0 ≤ a / b := le_of_lt (div_pos ha hb)
  have h : A * a / b = (A * b / a) * (a / b) ^ 2 := by
    field_simp
    ring
  rw [h, Real.sqrt_mul' _ (sq_nonneg _), Real.sqrt_sq hab]

theorem Ylm_cosTheta_scale (M : libm ℝ) (hM : is_real_libm M) (c x0 x1 x2 : ℝ) (hc : 0 < c) :
    spherical_harmonic.Ylm_cosTheta M (c * x0) (c * x1) (c * x2)
      = spherical_harmonic.Ylm_cosTheta M x0 x1 x2 := by
  obtain ⟨hsqrt, _⟩ := hM
  simp only [spherical_harmonic.Ylm_cosTheta, hsqrt]
  rw [show c * x0 * (c * x0) + c * x1 * (c * x1) + c * x2 * (c * x2)
      = c ^ 2 * (x0 * x0 + x1 * x1 + x2 * x2) by ring,
    Real.sqrt_mul (sq_nonneg c), Real.sqrt_sq hc.le, mul_div_mul_left _ _ (ne_of_gt hc)]

theorem Ylm_phi_scale (M : libm ℝ) (hM : is_real_libm M) (c x0 x1 x2 : ℝ) (hc : 0 < c)
    (hthr : |c * x0| < 1 / 10 ^ 8 ↔ |x0| < 1 / 10 ^ 8) :
    spherical_harmonic.Ylm_phi M (c * x0) (c * x1) (c * x2)
      = spherical_harmonic.Ylm_phi M x0 x1 x2 := by
  obtain ⟨_, _, hatan, _⟩ := hM
  by_cases h : |x0| < 1 / 10 ^ 8
  · rw [Ylm_phi_small M _ _ _ (hthr.2 h), Ylm_phi_small M _ _ _ h]
    have h1 : c * x1 > 0 ↔ x1 > 0 := by
      constructor
      · intro hp; exact (pos_iff_pos_of_mul_pos hp).1 hc
      · intro hp; exact mul_pos hc hp
    have h2 : c * x1 < 0 ↔ x1 < 0 := by
      constructor
      · intro hn
        by_contra hx
        have := mul_nonneg hc.le (not_lt.1 hx)
        linarith
      · intro hn; exact mul_neg_of_pos_of_neg hc hn
    simp only [h1, h2]
  · rw [Ylm_phi_large M _ _ _ (fun hh => h (hthr.1 hh)), Ylm_phi_large M _ _ _ h, hatan]
    have : (⟨c * x0, c * x1⟩ : ℂ) = (c : ℂ) * ⟨x0, x1⟩ := by
      apply Complex.ext <;> simp
    simp only [this, Complex.arg_real_mul _ hc]

/-- C12: on a freshly constructed evaluator the cached key is `(0, 0)` but the cached
polynomial is the empty one, not the table's polynomial `1` for `(0, 0)`; and `evaluate`
calls with `(0, 0)` return and leave the evaluator in this state. -/
theorem cache_fresh_not_loaded (M : libm ℝ) (maxOrder : Int) :
    ∃ s0 : spherical_harmonic ℝ, spherical_harmonic.construct maxOrder = .ok s0 ∧
      sh_reachable M s0 ∧ s0.lnow = 0 ∧ s0.mnow = 0 ∧
      (∃ p t, s0.aleg.get s0.lnow s0.mnow = .ok (p, t) ∧ p.poly = [⟨0, 0, 1⟩] ∧
        s0.alpoly.poly = [] ∧ s0.alpoly ≠ p) ∧
      ∀ x0 x1 x2 : ℝ, ∃ v, s0.evaluate M 0 0 x0 x1 x2 = .ok (v, s0) := by
  refine ⟨_, sh_construct_eq maxOrder,
    sh_reachable.construct maxOrder _ (sh_construct_eq maxOrder), rfl, rfl, ?_, ?_⟩
  · have h := get_canonical (K := ℝ) maxOrder.toNat 0 0 (by simp) (by simp)
    have he : (entry 0 0 : associated_legendre_poly ℝ) = ⟨[⟨0, 0, 1⟩]⟩ := by
      simp [entry, entry_nonneg]
    rw [he] at h
    refine ⟨_, _, h, rfl, rfl, ?_⟩
    intro hc
    have := congrArg associated_legendre_poly.poly hc
    simp [associated_legendre_poly.empty] at this
  · intro x0 x1 x2
    by_cases hg : 0 < spherical_harmonic.evaluate_xl M 0 x0 x1 x2
    · exact ⟨_, evaluate_main M _ _ 0 0 (by simp) (by simp) x0 x1 x2 hg
        (load_poly_same (⟨canonical maxOrder.toNat, associated_legendre_poly.empty, 0, 0⟩ :
          spherical_harmonic ℝ))⟩
    · exact ⟨_, evaluate_guard M _ 0 0 x0 x1 x2 hg⟩

/-- C19: for every `l ≥ 1`, every `1 ≤ m ≤ l` and every point, on any evaluators, the
value of `evaluate(l, -m, x0, x1, x2)` is the complex conjugate of the value of
`evaluate(l, m, x0, x1, x2)`: equal real parts, opposite imaginary parts. -/
theorem evaluate_conjugate (M : libm ℝ) (hM : is_real_libm M) (s1 s2 : spherical_harmonic ℝ)
    (h1 : sh_reachable M s1) (h2 : sh_reachable M s2) (l m : Nat) (hm1 : 1 ≤ m) (hml : m ≤ l)
    (x0 x1 x2 : ℝ) :
    ∃ v w t1 t2, s1.evaluate M l (-(m : Int)) x0 x1 x2 = .ok (v, t1) ∧
      s2.evaluate M l m x0 x1 x2 = .ok (w, t2) ∧ v.re = w.re ∧ v.im = -w.im := by
  by_cases hg : 0 < spherical_harmonic.evaluate_xl M l x0 x1 x2
  · obtain ⟨t1, hl1, _, _, _, hp1⟩ := load_poly_cache_state s1
      (sh_reachable_cache_state M s1 h1) l (-(m : Int)) (by omega) (by omega)
    obtain ⟨t2, hl2, _, _, _, hp2⟩ := load_poly_cache_state s2
      (sh_reachable_cache_state M s2 h2) l m (by omega) (by omega)
    have hq1 : t1.alpoly = entry l (-(m : Int)) := by
      rcases hp1 with hp | ⟨h0, _⟩
      · exact hp
      · omega
    have hq2 : t2.alpoly = entry l m := by
      rcases hp2 with hp | ⟨h0, _⟩
      · exact hp
      · omega
    refine ⟨_, _, _, _, evaluate_main M s1 t1 l _ (by omega) (by omega) x0 x1 x2 hg hl1,
      evaluate_main M s2 t2 l _ (by omega) (by omega) x0 x1 x2 hg hl2, ?_, ?_⟩
    all_goals
      obtain ⟨hsqrt, _, _, hcos, hsin, _⟩ := hM
      have ha : (0 : ℝ) < ((l - m).factorial : ℝ) := by positivity
      have hb : (0 : ℝ) < ((l + m).factorial : ℝ) := by positivity
      have key := pfac_symm ((2 * (((l : Int)) : ℝ) + 1) / (4 * M.M_PI))
        ((l - m).factorial : ℝ) ((l + m).factorial : ℝ) ha hb
      simp only [gsl_complex_mul_real, gsl_complex_polar, hq1, hq2,
        entry_neg_eq_scale l m hm1 hml, evaluate_scale, hsqrt, hcos, hsin, Int.cast_neg,
        neg_mul, Real.cos_neg, Real.sin_neg, sub_neg_eq_add,
        show ((l : Int) + (m : Int)).toNat = l + m by omega,
        show ((l : Int) + -(m : Int)).toNat = l - m by omega,
        show ((l : Int) - (m : Int)).toNat = l - m by omega]
      rw [← key]
      ring
  · exact ⟨_, _, _, _, evaluate_guard M s1 l _ x0 x1 x2 hg, evaluate_guard M s2 l _ x0 x1 x2 hg,
      rfl, by simp [gsl_complex_rect]⟩

/-- The value of `evaluate(1, 1, x0, x1, 0)` at a point off the origin:
`-sqrt(3/(8 pi)) (cos(phi) + i sin(phi))`. -/
theorem evaluate_one_one (M : libm ℝ) (hM : is_real_libm M) (s : spherical_harmonic ℝ)
    (hcs : cache_state s) (x0 x1 x2 : ℝ) (hx2 : x2 = 0) (hne : ¬ (x0 = 0 ∧ x1 = 0)) :
    ∃ v t, s.evaluate M 1 1 x0 x1 x2 = .ok (v, t) ∧
      v.re = -Real.sqrt (3 / (8 * Real.pi))
        * Real.cos (spherical_harmonic.Ylm_phi M x0 x1 x2) ∧
      v.im = -Real.sqrt (3 / (8 * Real.pi))
        * Real.sin (spherical_harmonic.Ylm_phi M x0 x1 x2) := by
  obtain ⟨t, hload, _, _, _, hp⟩ := load_poly_cache_state s hcs 1 1 (by norm_num) (by norm_num)
  have hpt : t.alpoly = entry 1 1 := by
    rcases hp with hp | ⟨h0, _⟩
    · simpa using hp
    · omega
  have hg := evaluate_xl_pos M hM ((1 : Nat) : Int) x0 x1 x2 (fun h => hne ⟨h.1, h.2.1⟩)
  have hmain := evaluate_main M s t 1 1 (by norm_num) (by norm_num) x0 x1 x2 hg hload
  simp only [Nat.cast_one, Int.cast_one] at hmain
  obtain ⟨hsqrt, _, _, hcos, hsin, hpi⟩ := hM
  have hct : spherical_harmonic.Ylm_cosTheta M x0 x1 x2 = 0 := by
    simp [spherical_harmonic.Ylm_cosTheta, hx2]
  have hpf : (2 + 1) / (4 * Real.pi) * ((((1 : Int) - 1).toNat.factorial : Nat) : ℝ)
      / ((((1 : Int) + 1).toNat.factorial : Nat) : ℝ) = 3 / (8 * Real.pi) := by
    rw [show ((1 : Int) - 1).toNat = 0 from rfl, show ((1 : Int) + 1).toNat = 2 from rfl]
    have hpi0 : Real.pi ≠ 0 := Real.pi_ne_zero
    simp only [Nat.factorial, Nat.cast_one, Nat.cast_ofNat, Nat.succ_eq_add_one]
    field_simp
    ring
  refine ⟨_, _, hmain, ?_, ?_⟩
  all_goals
    rw [hpt, hct, entry_one_one_evaluate M.sqrt (by rw [hsqrt]; exact Real.sqrt_one)]
    simp only [gsl_complex_mul_real, gsl_complex_polar, hcos, hsin, hsqrt, hpi, one_mul,
      mul_one, mul_neg, hpf, neg_mul]

/-- C20, as stated, fails for the point `(2e-8, 1, 0)` and `c = 1/4`: scaling moves `x0`
below the threshold `1e-8` of `Ylm_phi`, the azimuth changes from `atan2(1, 2e-8)` to
`pi/2`, and the real part of `evaluate(1, 1, ...)` changes from a negative number to `0`. -/
theorem evaluate_scaled_differs :
    ∃ M : libm ℝ, is_real_libm M ∧ ∃ s v w t1 t2,
      spherical_harmonic.construct 0 = .ok s ∧ (0 : ℝ) < 1 / 4 ∧
      s.evaluate M 1 1 (1 / 4 * (2 / 10 ^ 8)) (1 / 4 * 1) (1 / 4 * 0) = .ok (v, t1) ∧
      s.evaluate M 1 1 (2 / 10 ^ 8) 1 0 = .ok (w, t2) ∧ v.re = 0 ∧ w.re < 0 ∧ v ≠ w := by
  have hM : is_real_libm ⟨Real.sqrt, fun x y => x ^ y, fun y x => Complex.arg ⟨x, y⟩,
      Real.cos, Real.sin, Real.pi⟩ := ⟨rfl, rfl, rfl, rfl, rfl, rfl⟩
  have hcs : cache_state (⟨canonical (Int.toNat 0), associated_legendre_poly.empty, 0, 0⟩ :
      spherical_harmonic ℝ) := ⟨_, rfl, Or.inl ⟨rfl, rfl, rfl⟩⟩
  obtain ⟨v, t1, hv, hvre, _⟩ := evaluate_one_one _ hM _ hcs (1 / 4 * (2 / 10 ^ 8)) (1 / 4 * 1)
    (1 / 4 * 0) (by norm_num) (by norm_num)
  obtain ⟨w, t2, hw, hwre, _⟩ := evaluate_one_one _ hM _ hcs (2 / 10 ^ 8) 1 0 rfl
    (by norm_num)
  have hsmall : |(1 / 4 * (2 / 10 ^ 8) : ℝ)| < 1 / 10 ^ 8 := by
    rw [abs_of_pos (by norm_num)]; norm_num
  have hlarge : ¬ |(2 / 10 ^ 8 : ℝ)| < 1 / 10 ^ 8 := by
    rw [abs_of_pos (by norm_num)]; norm_num
  have hnz : (⟨2 / 10 ^ 8, 1⟩ : ℂ) ≠ 0 := by
    intro hc
    have := congrArg Complex.im hc
    simp at this
  have hcos : 0 < Real.cos (Complex.arg ⟨2 / 10 ^ 8, 1⟩) := by
    rw [Complex.cos_arg hnz]
    exact div_pos (by norm_num) (AbsoluteValue.pos _ hnz)
  have hc0 : 0 < Real.sqrt (3 / (8 * Real.pi)) := Real.sqrt_pos.2 (by positivity)
  rw [Ylm_phi_small _ _ _ _ hsmall] at hvre
  rw [Ylm_phi_large _ _ _ _ hlarge] at hwre
  simp only [gt_iff_lt] at hvre
  rw [if_pos (by norm_num), Real.cos_pi_div_two, mul_zero] at hvre
  have hwneg : w.re < 0 := by
    rw [hwre, neg_mul]
    exact neg_neg_of_pos (mul_pos hc0 hcos)
  refine ⟨_, hM, _, v, w, t1, t2, sh_construct_eq 0, by norm_num, hv, hw, hvre, hwneg, ?_⟩
  intro hvw
  rw [hvw] at hvre
  rw [hvre] at hwneg
  exact lt_irrefl 0 hwneg

/-- C20, amended: in exact real arithmetic, with `M_PI` the number pi and the functions
of `<math.h>` the real functions, for every valid `(l, m)`, every point other than the
origin and every `c > 0` such that `|c x0| < 1e-8` exactly when `|x0| < 1e-8`, on every
evaluator the call `evaluate(l, m, c x0, c x1, c x2)` returns what
`evaluate(l, m, x0, x1, x2)` returns. -/
theorem evaluate_scale_invariant (M : libm ℝ) (hM : is_real_libm M)
    (s : spherical_harmonic ℝ) (hs : sh_reachable M s) (l : Nat) (m : Int)
    (hm1 : -(l : Int) ≤ m) (hm2 : m ≤ l) (x0 x1 x2 : ℝ) (hne : ¬ (x0 = 0 ∧ x1 = 0 ∧ x2 = 0))
    (c : ℝ) (hc : 0 < c) (hthr : |c * x0| < 1 / 10 ^ 8 ↔ |x0| < 1 / 10 ^ 8) :
    s.evaluate M l m (c * x0) (c * x1) (c * x2) = s.evaluate M l m x0 x1 x2 ∧
      ∃ v t, s.evaluate M l m x0 x1 x2 = .ok (v, t) := by
  obtain ⟨t, hload, _⟩ := load_poly_cache_state s (sh_reachable_cache_state M s hs) l m hm1 hm2
  have hne2 : ¬ (c * x0 = 0 ∧ c * x1 = 0 ∧ c * x2 = 0) := by
    rintro ⟨h0, h1, h2⟩
    have hc0 : c ≠ 0 := ne_of_gt hc
    exact hne ⟨(mul_eq_zero.1 h0).resolve_left hc0, (mul_eq_zero.1 h1).resolve_left hc0,
      (mul_eq_zero.1 h2).resolve_left hc0⟩
  have hg1 := evaluate_xl_pos M hM l (c * x0) (c * x1) (c * x2) hne2
  have hg2 := evaluate_xl_pos M hM l x0 x1 x2 hne
  rw [evaluate_main M s t l m hm1 hm2 _ _ _ hg1 hload,
    evaluate_main M s t l m hm1 hm2 _ _ _ hg2 hload, Ylm_cosTheta_scale M hM c x0 x1 x2 hc,
    Ylm_phi_scale M hM c x0 x1 x2 hc hthr]
  exact ⟨rfl, _, _, rfl⟩

end claims_evaluator3

section cache_use

/-- Except for the never-loaded cache of a fresh evaluator under the key `(0, 0)`, the
polynomial that `evaluate(l, m, ...)` evaluates at `cos(theta)` is the one that the table
returns for `get(l, m)`, and the result is `e^{i m phi} * pfac * P(cos(theta))`. -/
theorem evaluate_uses_table (M : libm ℝ) (hM : is_real_libm M) (s : spherical_harmonic ℝ)
    (hs : sh_reachable M s) (l : Nat) (m : Int) (hm1 : -(l : Int) ≤ m) (hm2 : m ≤ l)
    (hfresh : l ≠ 0 ∨ m ≠ 0 ∨ s.alpoly ≠ associated_legendre_poly.empty)
    (x0 x1 x2 : ℝ) (hne : ¬ (x0 = 0 ∧ x1 = 0 ∧ x2 = 0)) :
    ∃ p a t, s.aleg.get l m = .ok (p, a) ∧ t.alpoly = p ∧
      s.evaluate M l m x0 x1 x2
        = .ok (gsl_complex_mul_real
            (gsl_complex_polar M 1 ((m : ℝ) * spherical_harmonic.Ylm_phi M x0 x1 x2))
            (M.sqrt ((2 * ((l : Int) : ℝ) + 1) / (4 * M.M_PI)
                * ((((l : Int) - m).toNat.factorial : Nat) : ℝ)
                / ((((l : Int) + m).toNat.factorial : Nat) : ℝ))
              * p.evaluate M.sqrt (spherical_harmonic.Ylm_cosTheta M x0 x1 x2)), t) := by
  have hcs := sh_reachable_cache_state M s hs
  obtain ⟨t, hload, _, _, _, hp⟩ := load_poly_cache_state s hcs l m hm1 hm2
  obtain ⟨N, hN, _⟩ := hcs
  have hpt : t.alpoly = entry l m := by
    rcases hp with hp | ⟨h0, h1, h2, h3⟩
    · exact hp
    · rw [h2] at h3
      rcases hfresh with h | h | h
      · exact absurd h0 h
      · exact absurd h1 h
      · exact absurd h3 h
  refine ⟨entry l m, canonical (max N l), t, by rw [hN]; exact get_canonical N l m hm1 hm2,
    hpt, ?_⟩
  rw [evaluate_main M s t l m hm1 hm2 x0 x1 x2 (evaluate_xl_pos M hM l x0 x1 x2 hne) hload, hpt]

end cache_use

section witnesses_evaluator

/-- The evaluator right after `spherical_harmonic(0)`. -/
theorem sh_reachable_initial {K : Type} [LinearOrderedField K] (M : libm K) :
    sh_reachable M (⟨⟨[⟨0, 0, ⟨[⟨0, 0, 1⟩]⟩⟩], 0⟩, ⟨[]⟩, 0, 0⟩ : spherical_harmonic K) := by
  apply sh_reachable.construct 0
  rw [sh_construct_eq, Int.toNat_zero, canonical_zero]
  rfl

theorem azimuth_rule_witness :
    is_real_libm ⟨Real.sqrt, fun x y => x ^ y, fun y x => Complex.arg ⟨x, y⟩,
        Real.cos, Real.sin, Real.pi⟩ ∧
      sh_reachable (⟨Real.sqrt, fun x y => x ^ y, fun y x => Complex.arg ⟨x, y⟩,
          Real.cos, Real.sin, Real.pi⟩ : libm ℝ)
        (⟨⟨[⟨0, 0, ⟨[⟨0, 0, 1⟩]⟩⟩], 0⟩, ⟨[]⟩, 0, 0⟩ : spherical_harmonic ℝ) ∧
      ∃ s1, (⟨⟨[⟨0, 0, ⟨[⟨0, 0, 1⟩]⟩⟩], 0⟩, ⟨[]⟩, 0, 0⟩ : spherical_harmonic ℝ).evaluate
          ⟨Real.sqrt, fun x y => x ^ y, fun y x => Complex.arg ⟨x, y⟩,
            Real.cos, Real.sin, Real.pi⟩ 1 1 0 2 0
        = .ok (⟨0, -Real.sqrt (3 / (8 * Real.pi))⟩, s1) :=
  ⟨⟨rfl, rfl, rfl, rfl, rfl, rfl⟩, sh_reachable_initial _,
    (azimuth_rule _ ⟨rfl, rfl, rfl, rfl, rfl, rfl⟩ _ (sh_reachable_initial _)).2.2⟩

theorem evaluate_conjugate_witness :
    is_real_libm ⟨Real.sqrt, fun x y => x ^ y, fun y x => Complex.arg ⟨x, y⟩,
        Real.cos, Real.sin, Real.pi⟩ ∧
      sh_reachable (⟨Real.sqrt, fun x y => x ^ y, fun y x => Complex.arg ⟨x, y⟩,
          Real.cos, Real.sin, Real.pi⟩ : libm ℝ)
        (⟨⟨[⟨0, 0, ⟨[⟨0, 0, 1⟩]⟩⟩], 0⟩, ⟨[]⟩, 0, 0⟩ : spherical_harmonic ℝ) ∧
      1 ≤ 1 ∧ 1 ≤ 2 ∧
      ∃ v w t1 t2,
        (⟨⟨[⟨0, 0, ⟨[⟨0, 0, 1⟩]⟩⟩], 0⟩, ⟨[]⟩, 0, 0⟩ : spherical_harmonic ℝ).evaluate
            ⟨Real.sqrt, fun x y => x ^ y, fun y x => Complex.arg ⟨x, y⟩,
              Real.cos, Real.sin, Real.pi⟩ ((2 : Nat) : Int) (-((1 : Nat) : Int)) 1 2 3
          = .ok (v, t1) ∧
        (⟨⟨[⟨0, 0, ⟨[⟨0, 0, 1⟩]⟩⟩], 0⟩, ⟨[]⟩, 0, 0⟩ : spherical_harmonic ℝ).evaluate
            ⟨Real.sqrt, fun x y => x ^ y, fun y x => Complex.arg ⟨x, y⟩,
              Real.cos, Real.sin, Real.pi⟩ ((2 : Nat) : Int) ((1 : Nat) : Int) 1 2 3
          = .ok (w, t2) ∧
        v.re = w.re ∧ v.im = -w.im :=
  ⟨⟨rfl, rfl, rfl, rfl, rfl, rfl⟩, sh_reachable_initial _, by norm_num, by norm_num,
    evaluate_conjugate _ ⟨rfl, rfl, rfl, rfl, rfl, rfl⟩ _ _ (sh_reachable_initial _)
      (sh_reachable_initial _) 2 1 (by norm_num) (by norm_num) 1 2 3⟩

theorem evaluate_scale_invariant_witness :
    is_real_libm ⟨Real.sqrt, fun x y => x ^ y, fun y x => Complex.arg ⟨x, y⟩,
        Real.cos, Real.sin, Real.pi⟩ ∧
      sh_reachable (⟨Real.sqrt, fun x y => x ^ y, fun y x => Complex.arg ⟨x, y⟩,
          Real.cos, Real.sin, Real.pi⟩ : libm ℝ)
        (⟨⟨[⟨0, 0, ⟨[⟨0, 0, 1⟩]⟩⟩], 0⟩, ⟨[]⟩, 0, 0⟩ : spherical_harmonic ℝ) ∧
      -((2 : Nat) : Int) ≤ 1 ∧ (1 : Int) ≤ (2 : Nat) ∧
      ¬ ((1 : ℝ) = 0 ∧ (2 : ℝ) = 0 ∧ (3 : ℝ) = 0) ∧ (0 : ℝ) < 2 ∧
      (|(2 : ℝ) * 1| < 1 / 10 ^ 8 ↔ |(1 : ℝ)| < 1 / 10 ^ 8) ∧
      ((⟨⟨[⟨0, 0, ⟨[⟨0, 0, 1⟩]⟩⟩], 0⟩, ⟨[]⟩, 0, 0⟩ : spherical_harmonic ℝ).evaluate
            ⟨Real.sqrt, fun x y => x ^ y, fun y x => Complex.arg ⟨x, y⟩,
              Real.cos, Real.sin, Real.pi⟩ ((2 : Nat) : Int) 1 (2 * 1) (2 * 2) (2 * 3)
          = (⟨⟨[⟨0, 0, ⟨[⟨0, 0, 1⟩]⟩⟩], 0⟩, ⟨[]⟩, 0, 0⟩ : spherical_harmonic ℝ).evaluate
            ⟨Real.sqrt, fun x y => x ^ y, fun y x => Complex.arg ⟨x, y⟩,
              Real.cos, Real.sin, Real.pi⟩ ((2 : Nat) : Int) 1 1 2 3 ∧
        ∃ v t, (⟨⟨[⟨0, 0, ⟨[⟨0, 0, 1⟩]⟩⟩], 0⟩, ⟨[]⟩, 0, 0⟩ : spherical_harmonic ℝ).evaluate
            ⟨Real.sqrt, fun x y => x ^ y, fun y x => Complex.arg ⟨x, y⟩,
              Real.cos, Real.sin, Real.pi⟩ ((2 : Nat) : Int) 1 1 2 3 = .ok (v, t)) :=
  ⟨⟨rfl, rfl, rfl, rfl, rfl, rfl⟩, sh_reachable_initial _, by norm_num, by norm_num,
    by norm_num, by norm_num, by norm_num [abs_of_pos],
    evaluate_scale_invariant _ ⟨rfl, rfl, rfl, rfl, rfl, rfl⟩ _ (sh_reachable_initial _) 2 1
      (by norm_num) (by norm_num) 1 2 3 (by norm_num) 2 (by norm_num)
      (by norm_num [abs_of_pos])⟩

end witnesses_evaluator

/-! ## Rounding is to nearest

The operations of `binary64` return a nearest `double`: a number `M * 2^F` with
`|M| < 2^53` such that no other number of this form is nearer to the exact result
(`round_representable`, `round_nearest`, and `add_nearest`, `sub_nearest`, `mul_nearest`,
`div_nearest`, `sqrt_nearest`, `pow_nearest`, `intCast_nearest` for the operations). -/

namespace binary64

theorem bit_length_zero (fuel : Nat) : bit_length fuel 0 = 0 := by
  cases fuel <;> simp [bit_length]

theorem bit_length_spec (fuel : Nat) : ∀ n : Nat, n ≤ fuel → 0 < n →
    2 ^ (bit_length fuel n - 1) ≤ n ∧ n < 2 ^ bit_length fuel n ∧ 1 ≤ bit_length fuel n := by
  induction fuel with
  | zero => intro n h hn; omega
  | succ fuel ih =>
    intro n h hn
    have hne : n ≠ 0 := by omega
    simp only [bit_length, hne, if_false, Nat.add_sub_cancel]
    by_cases h1 : n / 2 = 0
    · rw [h1, bit_length_zero]
      have : n = 1 := by omega
      subst this
      simp
    · obtain ⟨h2, h3, h4⟩ := ih (n / 2) (by omega) (by omega)
      refine ⟨?_, ?_, by omega⟩
      · have : 2 ^ bit_length fuel (n / 2) = 2 ^ (bit_length fuel (n / 2) - 1) * 2 := by
          rw [← pow_succ]; congr 1; omega
        rw [this]
        omega
      · rw [pow_succ]
        omega

theorem scale_spec (n d : Nat) (k : Int) (hd : 0 < d) :
    0 < scale_den d k ∧
      ((scale_num n k : Nat) : ℚ) / ((scale_den d k : Nat) : ℚ) = (n : ℚ) / d / 2 ^ k := by
  have hd' : (d : ℚ) ≠ 0 := by exact_mod_cast hd.ne'
  by_cases hk : 0 ≤ k
  · obtain ⟨j, rfl⟩ := Int.eq_ofNat_of_zero_le hk
    simp only [scale_den, scale_num, hk, if_true, Int.toNat_ofNat, zpow_natCast]
    refine ⟨by positivity, ?_⟩
    push_cast
    field_simp
  · obtain ⟨j, hj⟩ := Int.eq_ofNat_of_zero_le (show 0 ≤ -k by omega)
    have hk2 : k = -(j : Int) := by omega
    subst hk2
    simp only [scale_den, scale_num, hk, if_false, neg_neg, Int.toNat_ofNat, zpow_neg,
      zpow_natCast]
    refine ⟨hd, ?_⟩
    push_cast
    field_simp

theorem le_div_of_cast (N D t : Nat) (hD : 0 < D) (h : (t : ℚ) ≤ (N : ℚ) / D) : t ≤ N / D := by
  rw [Nat.le_div_iff_mul_le hD]
  have hD' : (0 : ℚ) < D := by exact_mod_cast hD
  rw [le_div_iff₀ hD'] at h
  exact_mod_cast h

theorem div_lt_of_cast (N D t : Nat) (hD : 0 < D) (h : (N : ℚ) / D < t) : N / D < t := by
  rw [Nat.div_lt_iff_lt_mul hD]
  have hD' : (0 : ℚ) < D := by exact_mod_cast hD
  rw [div_lt_iff₀ hD'] at h
  exact_mod_cast h

theorem cast_div_le (N D : Nat) (hD : 0 < D) : ((N / D : Nat) : ℚ) ≤ (N : ℚ) / D := by
  have hD' : (0 : ℚ) < D := by exact_mod_cast hD
  rw [le_div_iff₀ hD']
  exact_mod_cast Nat.div_mul_le_self N D

theorem round_step (N D : Nat) (hD : 0 < D) :
    N / D ≤ (if 2 * (N % D) > D ∨ (2 * (N % D) = D ∧ N / D % 2 = 1) then N / D + 1 else N / D) ∧
    (if 2 * (N % D) > D ∨ (2 * (N % D) = D ∧ N / D % 2 = 1) then N / D + 1 else N / D)
      ≤ N / D + 1 ∧
    |(((if 2 * (N % D) > D ∨ (2 * (N % D) = D ∧ N / D % 2 = 1) then N / D + 1 else N / D :
        Nat) : ℚ)) - (N : ℚ) / D| ≤ 1 / 2 := by
  have hD' : (0 : ℚ) < D := by exact_mod_cast hD
  have hdm : (N : ℚ) = D * ((N / D : Nat) : ℚ) + ((N % D : Nat) : ℚ) := by
    exact_mod_cast (Nat.div_add_mod N D).symm
  have hr : ((N % D : Nat) : ℚ) < D := by exact_mod_cast Nat.mod_lt N hD
  have hr0 : (0 : ℚ) ≤ ((N % D : Nat) : ℚ) := by positivity
  have hq : (N : ℚ) / D = ((N / D : Nat) : ℚ) + ((N % D : Nat) : ℚ) / D := by
    rw [hdm]
    field_simp
    ring
  by_cases hup : 2 * (N % D) > D ∨ (2 * (N % D) = D ∧ N / D % 2 = 1)
  · rw [if_pos hup]
    refine ⟨by omega, le_refl _, ?_⟩
    have h2 : (D : ℚ) ≤ 2 * ((N % D : Nat) : ℚ) := by
      rcases hup with h | ⟨h, _⟩
      · exact_mod_cast le_of_lt h
      · exact_mod_cast le_of_eq h.symm
    have h3 : (1 : ℚ) / 2 ≤ ((N % D : Nat) : ℚ) / D := by
      rw [le_div_iff₀ hD']; linarith
    have h4 : ((N % D : Nat) : ℚ) / D < 1 := by
      rw [div_lt_one hD']; exact hr
    rw [hq, abs_le]
    push_cast
    constructor <;> linarith
  · rw [if_neg hup]
    refine ⟨le_refl _, by omega, ?_⟩
    have h2 : 2 * (N % D) ≤ D := by
      by_contra hc
      exact hup (Or.inl (by omega))
    have h2' : 2 * ((N % D : Nat) : ℚ) ≤ D := by exact_mod_cast h2
    have h3 : ((N % D : Nat) : ℚ) / D ≤ 1 / 2 := by
      rw [div_le_iff₀ hD']; linarith
    have h4 : 0 ≤ ((N % D : Nat) : ℚ) / D := by positivity
    rw [hq, abs_le]
    constructor <;> linarith

/-- The integer chosen by the rounding step is at least as near to `N / D` as every
rational `z` outside the open interval between the truncated quotient and its successor,
in particular as every integer. -/
theorem round_step_nearest (N D : Nat) (hD : 0 < D) (z : ℚ)
    (hz : z ≤ ((N / D : Nat) : ℚ) ∨ ((N / D : Nat) : ℚ) + 1 ≤ z) :
    |(((if 2 * (N % D) > D ∨ (2 * (N % D) = D ∧ N / D % 2 = 1) then N / D + 1 else N / D :
        Nat) : ℚ)) - (N : ℚ) / D| ≤ |z - (N : ℚ) / D| := by
  obtain ⟨s1, s2, s3⟩ := round_step N D hD
  have hD' : (0 : ℚ) < D := by exact_mod_cast hD
  have hfl := cast_div_le N D hD
  have hfl2 : (N : ℚ) / D < ((N / D : Nat) : ℚ) + 1 := by
    rw [div_lt_iff₀ hD']
    have := Nat.lt_succ_iff.2 (le_refl (N / D))
    have h2 : N < (N / D + 1) * D := by
      rw [← Nat.div_lt_iff_lt_mul hD]; omega
    exact_mod_cast h2
  generalize (if 2 * (N % D) > D ∨ (2 * (N % D) = D ∧ N / D % 2 = 1) then N / D + 1
    else N / D : Nat) = q1 at s1 s2 s3 ⊢
  have hq1 : (q1 : ℚ) = ((N / D : Nat) : ℚ) ∨ (q1 : ℚ) = ((N / D : Nat) : ℚ) + 1 := by
    rcases Nat.lt_or_ge (N / D) q1 with h | h
    · right
      have : q1 = N / D + 1 := by omega
      rw [this]; push_cast; ring
    · left
      have : q1 = N / D := by omega
      rw [this]
  rw [abs_le] at s3
  rcases hz with hz | hz
  · rw [abs_of_nonpos (by linarith : z - (N : ℚ) / D ≤ 0), abs_le]
    rcases hq1 with h | h <;> constructor <;> linarith
  · rw [abs_of_nonneg (by linarith : 0 ≤ z - (N : ℚ) / D), abs_le]
    rcases hq1 with h | h <;> constructor <;> linarith

/-- The quotient `n / d` lies strictly between `2^(b-1)` and `2^(b+1)`, where `b` is the
difference of the numbers of binary digits of `n` and `d`. -/
theorem quotient_bounds (n d : Nat) (hn : 0 < n) (hd : 0 < d) :
    (2 : ℚ) ^ ((bit_length n n : Int) - (bit_length d d : Int) - 1) < (n : ℚ) / d ∧
      (n : ℚ) / d < (2 : ℚ) ^ ((bit_length n n : Int) - (bit_length d d : Int) + 1) := by
  obtain ⟨hn1, hn2, hn3⟩ := bit_length_spec n n (le_refl _) hn
  obtain ⟨hd1, hd2, hd3⟩ := bit_length_spec d d (le_refl _) hd
  generalize bit_length n n = bn at hn1 hn2 hn3
  generalize bit_length d d = bd at hd1 hd2 hd3
  have hd' : (0 : ℚ) < d := by exact_mod_cast hd
  have hn1' : ((2 : ℚ) ^ (bn - 1)) ≤ n := by exact_mod_cast hn1
  have hn2' : (n : ℚ) < 2 ^ bn := by exact_mod_cast hn2
  have hd1' : ((2 : ℚ) ^ (bd - 1)) ≤ d := by exact_mod_cast hd1
  have hd2' : (d : ℚ) < 2 ^ bd := by exact_mod_cast hd2
  have e1 : (2 : ℚ) ^ ((bn : Int) - (bd : Int) - 1) = 2 ^ (bn - 1) / 2 ^ bd := by
    rw [show (bn : Int) - (bd : Int) - 1 = ((bn - 1 : Nat) : Int) - ((bd : Nat) : Int) by omega,
      zpow_sub₀ two_ne_zero, zpow_natCast, zpow_natCast]
  have e2 : (2 : ℚ) ^ ((bn : Int) - (bd : Int) + 1) = 2 ^ bn / 2 ^ (bd - 1) := by
    rw [show (bn : Int) - (bd : Int) + 1 = ((bn : Nat) : Int) - ((bd - 1 : Nat) : Int) by omega,
      zpow_sub₀ two_ne_zero, zpow_natCast, zpow_natCast]
  have p1 : (0 : ℚ) < 2 ^ (bn - 1) := by positivity
  have p2 : (0 : ℚ) < 2 ^ (bd - 1) := by positivity
  have p3 : (0 : ℚ) < 2 ^ bd := by positivity
  constructor
  · rw [e1, div_lt_div_iff₀ p3 hd']
    calc (2 : ℚ) ^ (bn - 1) * d < 2 ^ (bn - 1) * 2 ^ bd := by
          apply mul_lt_mul_of_pos_left hd2' p1
      _ ≤ n * 2 ^ bd := by
          apply mul_le_mul_of_nonneg_right hn1' (le_of_lt p3)
  · rw [e2, div_lt_div_iff₀ hd' p2]
    calc (n : ℚ) * 2 ^ (bd - 1) < 2 ^ bn * 2 ^ (bd - 1) := by
          apply mul_lt_mul_of_pos_right hn2' p2
      _ ≤ 2 ^ bn * d := by
          apply mul_le_mul_of_nonneg_left hd1' (by positivity)

/-- A number `M * 2^j` with `|M| < 2^53`, seen on the grid of the integers: it is an
integer when `0 ≤ j`, and below `2^52` in absolute value when `j < 0`; so it does not lie
strictly between `q` and `q + 1` when `2^52 ≤ q`. -/
theorem representable_off_grid (M j : Int) (hM : |M| < 2 ^ 53) (q : Nat) (hq : 2 ^ 52 ≤ q) :
    (M : ℚ) * 2 ^ j ≤ (q : ℚ) ∨ (q : ℚ) + 1 ≤ (M : ℚ) * 2 ^ j := by
  by_cases hj : 0 ≤ j
  · obtain ⟨i, rfl⟩ := Int.eq_ofNat_of_zero_le hj
    rw [zpow_natCast]
    rcases Int.lt_or_le (q : Int) (M * 2 ^ i) with h | h
    · right
      have h2 : (q : Int) + 1 ≤ M * 2 ^ i := h
      exact_mod_cast h2
    · left
      exact_mod_cast h
  · left
    obtain ⟨i, hi⟩ := Int.eq_ofNat_of_zero_le (show 0 ≤ -j - 1 by omega)
    have hj2 : j = -((i : Int) + 1) := by omega
    subst hj2
    have hM' : ((|M| : Int) : ℚ) < 2 ^ 53 := by exact_mod_cast hM
    have hMle : (M : ℚ) ≤ ((|M| : Int) : ℚ) := by exact_mod_cast le_abs_self M
    have hM0 : (0 : ℚ) ≤ ((|M| : Int) : ℚ) := by exact_mod_cast abs_nonneg M
    have hpow : (2 : ℚ) ^ (-((i : Int) + 1)) ≤ 1 / 2 := by
      rw [zpow_neg, show ((i : Int) + 1) = ((i + 1 : Nat) : Int) by push_cast; rfl,
        zpow_natCast, pow_succ]
      have h1 : (1 : ℚ) ≤ 2 ^ i := one_le_pow₀ (by norm_num)
      rw [← one_div, div_le_div_iff₀ (by positivity) (by norm_num)]
      linarith
    have hpow0 : (0 : ℚ) < 2 ^ (-((i : Int) + 1)) := by positivity
    have hq' : (2 : ℚ) ^ 52 ≤ q := by exact_mod_cast hq
    calc (M : ℚ) * 2 ^ (-((i : Int) + 1)) ≤ ((|M| : Int) : ℚ) * 2 ^ (-((i : Int) + 1)) :=
          mul_le_mul_of_nonneg_right hMle (le_of_lt hpow0)
      _ ≤ ((|M| : Int) : ℚ) * (1 / 2) := mul_le_mul_of_nonneg_left hpow hM0
      _ ≤ 2 ^ 53 * (1 / 2) := mul_le_mul_of_nonneg_right (le_of_lt hM') (by norm_num)
      _ = 2 ^ 52 := by norm_num
      _ ≤ q := hq'

/-- The result `(q1, K)` of `round_pos n d E` has `2^52 ≤ q1 ≤ 2^53`, the number
`q1 * 2^K` differs from `n / d * 2^E` by at most half a unit of the last of its 53
digits, and no number `M * 2^F` with `|M| < 2^53` is nearer to `n / d * 2^E`. -/
theorem round_pos_spec (n d : Nat) (E : Int) (hn : 0 < n) (hd : 0 < d) :
    2 ^ 52 ≤ (round_pos n d E).1 ∧ (round_pos n d E).1 ≤ 2 ^ 53 ∧
      |((round_pos n d E).1 : ℚ) * 2 ^ (round_pos n d E).2 - (n : ℚ) / d * 2 ^ E|
        ≤ 2 ^ (round_pos n d E).2 / 2 ∧
      ∀ M F : Int, |M| < 2 ^ 53 →
        |((round_pos n d E).1 : ℚ) * 2 ^ (round_pos n d E).2 - (n : ℚ) / d * 2 ^ E|
          ≤ |(M : ℚ) * 2 ^ F - (n : ℚ) / d * 2 ^ E| := by
  obtain ⟨hx1, hx2⟩ := quotient_bounds n d hn hd
  -- what the rounding step gives for a shift `k` whose truncated quotient has 53 digits
  have key : ∀ k : Int, 2 ^ 52 ≤ scale_num n k / scale_den d k →
      scale_num n k / scale_den d k < 2 ^ 53 →
      ∀ q1 : Nat, q1 = (if 2 * (scale_num n k % scale_den d k) > scale_den d k ∨
          (2 * (scale_num n k % scale_den d k) = scale_den d k ∧
            scale_num n k / scale_den d k % 2 = 1)
          then scale_num n k / scale_den d k + 1 else scale_num n k / scale_den d k) →
      2 ^ 52 ≤ q1 ∧ q1 ≤ 2 ^ 53 ∧
        |(q1 : ℚ) * 2 ^ (k + E) - (n : ℚ) / d * 2 ^ E| ≤ 2 ^ (k + E) / 2 ∧
        ∀ M F : Int, |M| < 2 ^ 53 →
          |(q1 : ℚ) * 2 ^ (k + E) - (n : ℚ) / d * 2 ^ E|
            ≤ |(M : ℚ) * 2 ^ F - (n : ℚ) / d * 2 ^ E| := by
    intro k hq1 hq2 q1 hq
    obtain ⟨hD, hND⟩ := scale_spec n d k hd
    obtain ⟨s1, s2, s3⟩ := round_step (scale_num n k) (scale_den d k) hD
    have s4 := round_step_nearest (scale_num n k) (scale_den d k) hD
    rw [← hq] at s1 s2 s3 s4
    have hk : (0 : ℚ) < 2 ^ k := by positivity
    have hx : (n : ℚ) / d = ((scale_num n k : Nat) : ℚ) / ((scale_den d k : Nat) : ℚ) * 2 ^ k := by
      rw [hND, div_mul_cancel₀ _ (ne_of_gt hk)]
    have hkE : (0 : ℚ) < 2 ^ (k + E) := by positivity
    have hfac : ∀ y : ℚ, y * 2 ^ (k + E) - (n : ℚ) / d * 2 ^ E
        = (y - ((scale_num n k : Nat) : ℚ) / ((scale_den d k : Nat) : ℚ)) * 2 ^ (k + E) := by
      intro y
      rw [hx, zpow_add₀ two_ne_zero]; ring
    refine ⟨by omega, by omega, ?_, ?_⟩
    · rw [hfac, abs_mul, abs_of_pos hkE]
      calc |(q1 : ℚ) - ((scale_num n k : Nat) : ℚ) / ((scale_den d k : Nat) : ℚ)| * 2 ^ (k + E)
          ≤ 1 / 2 * 2 ^ (k + E) := mul_le_mul_of_nonneg_right s3 (le_of_lt hkE)
        _ = 2 ^ (k + E) / 2 := by ring
    · intro M F hM
      have hMF : (M : ℚ) * 2 ^ F = (M : ℚ) * 2 ^ (F - (k + E)) * 2 ^ (k + E) := by
        rw [mul_assoc, ← zpow_add₀ two_ne_zero, sub_add_cancel]
      rw [hMF, hfac, hfac, abs_mul, abs_mul, abs_of_pos hkE]
      apply mul_le_mul_of_nonneg_right _ (le_of_lt hkE)
      apply s4
      exact representable_off_grid M (F - (k + E)) hM _ hq1
  -- the truncated quotient at the first shift has 53 or 54 digits
  generalize hk0 : (bit_length n n : Int) - (bit_length d d : Int) - 53 = k0 at *
  have hb1 : (bit_length n n : Int) - (bit_length d d : Int) - 1 = k0 + 52 := by omega
  have hb2 : (bit_length n n : Int) - (bit_length d d : Int) + 1 = k0 + 54 := by omega
  rw [hb1] at hx1
  rw [hb2] at hx2
  obtain ⟨hD0, hND0⟩ := scale_spec n d k0 hd
  have hk0pos : (0 : ℚ) < 2 ^ k0 := by positivity
  have hy1 : (2 : ℚ) ^ 52 < (n : ℚ) / d / 2 ^ k0 := by
    rw [lt_div_iff₀ hk0pos]
    rw [zpow_add₀ two_ne_zero] at hx1
    have : (2 : ℚ) ^ (52 : Int) = 2 ^ 52 := by norm_cast
    rw [this] at hx1
    linarith
  have hy2 : (n : ℚ) / d / 2 ^ k0 < 2 ^ 54 := by
    rw [div_lt_iff₀ hk0pos]
    rw [zpow_add₀ two_ne_zero] at hx2
    have : (2 : ℚ) ^ (54 : Int) = 2 ^ 54 := by norm_cast
    rw [this] at hx2
    linarith
  have hq0 : 2 ^ 52 ≤ scale_num n k0 / scale_den d k0 := by
    apply le_div_of_cast _ _ _ hD0
    rw [hND0]
    push_cast
    exact le_of_lt hy1
  have hres : round_pos n d E
      = ((if 2 * (scale_num n (if scale_num n k0 / scale_den d k0 < 2 ^ 53 then k0 else k0 + 1)
              % scale_den d (if scale_num n k0 / scale_den d k0 < 2 ^ 53 then k0 else k0 + 1))
            > scale_den d (if scale_num n k0 / scale_den d k0 < 2 ^ 53 then k0 else k0 + 1) ∨
          (2 * (scale_num n (if scale_num n k0 / scale_den d k0 < 2 ^ 53 then k0 else k0 + 1)
              % scale_den d (if scale_num n k0 / scale_den d k0 < 2 ^ 53 then k0 else k0 + 1))
            = scale_den d (if scale_num n k0 / scale_den d k0 < 2 ^ 53 then k0 else k0 + 1) ∧
            scale_num n (if scale_num n k0 / scale_den d k0 < 2 ^ 53 then k0 else k0 + 1)
              / scale_den d (if scale_num n k0 / scale_den d k0 < 2 ^ 53 then k0 else k0 + 1)
              % 2 = 1)
          then scale_num n (if scale_num n k0 / scale_den d k0 < 2 ^ 53 then k0 else k0 + 1)
              / scale_den d (if scale_num n k0 / scale_den d k0 < 2 ^ 53 then k0 else k0 + 1) + 1
          else scale_num n (if scale_num n k0 / scale_den d k0 < 2 ^ 53 then k0 else k0 + 1)
              / scale_den d (if scale_num n k0 / scale_den d k0 < 2 ^ 53 then k0 else k0 + 1)),
        (if scale_num n k0 / scale_den d k0 < 2 ^ 53 then k0 else k0 + 1) + E) := by
    simp only [round_pos, hk0]
  rw [hres]
  by_cases hlt : scale_num n k0 / scale_den d k0 < 2 ^ 53
  · simp only [if_pos hlt]
    exact key k0 hq0 hlt _ rfl
  · simp only [if_neg hlt]
    obtain ⟨hD1, hND1⟩ := scale_spec n d (k0 + 1) hd
    have hge : (2 : ℚ) ^ 53 ≤ (n : ℚ) / d / 2 ^ k0 := by
      rw [← hND0]
      have := cast_div_le (scale_num n k0) (scale_den d k0) hD0
      have h53 : ((2 ^ 53 : Nat) : ℚ) ≤ ((scale_num n k0 / scale_den d k0 : Nat) : ℚ) := by
        exact_mod_cast not_lt.1 hlt
      push_cast at h53
      linarith
    have hhalf : (n : ℚ) / d / 2 ^ (k0 + 1) = (n : ℚ) / d / 2 ^ k0 / 2 := by
      rw [zpow_add₀ two_ne_zero, zpow_one, ← div_div]
    apply key (k0 + 1) _ _ _ rfl
    · apply le_div_of_cast _ _ _ hD1
      rw [hND1, hhalf]
      push_cast
      linarith
    · apply div_lt_of_cast _ _ _ hD1
      rw [hND1, hhalf]
      push_cast
      linarith

theorem toRat_strip (fuel : Nat) : ∀ m e : Int, toRat (strip fuel m e) = (m : ℚ) * 2 ^ e := by
  induction fuel with
  | zero => intro m e; rfl
  | succ fuel ih =>
    intro m e
    simp only [strip]
    split
    · rename_i h
      rw [ih, zpow_add₀ two_ne_zero, zpow_one]
      have hm : m = 2 * (m / 2) := by omega
      have hm' : (m : ℚ) = 2 * ((m / 2 : Int) : ℚ) := by exact_mod_cast hm
      rw [hm']
      ring
    · rfl

theorem toRat_normal (m e : Int) : toRat (normal m e) = (m : ℚ) * 2 ^ e := by
  unfold normal
  split
  · rename_i h
    subst h
    simp [toRat]
  · exact toRat_strip _ m e

/-- The value of `round n d E`: zero for `n = 0`, and otherwise, up to the sign of `n`,
the number `q1 * 2^K` that `round_pos` returns for `|n|`. -/
theorem toRat_round (n : Int) (d : Nat) (E : Int) (hd : 0 < d) :
    toRat (round n d E)
      = if n = 0 then 0
        else (if n < 0 then -1 else 1) * ((round_pos n.natAbs d E).1 : ℚ)
          * 2 ^ (round_pos n.natAbs d E).2 := by
  unfold round
  by_cases hn : n = 0
  · simp [hn, toRat]
  · have hd0 : d ≠ 0 := by omega
    simp only [hn, hd0, or_self, if_false]
    rw [toRat_normal]
    by_cases hneg : n < 0
    · simp only [hneg, if_true]
      push_cast
      ring
    · simp only [hneg, if_false]
      push_cast
      ring

/-- Rounding returns a `double`: a number `M * 2^F` with `|M| < 2^53`. -/
theorem round_representable (n : Int) (d : Nat) (E : Int) (hd : 0 < d) :
    ∃ M F : Int, |M| < 2 ^ 53 ∧ toRat (round n d E) = (M : ℚ) * 2 ^ F := by
  rw [toRat_round n d E hd]
  by_cases hn : n = 0
  · exact ⟨0, 0, by norm_num, by simp [hn]⟩
  · simp only [hn, if_false]
    obtain ⟨h1, h2, -, -⟩ := round_pos_spec n.natAbs d E (by omega) hd
    generalize (round_pos n.natAbs d E).1 = q at h1 h2
    generalize (round_pos n.natAbs d E).2 = K
    by_cases hq : q = 2 ^ 53
    · refine ⟨(if n < 0 then -1 else 1) * 2 ^ 52, K + 1, ?_, ?_⟩
      · split <;> norm_num
      · rw [hq, zpow_add₀ two_ne_zero]
        split <;> push_cast <;> ring
    · refine ⟨(if n < 0 then -1 else 1) * (q : Int), K, ?_, ?_⟩
      · have hlt : (q : Int) < 2 ^ 53 := by
          have : q < 2 ^ 53 := lt_of_le_of_ne h2 hq
          exact_mod_cast this
        split
        · rw [abs_lt]; constructor <;> linarith
        · rw [abs_lt]; constructor <;> linarith
      · split <;> push_cast <;> ring

/-- Rounding is to nearest: no `double` `M * 2^F`, `|M| < 2^53`, is nearer to
`n / d * 2^E` than `round n d E`. -/
theorem round_nearest (n : Int) (d : Nat) (E : Int) (hd : 0 < d) (M F : Int)
    (hM : |M| < 2 ^ 53) :
    |toRat (round n d E) - (n : ℚ) / d * 2 ^ E|
      ≤ |(M : ℚ) * 2 ^ F - (n : ℚ) / d * 2 ^ E| := by
  rw [toRat_round n d E hd]
  by_cases hn : n = 0
  · simp only [hn, if_true]
    simp
  · simp only [hn, if_false]
    obtain ⟨-, -, -, h4⟩ := round_pos_spec n.natAbs d E (by omega) hd
    by_cases hneg : n < 0
    · simp only [hneg, if_true]
      have hcast : (n : ℚ) = -((n.natAbs : Nat) : ℚ) := by
        rw [Nat.cast_natAbs, Int.cast_abs, abs_of_neg (by exact_mod_cast hneg), neg_neg]
      have h := h4 (-M) F (by rwa [abs_neg])
      rw [hcast]
      have e1 : -1 * ((round_pos n.natAbs d E).1 : ℚ) * 2 ^ (round_pos n.natAbs d E).2
          - -((n.natAbs : Nat) : ℚ) / d * 2 ^ E
          = -(((round_pos n.natAbs d E).1 : ℚ) * 2 ^ (round_pos n.natAbs d E).2
            - ((n.natAbs : Nat) : ℚ) / d * 2 ^ E) := by ring
      have e2 : (M : ℚ) * 2 ^ F - -((n.natAbs : Nat) : ℚ) / d * 2 ^ E
          = -((((-M : Int)) : ℚ) * 2 ^ F - ((n.natAbs : Nat) : ℚ) / d * 2 ^ E) := by
        push_cast; ring
      rw [e1, e2, abs_neg, abs_neg]
      exact h
    · simp only [hneg, if_false, one_mul]
      have hcast : (n : ℚ) = ((n.natAbs : Nat) : ℚ) := by
        rw [Nat.cast_natAbs, Int.cast_abs, abs_of_nonneg (by exact_mod_cast not_lt.1 hneg)]
      rw [hcast]
      exact h4 M F hM

/-- The product is the exact product, rounded to nearest. -/
theorem mul_nearest (a b : binary64) (M F : Int) (hM : |M| < 2 ^ 53) :
    |toRat (a * b) - toRat a * toRat b| ≤ |(M : ℚ) * 2 ^ F - toRat a * toRat b| := by
  have h := round_nearest (a.m * b.m) 1 (a.e + b.e) (by norm_num) M F hM
  have e : ((a.m * b.m : Int) : ℚ) / ((1 : Nat) : ℚ) * 2 ^ (a.e + b.e) = toRat a * toRat b := by
    simp only [toRat, zpow_add₀ (two_ne_zero : (2 : ℚ) ≠ 0)]
    push_cast
    ring
  rw [e] at h
  exact h

/-- The quotient by a nonzero number is the exact quotient, rounded to nearest. -/
theorem div_nearest (a b : binary64) (hb : b.m ≠ 0) (M F : Int) (hM : |M| < 2 ^ 53) :
    |toRat (a / b) - toRat a / toRat b| ≤ |(M : ℚ) * 2 ^ F - toRat a / toRat b| := by
  have h := round_nearest (if b.m < 0 then -a.m else a.m) b.m.natAbs (a.e - b.e)
    (by omega) M F hM
  have e : (((if b.m < 0 then -a.m else a.m : Int)) : ℚ) / ((b.m.natAbs : Nat) : ℚ)
      * 2 ^ (a.e - b.e) = toRat a / toRat b := by
    have hbq : (b.m : ℚ) ≠ 0 := by exact_mod_cast hb
    simp only [toRat, zpow_sub₀ (two_ne_zero : (2 : ℚ) ≠ 0)]
    by_cases hneg : b.m < 0
    · have hcast : ((b.m.natAbs : Nat) : ℚ) = -(b.m : ℚ) := by
        rw [Nat.cast_natAbs, Int.cast_abs, abs_of_neg (by exact_mod_cast hneg)]
      simp only [hneg, if_true, hcast]
      push_cast
      field_simp
    · have hcast : ((b.m.natAbs : Nat) : ℚ) = (b.m : ℚ) := by
        rw [Nat.cast_natAbs, Int.cast_abs, abs_of_nonneg (by exact_mod_cast not_lt.1 hneg)]
      simp only [hneg, if_false, hcast]
      field_simp
  rw [e] at h
  exact h

/-- The sum is the exact sum, rounded to nearest. -/
theorem add_nearest (a b : binary64) (M F : Int) (hM : |M| < 2 ^ 53) :
    |toRat (a + b) - (toRat a + toRat b)| ≤ |(M : ℚ) * 2 ^ F - (toRat a + toRat b)| := by
  have h := round_nearest (a.m * 2 ^ (a.e - min a.e b.e).toNat
    + b.m * 2 ^ (b.e - min a.e b.e).toNat) 1 (min a.e b.e) (by norm_num) M F hM
  have e : (((a.m * 2 ^ (a.e - min a.e b.e).toNat
      + b.m * 2 ^ (b.e - min a.e b.e).toNat : Int)) : ℚ) / ((1 : Nat) : ℚ) * 2 ^ (min a.e b.e)
      = toRat a + toRat b := by
    have h1 : ((a.e - min a.e b.e).toNat : Int) = a.e - min a.e b.e :=
      Int.toNat_of_nonneg (by have := min_le_left a.e b.e; omega)
    have h2 : ((b.e - min a.e b.e).toNat : Int) = b.e - min a.e b.e :=
      Int.toNat_of_nonneg (by have := min_le_right a.e b.e; omega)
    have p1 : (2 : ℚ) ^ (a.e - min a.e b.e).toNat * 2 ^ (min a.e b.e) = 2 ^ a.e := by
      rw [← zpow_natCast, h1, ← zpow_add₀ two_ne_zero, sub_add_cancel]
    have p2 : (2 : ℚ) ^ (b.e - min a.e b.e).toNat * 2 ^ (min a.e b.e) = 2 ^ b.e := by
      rw [← zpow_natCast, h2, ← zpow_add₀ two_ne_zero, sub_add_cancel]
    simp only [toRat]
    push_cast
    rw [div_one, add_mul, mul_assoc, mul_assoc, p1, p2]
  rw [e] at h
  exact h

theorem toRat_neg (a : binary64) : toRat (-a) = -toRat a := by
  show toRat (neg a) = -toRat a
  simp [toRat, neg]

/-- The difference is the exact difference, rounded to nearest. -/
theorem sub_nearest (a b : binary64) (M F : Int) (hM : |M| < 2 ^ 53) :
    |toRat (a - b) - (toRat a - toRat b)| ≤ |(M : ℚ) * 2 ^ F - (toRat a - toRat b)| := by
  have h := add_nearest a (-b) M F hM
  rw [toRat_neg, ← sub_eq_add_neg] at h
  exact h

/-- The loop returns the integer square root: `s * s ≤ n < (s + 1) * (s + 1)`. -/
theorem isqrt_loop_spec (k : Nat) : ∀ n : Nat, n < 4 ^ k →
    isqrt_loop k n * isqrt_loop k n ≤ n ∧ n < (isqrt_loop k n + 1) * (isqrt_loop k n + 1) := by
  induction k with
  | zero => intro n h; simp at h; subst h; simp [isqrt_loop]
  | succ k ih =>
    intro n h
    have h4 : n / 4 < 4 ^ k := by
      rw [pow_succ] at h
      omega
    obtain ⟨h1, h2⟩ := ih (n / 4) h4
    simp only [isqrt_loop]
    generalize isqrt_loop k (n / 4) = t at h1 h2
    have e1 : (t + 1) * (t + 1) = t * t + 2 * t + 1 := by ring
    rw [e1] at h2
    split
    · rename_i h3
      refine ⟨h3, ?_⟩
      have e2 : (2 * t + 1 + 1) * (2 * t + 1 + 1) = 4 * (t * t) + 8 * t + 4 := by ring
      rw [e2]
      omega
    · rename_i h3
      refine ⟨?_, by omega⟩
      have e2 : 2 * t * (2 * t) = 4 * (t * t) := by ring
      rw [e2]
      omega

/-- A `double` that is at least `2^53` is an even integer. -/
theorem representable_even (M F : Int) (hM : |M| < 2 ^ 53) (h : (2 : ℝ) ^ 53 ≤ (M : ℝ) * 2 ^ F) :
    ∃ z : Int, (M : ℝ) * 2 ^ F = 2 * (z : ℝ) := by
  have hM' : (M : ℝ) < 2 ^ 53 := by
    have : M < 2 ^ 53 := lt_of_le_of_lt (le_abs_self M) hM
    exact_mod_cast this
  have hF : 1 ≤ F := by
    by_contra hc
    have hF0 : F ≤ 0 := by omega
    have hp : (2 : ℝ) ^ F ≤ 1 := zpow_le_one_of_nonpos₀ (by norm_num) hF0
    have hp0 : (0 : ℝ) < 2 ^ F := by positivity
    have hMpos : (0 : ℝ) < M := by
      by_contra hneg
      have : (M : ℝ) * 2 ^ F ≤ 0 := mul_nonpos_of_nonpos_of_nonneg (not_lt.1 hneg) (le_of_lt hp0)
      have : (0 : ℝ) < 2 ^ 53 := by positivity
      linarith
    have : (M : ℝ) * 2 ^ F ≤ M * 1 := mul_le_mul_of_nonneg_left hp (le_of_lt hMpos)
    linarith
  obtain ⟨i, hi⟩ := Int.eq_ofNat_of_zero_le (show 0 ≤ F - 1 by omega)
  refine ⟨M * 2 ^ i, ?_⟩
  have : F = (i : Int) + 1 := by omega
  rw [this, zpow_add₀ two_ne_zero, zpow_one, zpow_natCast]
  push_cast
  ring

/-- The real form of `representable_off_grid`. -/
theorem representable_off_grid_real (M j : Int) (hM : |M| < 2 ^ 53) (q : Nat)
    (hq : 2 ^ 52 ≤ q) : (M : ℝ) * 2 ^ j ≤ (q : ℝ) ∨ (q : ℝ) + 1 ≤ (M : ℝ) * 2 ^ j := by
  rcases representable_off_grid M j hM q hq with h | h
  · left
    have h2 := (Rat.cast_le (K := ℝ)).2 h
    push_cast at h2
    exact h2
  · right
    have h2 := (Rat.cast_le (K := ℝ)).2 h
    push_cast at h2
    exact h2

/-- If `R` is a `double` nearest to `s + 1/2`, where `s ≥ 2^63` is an integer, then `R` is
nearest to every real `v` strictly between `s` and `s + 1`: no `double` lies strictly
between `s` and `s + 1`, and the doubles on both sides are even integers. -/
theorem nearest_between (s : Nat) (hs : 2 ^ 63 ≤ s) (R : ℝ)
    (hR : ∃ M F : Int, |M| < 2 ^ 53 ∧ R = (M : ℝ) * 2 ^ F)
    (hnear : ∀ M F : Int, |M| < 2 ^ 53 →
      |R - ((s : ℝ) + 1 / 2)| ≤ |(M : ℝ) * 2 ^ F - ((s : ℝ) + 1 / 2)|)
    (v : ℝ) (hv1 : (s : ℝ) < v) (hv2 : v < (s : ℝ) + 1) (M F : Int) (hM : |M| < 2 ^ 53) :
    |R - v| ≤ |(M : ℝ) * 2 ^ F - v| := by
  have hs' : (2 : ℝ) ^ 63 ≤ s := by exact_mod_cast hs
  have hs52 : 2 ^ 52 ≤ s := le_trans (by norm_num) hs
  -- the double `2^63`
  have h0 := hnear (2 ^ 52) 11 (by norm_num)
  have e0 : (((2 ^ 52 : Int)) : ℝ) * 2 ^ (11 : Int) = 2 ^ 63 := by norm_num
  rw [e0, abs_of_nonpos (by linarith : (2 : ℝ) ^ 63 - ((s : ℝ) + 1 / 2) ≤ 0)] at h0
  obtain ⟨MR, FR, hMR, rfl⟩ := hR
  have hRlow : (2 : ℝ) ^ 63 ≤ (MR : ℝ) * 2 ^ FR := by
    have := (abs_le.1 h0).1
    linarith
  obtain ⟨zR, hzR⟩ := representable_even MR FR hMR (le_trans (by norm_num) hRlow)
  have hy := hnear M F hM
  rcases representable_off_grid_real MR FR hMR s hs52 with hRs | hRs
  · rcases representable_off_grid_real M F hM s hs52 with hys | hys
    · rw [abs_of_nonpos (by linarith), abs_of_nonpos (by linarith)] at hy
      rw [abs_of_nonpos (by linarith), abs_of_nonpos (by linarith)]
      linarith
    · obtain ⟨zy, hzy⟩ := representable_even M F hM (by linarith)
      rw [abs_of_nonpos (by linarith), abs_of_nonneg (by linarith)] at hy
      rw [abs_of_nonpos (by linarith), abs_of_nonneg (by linarith)]
      have hz : (s : Int) + 1 ≤ zR + zy := by
        have : (2 * (s : ℝ) + 1) ≤ 2 * ((zR + zy : Int) : ℝ) := by push_cast; linarith
        have h2 : (2 * (s : Int) + 1) ≤ 2 * (zR + zy) := by exact_mod_cast this
        omega
      have hz' : (s : ℝ) + 1 ≤ (zR : ℝ) + zy := by exact_mod_cast hz
      linarith
  · rcases representable_off_grid_real M F hM s hs52 with hys | hys
    · rw [abs_of_nonneg (by linarith), abs_of_nonpos (by linarith)] at hy
      rw [abs_of_nonneg (by linarith), abs_of_nonpos (by linarith)]
      by_cases hbig : (2 : ℝ) ^ 53 ≤ (M : ℝ) * 2 ^ F
      · obtain ⟨zy, hzy⟩ := representable_even M F hM hbig
        have hz : zR + zy ≤ (s : Int) := by
          have : 2 * ((zR + zy : Int) : ℝ) ≤ (2 * (s : ℝ) + 1) := by push_cast; linarith
          have h2 : 2 * (zR + zy) ≤ (2 * (s : Int) + 1) := by exact_mod_cast this
          omega
        have hz' : (zR : ℝ) + zy ≤ (s : ℝ) := by exact_mod_cast hz
        linarith
      · rw [abs_of_nonneg (by linarith)] at h0
        have hz : zR + 2 ^ 62 ≤ (s : Int) := by
          have : 2 * ((zR + 2 ^ 62 : Int) : ℝ) ≤ (2 * (s : ℝ) + 1) := by
            push_cast; linarith
          have h2 : 2 * (zR + 2 ^ 62) ≤ (2 * (s : Int) + 1) := by exact_mod_cast this
          omega
        have hz' : (zR : ℝ) + 2 ^ 62 ≤ (s : ℝ) := by exact_mod_cast hz
        have : (M : ℝ) * 2 ^ F < 2 ^ 53 := not_le.1 hbig
        linarith
    · rw [abs_of_nonneg (by linarith), abs_of_nonneg (by linarith)] at hy
      rw [abs_of_nonneg (by linarith), abs_of_nonneg (by linarith)]
      linarith


/-- The real form of `round_nearest`. -/
theorem round_nearest_real (n : Int) (d : Nat) (E : Int) (hd : 0 < d) (M F : Int)
    (hM : |M| < 2 ^ 53) :
    |((toRat (round n d E) : ℚ) : ℝ) - (n : ℝ) / d * 2 ^ E|
      ≤ |(M : ℝ) * 2 ^ F - (n : ℝ) / d * 2 ^ E| := by
  have h := (Rat.cast_le (K := ℝ)).2 (round_nearest n d E hd M F hM)
  rw [Rat.cast_abs, Rat.cast_abs] at h
  push_cast at h
  exact h

/-- The real form of `round_representable`. -/
theorem round_representable_real (n : Int) (d : Nat) (E : Int) (hd : 0 < d) :
    ∃ M F : Int, |M| < 2 ^ 53 ∧ ((toRat (round n d E) : ℚ) : ℝ) = (M : ℝ) * 2 ^ F := by
  obtain ⟨M, F, hM, h⟩ := round_representable n d E hd
  exact ⟨M, F, hM, by rw [h]; push_cast; rfl⟩

/-- The rounding of `sqrt`, for an argument `m * 2^e` with `e` even. -/
theorem sqrt_core (m : Nat) (h : Int) (hm : 0 < m) (M F : Int) (hM : |M| < 2 ^ 53) :
    |((toRat (round (((2 * isqrt_loop (bit_length (m * 4 ^ 64) (m * 4 ^ 64)) (m * 4 ^ 64)
          + (if isqrt_loop (bit_length (m * 4 ^ 64) (m * 4 ^ 64)) (m * 4 ^ 64)
              * isqrt_loop (bit_length (m * 4 ^ 64) (m * 4 ^ 64)) (m * 4 ^ 64) = m * 4 ^ 64
            then 0 else 1) : Nat)) : Int) 1 (h - 64 - 1)) : ℚ) : ℝ)
        - Real.sqrt ((m : ℝ) * 2 ^ (2 * h))|
      ≤ |(M : ℝ) * 2 ^ F - Real.sqrt ((m : ℝ) * 2 ^ (2 * h))| := by
  have hn : 0 < m * 4 ^ 64 := by positivity
  have hn128 : 2 ^ 128 ≤ m * 4 ^ 64 := by
    have : (4 : Nat) ^ 64 = 2 ^ 128 := by norm_num
    rw [this]
    exact Nat.le_mul_of_pos_left _ hm
  have hcast : ((m * 4 ^ 64 : Nat) : ℝ) = (m : ℝ) * 2 ^ 128 := by
    push_cast; norm_num
  generalize m * 4 ^ 64 = n at hn hn128 hcast
  obtain ⟨-, hbl, -⟩ := bit_length_spec n n (le_refl _) hn
  have hbl4 : n < 4 ^ bit_length n n :=
    lt_of_lt_of_le hbl (Nat.pow_le_pow_left (by norm_num) _)
  obtain ⟨hs1, hs2⟩ := isqrt_loop_spec (bit_length n n) n hbl4
  generalize isqrt_loop (bit_length n n) n = s at hs1 hs2
  have hs64 : 2 ^ 64 ≤ s := by
    by_contra hc
    have h1 : s + 1 ≤ 2 ^ 64 := by omega
    have h2 : (s + 1) * (s + 1) ≤ 2 ^ 64 * 2 ^ 64 := Nat.mul_le_mul h1 h1
    have h3 : (2 : Nat) ^ 64 * 2 ^ 64 = 2 ^ 128 := by norm_num
    omega
  -- the unit `u = 2^(h - 64)`
  have hu : (0 : ℝ) < 2 ^ (h - 64) := by positivity
  have hval : (m : ℝ) * 2 ^ (2 * h) = (n : ℝ) * (2 ^ (h - 64)) ^ 2 := by
    rw [hcast, ← zpow_natCast ((2 : ℝ) ^ (h - 64)) 2, ← zpow_mul, mul_assoc,
      ← zpow_natCast (2 : ℝ) 128, ← zpow_add₀ two_ne_zero]
    congr 2
    push_cast
    ring
  have hsqrt : Real.sqrt ((m : ℝ) * 2 ^ (2 * h)) = Real.sqrt n * 2 ^ (h - 64) := by
    rw [hval, Real.sqrt_mul (Nat.cast_nonneg n), Real.sqrt_sq (le_of_lt hu)]
  rw [hsqrt]
  have hscale : ∀ x c : ℝ, |x * 2 ^ (h - 64) - c * 2 ^ (h - 64)| = |x - c| * 2 ^ (h - 64) := by
    intro x c
    rw [← sub_mul, abs_mul, abs_of_pos hu]
  have hhalf : (2 : ℝ) ^ (h - 64 - 1) = 2 ^ (h - 64) / 2 := by
    rw [zpow_sub₀ two_ne_zero, zpow_one]
  have hn0 : (0 : ℝ) ≤ n := Nat.cast_nonneg n
  have hs1' : ((s : ℝ)) ^ 2 ≤ n := by
    have : ((s * s : Nat) : ℝ) ≤ n := by exact_mod_cast hs1
    rw [pow_two]; push_cast at this; exact this
  have hs2' : (n : ℝ) < ((s : ℝ) + 1) ^ 2 := by
    have : (n : ℝ) < (((s + 1) * (s + 1) : Nat) : ℝ) := by exact_mod_cast hs2
    rw [pow_two]; push_cast at this; exact this
  by_cases hsq : s * s = n
  · -- the root is the integer `s`
    rw [if_pos hsq]
    have hv : Real.sqrt n = s := by
      rw [← hsq]; push_cast
      exact Real.sqrt_mul_self (Nat.cast_nonneg s)
    have hnear := round_nearest_real ((2 * s + 0 : Nat) : Int) 1 (h - 64 - 1) (by norm_num) M F hM
    have ht : (((2 * s + 0 : Nat) : Int) : ℝ) / ((1 : Nat) : ℝ) * 2 ^ (h - 64 - 1)
        = (s : ℝ) * 2 ^ (h - 64) := by
      rw [hhalf]; push_cast; ring
    rw [ht] at hnear
    rw [hv]
    exact hnear
  · -- the root lies strictly between `s` and `s + 1`
    rw [if_neg hsq]
    have hlt : s * s < n := lt_of_le_of_ne hs1 hsq
    have hv1 : (s : ℝ) < Real.sqrt n := by
      rw [Real.lt_sqrt (Nat.cast_nonneg s)]
      have : ((s * s : Nat) : ℝ) < n := by exact_mod_cast hlt
      rw [pow_two]; push_cast at this; exact this
    have hv2 : Real.sqrt n < (s : ℝ) + 1 := by
      rw [Real.sqrt_lt' (by positivity)]
      exact hs2'
    have ht : (((2 * s + 1 : Nat) : Int) : ℝ) / ((1 : Nat) : ℝ) * 2 ^ (h - 64 - 1)
        = ((s : ℝ) + 1 / 2) * 2 ^ (h - 64) := by
      rw [hhalf]; push_cast; ring
    obtain ⟨M0, F0, hM0, hR⟩ :=
      round_representable_real ((2 * s + 1 : Nat) : Int) 1 (h - 64 - 1) (by norm_num)
    have hnear : ∀ M F : Int, |M| < 2 ^ 53 →
        |(M0 : ℝ) * 2 ^ (F0 - (h - 64)) - ((s : ℝ) + 1 / 2)|
          ≤ |(M : ℝ) * 2 ^ F - ((s : ℝ) + 1 / 2)| := by
      intro M1 F1 hM1
      have h1 := round_nearest_real ((2 * s + 1 : Nat) : Int) 1 (h - 64 - 1) (by norm_num)
        M1 (F1 + (h - 64)) hM1
      rw [ht, hR] at h1
      have e1 : (M0 : ℝ) * 2 ^ F0 = (M0 : ℝ) * 2 ^ (F0 - (h - 64)) * 2 ^ (h - 64) := by
        rw [mul_assoc, ← zpow_add₀ two_ne_zero, sub_add_cancel]
      have e2 : (M1 : ℝ) * 2 ^ (F1 + (h - 64)) = (M1 : ℝ) * 2 ^ F1 * 2 ^ (h - 64) := by
        rw [mul_assoc, ← zpow_add₀ two_ne_zero]
      rw [e1, e2, hscale, hscale] at h1
      exact le_of_mul_le_mul_right h1 hu
    have hfin := nearest_between s (le_trans (by norm_num) hs64) _
      ⟨M0, F0 - (h - 64), hM0, rfl⟩ hnear (Real.sqrt n) hv1 hv2 M (F - (h - 64)) hM
    have e1 : (M0 : ℝ) * 2 ^ F0 = (M0 : ℝ) * 2 ^ (F0 - (h - 64)) * 2 ^ (h - 64) := by
      rw [mul_assoc, ← zpow_add₀ two_ne_zero, sub_add_cancel]
    have e2 : (M : ℝ) * 2 ^ F = (M : ℝ) * 2 ^ (F - (h - 64)) * 2 ^ (h - 64) := by
      rw [mul_assoc, ← zpow_add₀ two_ne_zero, sub_add_cancel]
    rw [hR, e1, e2, hscale, hscale]
    exact mul_le_mul_of_nonneg_right hfin (le_of_lt hu)

/-- The square root is correctly rounded: no `double` is nearer to the real square root of
a positive `double` than `sqrt` of it. -/
theorem sqrt_nearest (a : binary64) (ha : 0 < a.m) (M F : Int) (hM : |M| < 2 ^ 53) :
    |((toRat (sqrt a) : ℚ) : ℝ) - Real.sqrt ((toRat a : ℚ) : ℝ)|
      ≤ |(M : ℝ) * 2 ^ F - Real.sqrt ((toRat a : ℚ) : ℝ)| := by
  have hnot : ¬ a.m ≤ 0 := by omega
  have hmc : ((a.m.toNat : Nat) : ℝ) = (a.m : ℝ) := by
    have : ((a.m.toNat : Nat) : Int) = a.m := Int.toNat_of_nonneg (by omega)
    exact_mod_cast this
  by_cases hp : a.e % 2 = 0
  · obtain ⟨h, hh⟩ : ∃ h : Int, a.e = 2 * h := ⟨a.e / 2, by omega⟩
    have hval : ((toRat a : ℚ) : ℝ) = ((a.m.toNat : Nat) : ℝ) * 2 ^ (2 * h) := by
      rw [hmc, ← hh]; simp [toRat]
    have hdef : sqrt a = round (((2 * isqrt_loop (bit_length (a.m.toNat * 4 ^ 64)
          (a.m.toNat * 4 ^ 64)) (a.m.toNat * 4 ^ 64)
          + (if isqrt_loop (bit_length (a.m.toNat * 4 ^ 64) (a.m.toNat * 4 ^ 64))
                (a.m.toNat * 4 ^ 64)
              * isqrt_loop (bit_length (a.m.toNat * 4 ^ 64) (a.m.toNat * 4 ^ 64))
                (a.m.toNat * 4 ^ 64) = a.m.toNat * 4 ^ 64
            then 0 else 1) : Nat)) : Int) 1 (h - 64 - 1) := by
      have hdiv : a.e / 2 = h := by omega
      simp only [sqrt, hnot, hp, if_true, if_false, hdiv]
    rw [hdef, hval]
    exact sqrt_core a.m.toNat h (by omega) M F hM
  · obtain ⟨h, hh⟩ : ∃ h : Int, a.e - 1 = 2 * h := ⟨(a.e - 1) / 2, by omega⟩
    have hval : ((toRat a : ℚ) : ℝ) = ((2 * a.m.toNat : Nat) : ℝ) * 2 ^ (2 * h) := by
      rw [← hh, zpow_sub₀ two_ne_zero, zpow_one]
      push_cast
      rw [hmc]
      simp only [toRat]
      push_cast
      ring
    have hdef : sqrt a = round (((2 * isqrt_loop (bit_length (2 * a.m.toNat * 4 ^ 64)
          (2 * a.m.toNat * 4 ^ 64)) (2 * a.m.toNat * 4 ^ 64)
          + (if isqrt_loop (bit_length (2 * a.m.toNat * 4 ^ 64) (2 * a.m.toNat * 4 ^ 64))
                (2 * a.m.toNat * 4 ^ 64)
              * isqrt_loop (bit_length (2 * a.m.toNat * 4 ^ 64) (2 * a.m.toNat * 4 ^ 64))
                (2 * a.m.toNat * 4 ^ 64) = 2 * a.m.toNat * 4 ^ 64
            then 0 else 1) : Nat)) : Int) 1 (h - 64 - 1) := by
      have hdiv : (a.e - 1) / 2 = h := by omega
      simp only [sqrt, hnot, hp, if_true, if_false, hdiv]
    rw [hdef, hval]
    exact sqrt_core (2 * a.m.toNat) h (by omega) M F hM

/-- The power with a natural exponent is the exact power, rounded to nearest. -/
theorem pow_nearest (a : binary64) (n : Nat) (M F : Int) (hM : |M| < 2 ^ 53) :
    |toRat (a ^ (n : Int)) - toRat a ^ n| ≤ |(M : ℚ) * 2 ^ F - toRat a ^ n| := by
  have h := round_nearest (a.m ^ n) 1 (a.e * n) (by norm_num) M F hM
  have e : ((a.m ^ n : Int) : ℚ) / ((1 : Nat) : ℚ) * 2 ^ (a.e * n) = toRat a ^ n := by
    simp only [toRat, mul_pow]
    rw [zpow_mul, zpow_natCast]
    push_cast
    ring
  rw [e] at h
  have hdef : a ^ (n : Int) = round (a.m ^ n) 1 (a.e * n) := by
    show pow a (n : Int) = _
    simp [pow]
  rw [hdef]
  exact h

/-- The conversion of an integer is the nearest `double`. -/
theorem intCast_nearest (n : Int) (M F : Int) (hM : |M| < 2 ^ 53) :
    |toRat ((n : Int) : binary64) - (n : ℚ)| ≤ |(M : ℚ) * 2 ^ F - (n : ℚ)| := by
  have h := round_nearest n 1 0 (by norm_num) M F hM
  simp only [Nat.cast_one, div_one, zpow_zero, mul_one] at h
  exact h

end binary64

/-! ## The table and the evaluator in double arithmetic

The definitions of the table, run over `binary64`: every stored coefficient and every
value of `evaluate` below is the result of the rounded operations, computed by the
kernel. -/

section rounding

/-- A call that returns a pair whose first component is known returns `.ok` of it. -/
theorem ok_of_map_fst {ε α β : Type} (x : Except ε (α × β)) (a : α)
    (h : x.toOption.map Prod.fst = some a) : ∃ b, x = .ok (a, b) := by
  cases x with
  | error e => simp [Except.toOption] at h
  | ok r =>
    obtain ⟨a1, b⟩ := r
    simp only [Except.toOption, Option.map_some', Option.some.injEq] at h
    exact ⟨b, by rw [h]⟩

/-- Known results of double arithmetic, reproduced by the operations of `binary64`:
`0.1 + 0.2 = 0.30000000000000004` (not the double `0.3`), `1/3`, `sqrt(2)`, the ties
`2^53 + 1 -> 2^53` and `2^53 + 3 -> 2^53 + 4`, `pow(1.1, 3)`, and the exact cases
`pow(x, 0) = 1`, `pow(x, 1) = x`. -/
theorem binary64_examples :
    (1 : binary64) / 10 = ⟨3602879701896397, -55⟩ ∧
      (1 : binary64) / 10 + 2 / 10 = ⟨1351079888211149, -52⟩ ∧
      (3 : binary64) / 10 = ⟨5404319552844595, -54⟩ ∧
      (1 : binary64) / 3 = ⟨6004799503160661, -54⟩ ∧
      binary64.sqrt 2 = ⟨6369051672525773, -52⟩ ∧
      ((2 ^ 53 + 1 : Nat) : binary64) = ⟨1, 53⟩ ∧
      ((2 ^ 53 + 3 : Nat) : binary64) = ⟨2251799813685249, 2⟩ ∧
      ((11 : binary64) / 10) ^ (3 : Int) = ⟨1498572776007533, -50⟩ ∧
      ((11 : binary64) / 10) ^ (0 : Int) = 1 ∧
      ((11 : binary64) / 10) ^ (1 : Int) = (11 : binary64) / 10 := by
  decide!

/-- The table of `associated_legendre(0)` over the doubles. -/
theorem construct_zero_binary64 :
    (associated_legendre.construct 0 : Except Fault (associated_legendre binary64))
      = .ok ⟨[⟨0, 0, ⟨[⟨0, 0, 1⟩]⟩⟩], 0⟩ := rfl

/-- C3, as stated, fails in double arithmetic. At `l = 1`, `z = 0.3` (the double
`5404319552844595 * 2^-54`), the polynomial of `(2, 2)` evaluates to `2.73`
(`6147413491360727 * 2^-51`), while `-(2l+1) * sqrt(1 - z*z) * evaluate(get(1, 1), z)`,
computed from left to right, is `2.7300000000000004` (`768426686420091 * 2^-48`). At
`l = 2`, `z = 1/8`, the polynomial of `(3, 3)` evaluates to `-14.649814388414287`, while
the right-hand side is `-14.649814388414288` in either order of its two products. -/
theorem get_top_order_binary64 :
    ∃ (s : associated_legendre binary64) (t1 t2 t3 : associated_legendre binary64),
      associated_legendre.construct 0 = .ok s ∧
      s.get 1 1 = .ok (⟨[⟨0, 1, ⟨-1, 0⟩⟩]⟩, t1) ∧
      s.get 2 2 = .ok (⟨[⟨0, 2, ⟨3, 0⟩⟩]⟩, t2) ∧
      s.get 3 3 = .ok (⟨[⟨0, 3, ⟨-15, 0⟩⟩]⟩, t3) ∧
      (3 : binary64) / 10 = ⟨5404319552844595, -54⟩ ∧
      (⟨[⟨0, 2, ⟨3, 0⟩⟩]⟩ : associated_legendre_poly binary64).evaluate binary64.sqrt
          ⟨5404319552844595, -54⟩ = ⟨6147413491360727, -51⟩ ∧
      -(2 * 1 + 1) * binary64.sqrt (1 - ⟨5404319552844595, -54⟩ * ⟨5404319552844595, -54⟩)
          * (⟨[⟨0, 1, ⟨-1, 0⟩⟩]⟩ : associated_legendre_poly binary64).evaluate binary64.sqrt
              ⟨5404319552844595, -54⟩ = ⟨768426686420091, -48⟩ ∧
      binary64.toRat ⟨6147413491360727, -51⟩ < binary64.toRat ⟨768426686420091, -48⟩ ∧
      (1 : binary64) / 8 = ⟨1, -3⟩ ∧
      (⟨[⟨0, 3, ⟨-15, 0⟩⟩]⟩ : associated_legendre_poly binary64).evaluate binary64.sqrt
          ⟨1, -3⟩ = ⟨-8247112327588689, -49⟩ ∧
      -(2 * 2 + 1) * binary64.sqrt (1 - ⟨1, -3⟩ * ⟨1, -3⟩)
          * (⟨[⟨0, 2, ⟨3, 0⟩⟩]⟩ : associated_legendre_poly binary64).evaluate binary64.sqrt
              ⟨1, -3⟩ = ⟨-4123556163794345, -48⟩ ∧
      -(2 * 2 + 1) * (binary64.sqrt (1 - ⟨1, -3⟩ * ⟨1, -3⟩)
          * (⟨[⟨0, 2, ⟨3, 0⟩⟩]⟩ : associated_legendre_poly binary64).evaluate binary64.sqrt
              ⟨1, -3⟩) = ⟨-4123556163794345, -48⟩ ∧
      binary64.toRat ⟨-4123556163794345, -48⟩ < binary64.toRat ⟨-8247112327588689, -49⟩ := by
  obtain ⟨t1, h1⟩ := ok_of_map_fst
    ((⟨[⟨0, 0, ⟨[⟨0, 0, 1⟩]⟩⟩], 0⟩ : associated_legendre binary64).get 1 1)
    ⟨[⟨0, 1, ⟨-1, 0⟩⟩]⟩ (by decide!)
  obtain ⟨t2, h2⟩ := ok_of_map_fst
    ((⟨[⟨0, 0, ⟨[⟨0, 0, 1⟩]⟩⟩], 0⟩ : associated_legendre binary64).get 2 2)
    ⟨[⟨0, 2, ⟨3, 0⟩⟩]⟩ (by decide!)
  obtain ⟨t3, h3⟩ := ok_of_map_fst
    ((⟨[⟨0, 0, ⟨[⟨0, 0, 1⟩]⟩⟩], 0⟩ : associated_legendre binary64).get 3 3)
    ⟨[⟨0, 3, ⟨-15, 0⟩⟩]⟩ (by decide!)
  refine ⟨_, t1, t2, t3, construct_zero_binary64, h1, h2, h3, by decide!, by decide!,
    by decide!, ?_, by decide!, by decide!, by decide!, by decide!, ?_⟩
  · norm_num [binary64.toRat]
  · norm_num [binary64.toRat]

/-- C4, as stated, fails in double arithmetic at `l = 3`, `m = 3`: the coefficient stored
for `(3, -3)` is `-15 * fl(1/720) = -0.020833333333333336`
(`-3002399751580331 * 2^-57`), which is neither `-15 * 0!/6! = -1/48` nor the double
nearest to it, and at `z = 0` the left-hand side `evaluate(get(3, -3), 0) * Gamma(7)` is
`-15.000000000000002` (`-8444249301319681 * 2^-49`), while the right-hand side
`evaluate(get(3, 3), 0) * Gamma(1)` is `-15`. -/
theorem get_negative_order_binary64 :
    ∃ (s : associated_legendre binary64) (t1 t2 : associated_legendre binary64),
      associated_legendre.construct 0 = .ok s ∧
      s.get 3 3 = .ok (⟨[⟨0, 3, ⟨-15, 0⟩⟩]⟩, t1) ∧
      s.get 3 (-3) = .ok (⟨[⟨0, 3, ⟨-3002399751580331, -57⟩⟩]⟩, t2) ∧
      binary64.toRat ⟨-3002399751580331, -57⟩
        ≠ -15 * (((3 - 3).factorial : ℚ) / ((3 + 3).factorial : ℚ)) ∧
      (⟨-3002399751580331, -57⟩ : binary64) ≠ binary64.round (-15 * (3 - 3).factorial)
        (3 + 3).factorial 0 ∧
      (gsl_sf_gamma (3 + 3 + 1) : Except Fault binary64) = .ok ⟨45, 4⟩ ∧
      (gsl_sf_gamma (3 - 3 + 1) : Except Fault binary64) = .ok ⟨1, 0⟩ ∧
      (⟨[⟨0, 3, ⟨-3002399751580331, -57⟩⟩]⟩ : associated_legendre_poly binary64).evaluate
          binary64.sqrt 0 * ⟨45, 4⟩ = ⟨-8444249301319681, -49⟩ ∧
      (⟨[⟨0, 3, ⟨-15, 0⟩⟩]⟩ : associated_legendre_poly binary64).evaluate
          binary64.sqrt 0 * ⟨1, 0⟩ = ⟨-15, 0⟩ ∧
      binary64.toRat ⟨-8444249301319681, -49⟩ < binary64.toRat ⟨-15, 0⟩ := by
  obtain ⟨t1, h1⟩ := ok_of_map_fst
    ((⟨[⟨0, 0, ⟨[⟨0, 0, 1⟩]⟩⟩], 0⟩ : associated_legendre binary64).get 3 3)
    ⟨[⟨0, 3, ⟨-15, 0⟩⟩]⟩ (by decide!)
  obtain ⟨t2, h2⟩ := ok_of_map_fst
    ((⟨[⟨0, 0, ⟨[⟨0, 0, 1⟩]⟩⟩], 0⟩ : associated_legendre binary64).get 3 (-3))
    ⟨[⟨0, 3, ⟨-3002399751580331, -57⟩⟩]⟩ (by decide!)
  refine ⟨_, t1, t2, construct_zero_binary64, h1, h2, ?_, by decide!, rfl, rfl,
    by decide!, by decide!, ?_⟩
  · norm_num [binary64.toRat, Nat.factorial]
  · norm_num [binary64.toRat]

/-- C5, as stated, fails in double arithmetic at `l = 5`, `m = 0`: the stored polynomial
is `7.875 z^5 - 8.75 z^3 + 1.8750000000000002 z` and `evaluate` returns
`1.0000000000000002 = 1 + 2^-52` at `z = 1`, not `1`. -/
theorem get_evaluate_at_one_binary64 :
    ∃ (s : associated_legendre binary64) (t : associated_legendre binary64),
      associated_legendre.construct 0 = .ok s ∧
      s.get 5 0 = .ok (⟨[⟨5, 0, ⟨63, -3⟩⟩, ⟨3, 0, ⟨-35, -2⟩⟩,
        ⟨1, 0, ⟨8444249301319681, -52⟩⟩]⟩, t) ∧
      (⟨[⟨5, 0, ⟨63, -3⟩⟩, ⟨3, 0, ⟨-35, -2⟩⟩, ⟨1, 0, ⟨8444249301319681, -52⟩⟩]⟩ :
          associated_legendre_poly binary64).evaluate binary64.sqrt 1
        = ⟨4503599627370497, -52⟩ ∧
      binary64.toRat ⟨4503599627370497, -52⟩ = 1 + 1 / 2 ^ 52 := by
  obtain ⟨t, h⟩ := ok_of_map_fst
    ((⟨[⟨0, 0, ⟨[⟨0, 0, 1⟩]⟩⟩], 0⟩ : associated_legendre binary64).get 5 0)
    ⟨[⟨5, 0, ⟨63, -3⟩⟩, ⟨3, 0, ⟨-35, -2⟩⟩, ⟨1, 0, ⟨8444249301319681, -52⟩⟩]⟩ (by decide!)
  refine ⟨_, t, construct_zero_binary64, h, by decide!, ?_⟩
  norm_num [binary64.toRat]

/-- C18, as stated, fails in double arithmetic at `l = 16`: the coefficient stored for
`(16, 16)` is `191898783962510624`, whereas `(-1)^16 * 31!! = 191898783962510625`. At
`l = 19` the stored coefficient `-7820887119901553 * 2^20` is not even the double nearest
to `(-1)^19 * 37!!`. -/
theorem get_top_binary64 :
    ∃ (s : associated_legendre binary64) (t1 t2 : associated_legendre binary64),
      associated_legendre.construct 0 = .ok s ∧
      s.get 16 16 = .ok (⟨[⟨0, 16, ⟨5996836998828457, 5⟩⟩]⟩, t1) ∧
      binary64.toRat ⟨5996836998828457, 5⟩ = 191898783962510624 ∧
      (191898783962510624 : ℚ) ≠ (-1) ^ 16 * (Nat.doubleFactorial (2 * 16 - 1) : ℚ) ∧
      s.get 19 19 = .ok (⟨[⟨0, 19, ⟨-7820887119901553, 20⟩⟩]⟩, t2) ∧
      (⟨-7820887119901553, 20⟩ : binary64)
        ≠ binary64.round ((-1) ^ 19 * (Nat.doubleFactorial (2 * 19 - 1) : Int)) 1 0 := by
  obtain ⟨t1, h1⟩ := ok_of_map_fst
    ((⟨[⟨0, 0, ⟨[⟨0, 0, 1⟩]⟩⟩], 0⟩ : associated_legendre binary64).get 16 16)
    ⟨[⟨0, 16, ⟨5996836998828457, 5⟩⟩]⟩ (by decide!)
  obtain ⟨t2, h2⟩ := ok_of_map_fst
    ((⟨[⟨0, 0, ⟨[⟨0, 0, 1⟩]⟩⟩], 0⟩ : associated_legendre binary64).get 19 19)
    ⟨[⟨0, 19, ⟨-7820887119901553, 20⟩⟩]⟩ (by decide!)
  refine ⟨_, t1, t2, construct_zero_binary64, h1, ?_, ?_, h2, by decide!⟩
  · norm_num [binary64.toRat]
  · norm_num [Nat.doubleFactorial]

/-- In double arithmetic the colatitude is not invariant under scaling of the point:
`Ylm_cosTheta(1, 2, 3)` is `0.8017837257372732` and `Ylm_cosTheta(5, 10, 15)` is
`0.8017837257372731`. -/
theorem Ylm_cosTheta_scaled_binary64 (M : libm binary64) (hM : M.sqrt = binary64.sqrt) :
    spherical_harmonic.Ylm_cosTheta M 1 2 3 = ⟨7221825776924223, -53⟩ ∧
      spherical_harmonic.Ylm_cosTheta M (5 * 1) (5 * 2) (5 * 3)
        = ⟨3610912888462111, -52⟩ := by
  simp only [spherical_harmonic.Ylm_cosTheta, hM]
  decide!

end rounding

/-! ## The constant `M_PI` -/

section constant_pi

/-- The double nearest to pi lies below pi: half of the gap is between `6.1231e-17` and
`6.1236e-17`. -/
theorem pi_sub_double :
    61231 / 10 ^ 21 < Real.pi / 2 - 884279719003555 / 2 ^ 48 / 2 ∧
      Real.pi / 2 - 884279719003555 / 2 ^ 48 / 2 < 61237 / 10 ^ 21 := by
  have h1 := Real.pi_gt_d20
  have h2 := Real.pi_lt_d20
  constructor
  · norm_num at h1 ⊢
    linarith
  · norm_num at h2 ⊢
    linarith

theorem cos_half_double :
    61230 / 10 ^ 21 < Real.cos (884279719003555 / 2 ^ 48 / 2) ∧
      Real.cos (884279719003555 / 2 ^ 48 / 2) < 61237 / 10 ^ 21 := by
  obtain ⟨h1, h2⟩ := pi_sub_double
  have hx : (884279719003555 / 2 ^ 48 / 2 : ℝ)
      = Real.pi / 2 - (Real.pi / 2 - 884279719003555 / 2 ^ 48 / 2) := by ring
  rw [hx, Real.cos_pi_div_two_sub]
  generalize Real.pi / 2 - 884279719003555 / 2 ^ 48 / 2 = x at h1 h2
  have hx0 : 0 < x := lt_trans (by norm_num) h1
  have hx1 : x ≤ 1 := le_of_lt (lt_trans h2 (by norm_num))
  have hs1 := Real.sin_lt hx0
  have hs2 := Real.sin_gt_sub_cube hx0 hx1
  have hx3 : x ^ 3 / 4 < 1 / 10 ^ 21 := by
    have : x ^ 3 < (61237 / 10 ^ 21) ^ 3 := by gcongr
    have h3 : ((61237 : ℝ) / 10 ^ 21) ^ 3 < 4 / 10 ^ 21 := by norm_num
    linarith
  constructor
  · linarith
  · linarith

theorem sqrt_pfac_double :
    34549 / 10 ^ 5 < Real.sqrt (3 / (8 * (884279719003555 / 2 ^ 48))) ∧
      Real.sqrt (3 / (8 * (884279719003555 / 2 ^ 48))) < 3455 / 10 ^ 4 := by
  constructor
  · rw [Real.lt_sqrt (by norm_num)]
    norm_num
  · rw [Real.sqrt_lt' (by norm_num)]
    norm_num

/-- C11, as stated, fails with the constant `M_PI` of `<math.h>`: it is the double nearest
to `3.14159265358979323846`, the number `884279719003555 / 2^48`, which is below pi. Even
with the exact square root, power, cosine and sine, `evaluate(1, 1, 0, 2, 0)` then uses
`phi = M_PI / 2 < pi / 2` and returns a real part between `-2.12e-17` and `-2.11e-17`,
not `0`. -/
theorem evaluate_M_PI_double :
    binary64.round 314159265358979323846 (10 ^ 20) 0 = ⟨884279719003555, -48⟩ ∧
      ((binary64.toRat ⟨884279719003555, -48⟩ : ℚ) : ℝ) = 884279719003555 / 2 ^ 48 ∧
      ∃ M : libm ℝ, M.sqrt = Real.sqrt ∧ M.pow = (fun x y => x ^ y) ∧
        M.atan2 = (fun y x => Complex.arg ⟨x, y⟩) ∧ M.cos = Real.cos ∧ M.sin = Real.sin ∧
        M.M_PI = 884279719003555 / 2 ^ 48 ∧
        ∃ s v t, spherical_harmonic.construct 0 = .ok s ∧
          spherical_harmonic.Ylm_phi M 0 2 0 = M.M_PI / 2 ∧
          s.evaluate M 1 1 0 2 0 = .ok (v, t) ∧
          -(212 / 10 ^ 19) < v.re ∧ v.re < -(211 / 10 ^ 19) ∧ v.re ≠ 0 := by
  refine ⟨by decide!, by norm_num [binary64.toRat], ⟨Real.sqrt, fun x y => x ^ y,
    fun y x => Complex.arg ⟨x, y⟩, Real.cos, Real.sin, 884279719003555 / 2 ^ 48⟩,
    rfl, rfl, rfl, rfl, rfl, rfl, ?_⟩
  have hcs : cache_state (⟨canonical (Int.toNat 0), associated_legendre_poly.empty, 0, 0⟩ :
      spherical_harmonic ℝ) := ⟨_, rfl, Or.inl ⟨rfl, rfl, rfl⟩⟩
  obtain ⟨t, hload, _, _, _, hp⟩ := load_poly_cache_state _ hcs 1 1 (by norm_num) (by norm_num)
  have hpt : t.alpoly = entry 1 1 := by
    rcases hp with hp | ⟨h0, _⟩
    · simpa using hp
    · omega
  have hphi := Ylm_phi_small (⟨Real.sqrt, fun x y => x ^ y,
    fun y x => Complex.arg ⟨x, y⟩, Real.cos, Real.sin, 884279719003555 / 2 ^ 48⟩ : libm ℝ)
    0 2 0 (by norm_num)
  rw [if_pos (by norm_num)] at hphi
  have hg : 0 < spherical_harmonic.evaluate_xl (⟨Real.sqrt, fun x y => x ^ y,
      fun y x => Complex.arg ⟨x, y⟩, Real.cos, Real.sin, 884279719003555 / 2 ^ 48⟩ : libm ℝ)
      ((1 : Nat) : Int) 0 2 0 := by
    simp only [spherical_harmonic.evaluate_xl]
    apply Real.rpow_pos_of_pos
    norm_num
  have hmain := evaluate_main _ _ t 1 1 (by norm_num) (by norm_num) 0 2 0 hg hload
  simp only [Nat.cast_one, Int.cast_one] at hmain
  have hct : spherical_harmonic.Ylm_cosTheta (⟨Real.sqrt, fun x y => x ^ y,
      fun y x => Complex.arg ⟨x, y⟩, Real.cos, Real.sin, 884279719003555 / 2 ^ 48⟩ : libm ℝ)
      0 2 0 = 0 := by
    simp [spherical_harmonic.Ylm_cosTheta]
  have hpf : (2 + 1) / (4 * (884279719003555 / 2 ^ 48 : ℝ))
      * ((((1 : Int) - 1).toNat.factorial : Nat) : ℝ)
      / ((((1 : Int) + 1).toNat.factorial : Nat) : ℝ)
      = 3 / (8 * (884279719003555 / 2 ^ 48)) := by
    rw [show ((1 : Int) - 1).toNat = 0 from rfl, show ((1 : Int) + 1).toNat = 2 from rfl]
    norm_num [Nat.factorial]
  obtain ⟨hc1, hc2⟩ := cos_half_double
  obtain ⟨hq1, hq2⟩ := sqrt_pfac_double
  have hre : (gsl_complex_mul_real
      (gsl_complex_polar (⟨Real.sqrt, fun x y => x ^ y,
          fun y x => Complex.arg ⟨x, y⟩, Real.cos, Real.sin, 884279719003555 / 2 ^ 48⟩ : libm ℝ)
        1 (1 * spherical_harmonic.Ylm_phi (⟨Real.sqrt, fun x y => x ^ y,
          fun y x => Complex.arg ⟨x, y⟩, Real.cos, Real.sin, 884279719003555 / 2 ^ 48⟩ : libm ℝ)
          0 2 0))
      (Real.sqrt ((2 * 1 + 1) / (4 * (884279719003555 / 2 ^ 48))
            * ((((1 : Int) - 1).toNat.factorial : Nat) : ℝ)
            / ((((1 : Int) + 1).toNat.factorial : Nat) : ℝ))
          * t.alpoly.evaluate Real.sqrt (spherical_harmonic.Ylm_cosTheta (⟨Real.sqrt,
            fun x y => x ^ y, fun y x => Complex.arg ⟨x, y⟩, Real.cos, Real.sin,
            884279719003555 / 2 ^ 48⟩ : libm ℝ) 0 2 0))).re
      = -(Real.sqrt (3 / (8 * (884279719003555 / 2 ^ 48)))
          * Real.cos (884279719003555 / 2 ^ 48 / 2)) := by
    rw [hpt, hct, entry_one_one_evaluate Real.sqrt Real.sqrt_one, hphi,
      show (2 * 1 + 1 : ℝ) = 2 + 1 by norm_num, hpf]
    simp only [gsl_complex_mul_real, gsl_complex_polar, one_mul, mul_neg, mul_one, neg_mul]
  have hprod1 : 211 / 10 ^ 19 < Real.sqrt (3 / (8 * (884279719003555 / 2 ^ 48)))
      * Real.cos (884279719003555 / 2 ^ 48 / 2) := by
    calc (211 / 10 ^ 19 : ℝ) < 34549 / 10 ^ 5 * (61230 / 10 ^ 21) := by norm_num
      _ < Real.sqrt (3 / (8 * (884279719003555 / 2 ^ 48)))
          * Real.cos (884279719003555 / 2 ^ 48 / 2) :=
        mul_lt_mul'' hq1 hc1 (by norm_num) (by norm_num)
  have hprod2 : Real.sqrt (3 / (8 * (884279719003555 / 2 ^ 48)))
      * Real.cos (884279719003555 / 2 ^ 48 / 2) < 212 / 10 ^ 19 := by
    calc Real.sqrt (3 / (8 * (884279719003555 / 2 ^ 48)))
          * Real.cos (884279719003555 / 2 ^ 48 / 2)
        < 3455 / 10 ^ 4 * (61237 / 10 ^ 21) :=
          mul_lt_mul'' hq2 hc2 (Real.sqrt_nonneg _) (le_of_lt (lt_trans (by norm_num) hc1))
      _ < 212 / 10 ^ 19 := by norm_num
  refine ⟨_, _, t, sh_construct_eq 0, hphi, hmain, ?_, ?_, ?_⟩
  · rw [hre]; linarith
  · rw [hre]; linarith
  · rw [hre]; linarith

end constant_pi

end Zeta
